import Mathlib

/-!
Verification of the d-ary heap library (array-backed min-heap with position
trackers and decrease-key operations).

The development shallowly embeds the heap engine (`src/dary/heap.rs`), the
branching-factor arithmetic helpers (`src/dary/daryheap_const_helpers.rs`),
the position trackers (`src/positions/*.rs`) and the default-implemented
combined operations (`src/priority_queue_deckey.rs`) into Lean, and proves
the specified invariants and behavioural properties about the embedding.

Conventions of the embedding:
* Rust `usize` values become `Nat`.  The shift-based helpers use `Nat`
  truncated subtraction; every call site keeps the arguments at or above
  the sentinel offset, where the Rust arithmetic does not underflow either.
* The key type `K` is a linear order.  The Rust code only requires
  `PartialOrd`; the specification leaves behaviour on incomparable keys
  unspecified, and all the properties verified here are stated for totally
  ordered keys.
* Rust loops are modelled as fuel-indexed structural recursions.  The fuel
  passed by each caller strictly dominates the loop variable's measure, so
  the fuel branch is never reached from the embedded entry points.
* Operations that can panic (`decrease_key`, `update_key`, `remove`,
  tracker insertion beyond the index bound) return `Option`, with `none`
  standing for the panic.
-/

namespace DaryHeap

/-- Sentinel offset, from `daryheap_const_helpers::offset`: `D - 1` for the
small powers of two, `0` otherwise. -/
def offset (D : Nat) : Nat :=
  match D with
  | 2 => 1
  | 4 => 3
  | 8 => 7
  | 16 => 15
  | 32 => 31
  | 64 => 63
  | _ => 0

/-- Parent index of a child slot, from `daryheap_const_helpers::parent_of`:
shift-based for the small powers of two, `(c - 1) / D` otherwise. -/
def parent_of (D : Nat) (child : Nat) : Nat :=
  match D with
  | 2 => child >>> 1
  | 4 => (child >>> 2) + 2
  | 8 => (child >>> 3) + 6
  | 16 => (child >>> 4) + 14
  | 32 => (child >>> 5) + 30
  | 64 => (child >>> 6) + 62
  | _ => (child - 1) / D

/-- First (leftmost) child index of a parent slot, from
`daryheap_const_helpers::left_child_of`. -/
def left_child_of (D : Nat) (parent : Nat) : Nat :=
  match D with
  | 2 => parent <<< 1
  | 4 => (parent <<< 2) - 8
  | 8 => (parent <<< 3) - 48
  | 16 => (parent <<< 4) - 224
  | 32 => (parent <<< 5) - 960
  | 64 => (parent <<< 6) - 3968
  | _ => D * parent + 1

/-- The six branching factors that get the shift-based specialization. -/
def specialD (D : Nat) : Prop := D = 2 ∨ D = 4 ∨ D = 8 ∨ D = 16 ∨ D = 32 ∨ D = 64

-- ===== DEFS CONTINUE =====

/-- Total list indexing with the `Inhabited` default; every index used by the
embedded operations is in bounds on the states the theorems quantify over. -/
def getAt {α : Type} [Inhabited α] (l : List α) (i : Nat) : α := l.getD i default

variable {N K P : Type}

/-- Key stored at a slot. -/
def keyAt [Inhabited N] [Inhabited K] (t : List (N × K)) (i : Nat) : K := (getAt t i).2

/-- Node (element) stored at a slot. -/
def nodeAt [Inhabited N] [Inhabited K] (t : List (N × K)) (i : Nat) : N := (getAt t i).1

/-- The position-tracker interface, from `positions/heap_positions.rs`
(`HeapPositions<N>`): the heap engine is generic over it. -/
structure PosImpl (P N : Type) where
  contains : P → N → Bool
  positionOf : P → N → Option Nat
  pclear : P → P
  insert : P → N → Nat → P
  remove : P → N → P
  updatePositionOf : P → N → Nat → P

/-- The heap engine state, from `dary/heap.rs` (`Heap<N, K, P, D>`): the
backing tree (with the private sentinel prefix of length `offset D`) and the
position tracker. -/
structure Heap (N K P : Type) where
  tree : List (N × K)
  positions : P

/-- Construction of the engine (`Heap::new`): the sentinel prefix is pushed
up front; its slots (`MaybeUninit` in Rust) are modelled by an arbitrary
`junk` pair that is never read. -/
def newHeap (D : Nat) (junk : N × K) (ps : P) : Heap N K P :=
  ⟨List.replicate (offset D) junk, ps⟩

variable [Inhabited N] [Inhabited K] [LinearOrder K]

/-- The while-loop of `Heap::heapify_up`, carrying the sifted node `nd` in a
hole at `child`; `parent` is `parent_of child`.  The fuel dominates `parent`,
which strictly decreases, so the fuel case is never reached from
`heapifyUp`. -/
def hUpGo (D : Nat) (impl : PosImpl P N) :
    Nat → N × K → List (N × K) → P → Nat → Nat → List (N × K) × P
  | 0, nd, t, ps, child, _ =>
    (t.set child nd, impl.updatePositionOf ps nd.1 child)
  | fuel + 1, nd, t, ps, child, parent =>
    if nd.2 < (getAt t parent).2 then
      let t2 := t.set child (getAt t parent)
      let ps2 := impl.updatePositionOf ps (getAt t parent).1 child
      if parent = offset D then
        (t2.set parent nd, impl.updatePositionOf ps2 nd.1 parent)
      else
        hUpGo D impl fuel nd t2 ps2 parent (parent_of D parent)
    else (t.set child nd, impl.updatePositionOf ps nd.1 child)

/-- Entry point of `Heap::heapify_up`: early returns mirror the Rust code;
otherwise the hole-carrying loop runs. -/
def heapifyUp (D : Nat) (impl : PosImpl P N) (h : Heap N K P) (s : Nat) :
    Heap N K P :=
  if s = offset D then h
  else
    let parent := parent_of D s
    if (getAt h.tree parent).2 ≤ (getAt h.tree s).2 then h
    else
      let r := hUpGo D impl s (getAt h.tree s) h.tree h.positions s parent
      ⟨r.1, r.2⟩

/-- The best-child scan of `Heap::heapify_down` (`for i in 1..D` with an
early break past the live length), counting down `rem = D - i`. -/
def bcGo (t : List (N × K)) (treeLen first : Nat) :
    Nat → Nat → Nat × K → Nat × K
  | _, 0, best => best
  | i, rem + 1, best =>
    let nextChild := first + i
    if treeLen ≤ nextChild then best
    else
      let best2 :=
        if (getAt t nextChild).2 < best.2 then (nextChild, (getAt t nextChild).2)
        else best
      bcGo t treeLen first (i + 1) rem best2

/-- Scan the up-to-`D` children starting at `first`, returning the index and
key of the leftmost child with the minimum key. -/
def bestChild (D : Nat) (t : List (N × K)) (treeLen first : Nat) : Nat × K :=
  bcGo t treeLen first 1 (D - 1) (first, (getAt t first).2)

/-- The while-loop of `Heap::heapify_down`, carrying the sifted node `nd` in
a hole at `parent`, with current best child `bc` of key `bk`.  The fuel
dominates `treeLen - parent`, which strictly decreases. -/
def hDownGo (D : Nat) (impl : PosImpl P N) (treeLen : Nat) :
    Nat → N × K → List (N × K) → P → Nat → Nat → K → List (N × K) × P
  | 0, nd, t, ps, parent, _, _ =>
    (t.set parent nd, impl.updatePositionOf ps nd.1 parent)
  | fuel + 1, nd, t, ps, parent, bc, bk =>
    if bk < nd.2 then
      let t2 := t.set parent (getAt t bc)
      let ps2 := impl.updatePositionOf ps (getAt t bc).1 parent
      let fc := left_child_of D bc
      if treeLen ≤ fc then (t2.set bc nd, impl.updatePositionOf ps2 nd.1 bc)
      else
        let b2 := bestChild D t2 treeLen fc
        hDownGo D impl treeLen fuel nd t2 ps2 bc b2.1 b2.2
    else (t.set parent nd, impl.updatePositionOf ps nd.1 parent)

/-- Entry point of `Heap::heapify_down`. -/
def heapifyDown (D : Nat) (impl : PosImpl P N) (h : Heap N K P) (s : Nat) :
    Heap N K P :=
  let treeLen := h.tree.length
  let fc := left_child_of D s
  if treeLen ≤ fc then h
  else
    let b := bestChild D h.tree treeLen fc
    if (getAt h.tree s).2 ≤ b.2 then h
    else
      let r := hDownGo D impl treeLen treeLen (getAt h.tree s) h.tree h.positions s b.1 b.2
      ⟨r.1, r.2⟩

/-- Internal helper `Heap::remove_and_heapify` (swap-and-reheapify). -/
def removeAndHeapify (D : Nat) (impl : PosImpl P N) (h : Heap N K P) (s : Nat) :
    Heap N K P :=
  let treeLen := h.tree.length
  let last := treeLen - 1
  if treeLen = offset D + 1 then
    ⟨h.tree.take (offset D), impl.remove h.positions (getAt h.tree (offset D)).1⟩
  else if s = last then
    ⟨h.tree.take last, impl.remove h.positions (getAt h.tree s).1⟩
  else
    let ps1 := impl.remove h.positions (getAt h.tree s).1
    let ps2 := impl.updatePositionOf ps1 (getAt h.tree last).1 s
    let t1 := (h.tree.set s (getAt h.tree last)).take last
    if offset D < s ∧ keyAt t1 s < keyAt t1 (parent_of D s) then
      heapifyUp D impl ⟨t1, ps2⟩ s
    else
      heapifyDown D impl ⟨t1, ps2⟩ s

/-- Operation `Heap::pop`: swap-remove the root, sift down, return the old
root pair. -/
def popOp (D : Nat) (impl : PosImpl P N) (h : Heap N K P) :
    Option (N × K) × Heap N K P :=
  if h.tree.length = offset D then (none, h)
  else
    let lastNode := (getAt h.tree (h.tree.length - 1)).1
    let ps1 := impl.updatePositionOf h.positions lastNode (offset D)
    let ps2 := impl.remove ps1 (getAt h.tree (offset D)).1
    let popped := getAt h.tree (offset D)
    let t1 := (h.tree.set (offset D) (getAt h.tree (h.tree.length - 1))).take (h.tree.length - 1)
    (some popped, heapifyDown D impl ⟨t1, ps2⟩ (offset D))

/-- Operation `Heap::pop_node` (same state evolution as `pop`; returns only
the element). -/
def popNodeOp (D : Nat) (impl : PosImpl P N) (h : Heap N K P) :
    Option N × Heap N K P :=
  if h.tree.length = offset D then (none, h)
  else
    let lastNode := (getAt h.tree (h.tree.length - 1)).1
    let ps1 := impl.updatePositionOf h.positions lastNode (offset D)
    let ps2 := impl.remove ps1 (getAt h.tree (offset D)).1
    let popped := (getAt h.tree (offset D)).1
    let t1 := (h.tree.set (offset D) (getAt h.tree (h.tree.length - 1))).take (h.tree.length - 1)
    (some popped, heapifyDown D impl ⟨t1, ps2⟩ (offset D))

/-- Operation `Heap::pop_key` (same state evolution as `pop`; returns only
the key). -/
def popKeyOp (D : Nat) (impl : PosImpl P N) (h : Heap N K P) :
    Option K × Heap N K P :=
  if h.tree.length = offset D then (none, h)
  else
    let lastNode := (getAt h.tree (h.tree.length - 1)).1
    let ps1 := impl.updatePositionOf h.positions lastNode (offset D)
    let ps2 := impl.remove ps1 (getAt h.tree (offset D)).1
    let popped := (getAt h.tree (offset D)).2
    let t1 := (h.tree.set (offset D) (getAt h.tree (h.tree.length - 1))).take (h.tree.length - 1)
    (some popped, heapifyDown D impl ⟨t1, ps2⟩ (offset D))

/-- Operation `Heap::push`: append, record the position, sift up. -/
def push (D : Nat) (impl : PosImpl P N) (h : Heap N K P) (n : N) (k : K) :
    Heap N K P :=
  let position := h.tree.length
  let ps1 := impl.insert h.positions n position
  heapifyUp D impl ⟨h.tree ++ [(n, k)], ps1⟩ position

/-- Operation `Heap::push_then_pop`: fast path returns the candidate when the
heap is empty or the root key is not worse; otherwise overwrite the root,
sift down, and return the old root. -/
def pushThenPop (D : Nat) (impl : PosImpl P N) (h : Heap N K P) (n : N) (k : K) :
    (N × K) × Heap N K P :=
  if h.tree.length = offset D ∨ k ≤ (getAt h.tree (offset D)).2 then ((n, k), h)
  else
    let ps1 := impl.remove h.positions (getAt h.tree (offset D)).1
    let ps2 := impl.insert ps1 n (offset D)
    let popped := getAt h.tree (offset D)
    let t1 := h.tree.set (offset D) (n, k)
    (popped, heapifyDown D impl ⟨t1, ps2⟩ (offset D))

/-- Operation `Heap::clear`: truncate to the sentinel prefix and clear the
tracker. -/
def clearOp (D : Nat) (impl : PosImpl P N) (h : Heap N K P) : Heap N K P :=
  ⟨h.tree.take (offset D), impl.pclear h.positions⟩

/-- Read `Heap::contains` (delegates to the tracker). -/
def containsH (impl : PosImpl P N) (h : Heap N K P) (n : N) : Bool :=
  impl.contains h.positions n

/-- Read `Heap::key_of` (position lookup, then the key at that slot). -/
def keyOf (impl : PosImpl P N) (h : Heap N K P) (n : N) : Option K :=
  (impl.positionOf h.positions n).map fun i => (getAt h.tree i).2

/-- Operation `Heap::decrease_key`; `none` models the two panics (absent
element / key not decreased). -/
def decreaseKey (D : Nat) (impl : PosImpl P N) (h : Heap N K P) (n : N) (k : K) :
    Option (Heap N K P) :=
  match impl.positionOf h.positions n with
  | none => none
  | some position =>
    if k ≤ (getAt h.tree position).2 then
      some (heapifyUp D impl
        ⟨h.tree.set position ((getAt h.tree position).1, k), h.positions⟩ position)
    else none

/-- Result type of `update_key`, from `priority_queue_deckey.rs`. -/
inductive ResUpdateKey where
  | Decreased
  | Increased
deriving DecidableEq

/-- Result type of `try_decrease_key`. -/
inductive ResTryDecreaseKey where
  | Decreased
  | Unchanged
deriving DecidableEq

/-- Result type of `decrease_key_or_push`. -/
inductive ResDecreaseKeyOrPush where
  | Pushed
  | Decreased
deriving DecidableEq

/-- Result type of `update_key_or_push`. -/
inductive ResUpdateKeyOrPush where
  | Pushed
  | Decreased
  | Increased
deriving DecidableEq

/-- Result type of `try_decrease_key_or_push`. -/
inductive ResTryDecreaseKeyOrPush where
  | Pushed
  | Decreased
  | Unchanged
deriving DecidableEq

/-- Conversion `From<ResUpdateKey> for ResUpdateKeyOrPush`. -/
def ResUpdateKey.toOrPush : ResUpdateKey → ResUpdateKeyOrPush
  | .Decreased => .Decreased
  | .Increased => .Increased

/-- Operation `Heap::update_key`; `none` models the absent-element panic. -/
def updateKey (D : Nat) (impl : PosImpl P N) (h : Heap N K P) (n : N) (k : K) :
    Option (ResUpdateKey × Heap N K P) :=
  match impl.positionOf h.positions n with
  | none => none
  | some position =>
    let up := k < (getAt h.tree position).2
    let h1 : Heap N K P := ⟨h.tree.set position ((getAt h.tree position).1, k), h.positions⟩
    if up then some (.Decreased, heapifyUp D impl h1 position)
    else some (.Increased, heapifyDown D impl h1 position)

/-- Operation `Heap::remove`; `none` models the absent-element panic. -/
def removeOp (D : Nat) (impl : PosImpl P N) (h : Heap N K P) (n : N) :
    Option (K × Heap N K P) :=
  match impl.positionOf h.positions n with
  | none => none
  | some position =>
    some ((getAt h.tree position).2, removeAndHeapify D impl h position)

/-- Default-implemented `PriorityQueueDecKey::try_decrease_key`. -/
def tryDecreaseKey (D : Nat) (impl : PosImpl P N) (h : Heap N K P) (n : N) (k : K) :
    Option (ResTryDecreaseKey × Heap N K P) :=
  match keyOf impl h n with
  | none => none
  | some oldKey =>
    if k < oldKey then (decreaseKey D impl h n k).map fun h2 => (.Decreased, h2)
    else some (.Unchanged, h)

/-- Default-implemented `PriorityQueueDecKey::decrease_key_or_push`. -/
def decreaseKeyOrPush (D : Nat) (impl : PosImpl P N) (h : Heap N K P) (n : N) (k : K) :
    Option (ResDecreaseKeyOrPush × Heap N K P) :=
  if containsH impl h n then (decreaseKey D impl h n k).map fun h2 => (.Decreased, h2)
  else some (.Pushed, push D impl h n k)

/-- Default-implemented `PriorityQueueDecKey::update_key_or_push`. -/
def updateKeyOrPush (D : Nat) (impl : PosImpl P N) (h : Heap N K P) (n : N) (k : K) :
    Option (ResUpdateKeyOrPush × Heap N K P) :=
  if containsH impl h n then
    (updateKey D impl h n k).map fun r => (r.1.toOrPush, r.2)
  else some (.Pushed, push D impl h n k)

/-- Default-implemented `PriorityQueueDecKey::try_decrease_key_or_push`
(total in Rust; the `none` branch of the inner `decrease_key` is provably
never taken). -/
def tryDecreaseKeyOrPush (D : Nat) (impl : PosImpl P N) (h : Heap N K P) (n : N) (k : K) :
    Option (ResTryDecreaseKeyOrPush × Heap N K P) :=
  match keyOf impl h n with
  | some oldKey =>
    if k < oldKey then (decreaseKey D impl h n k).map fun h2 => (.Decreased, h2)
    else some (.Unchanged, h)
  | none => some (.Pushed, push D impl h n k)

/-- The trivial tracker of the plain heap, from `positions/none.rs`
(`HeapPositionsNone`). -/
def noneImpl (N : Type) : PosImpl Unit N where
  contains := fun _ _ => false
  positionOf := fun _ _ => none
  pclear := fun p => p
  insert := fun p _ _ => p
  remove := fun p _ => p
  updatePositionOf := fun p _ _ => p

/-- The associative tracker of the mapped heap, from `positions/map.rs`
(`HeapPositionsMap`); the hash map is modelled by its lookup function. -/
def mapImpl (N : Type) [DecidableEq N] : PosImpl (N → Option Nat) N where
  contains := fun p n => (p n).isSome
  positionOf := fun p n => p n
  pclear := fun _ _ => none
  insert := fun p n i m => if m = n then some i else p m
  remove := fun p n m => if m = n then none else p m
  updatePositionOf := fun p n i m => if m = n then some i else p m

/-- The dense tracker of the indexed heap, from `positions/has_index.rs`
(`HeapPositionsHasIndex`): a fixed array of cells indexed by the element
identifier `ix`, a cell being `none` for the `usize::MAX` sentinel.  The
array accesses are totalized here (`getD` / no-op `set`); the partial,
panicking accesses are modelled separately by the `Checked` variants. -/
def hasIndexImpl (N : Type) (ix : N → Nat) : PosImpl (List (Option Nat)) N where
  contains := fun p n => (p.getD (ix n) none).isSome
  positionOf := fun p n => p.getD (ix n) none
  pclear := fun p => p.map fun _ => none
  insert := fun p n i => p.set (ix n) (some i)
  remove := fun p n => p.set (ix n) none
  updatePositionOf := fun p n i => p.set (ix n) (some i)

/-- Checked model of `HeapPositionsHasIndex::insert`
(`self.positions[node.index()] = position`): `none` models the
index-out-of-bound panic of the slice indexing. -/
def insertChecked (p : List (Option Nat)) (i : Nat) (pos : Nat) :
    Option (List (Option Nat)) :=
  if i < p.length then some (p.set i (some pos)) else none

/-- Checked model of `HeapPositionsHasIndex::contains`
(`self.positions[node.index()] != NONE`): `none` models the
index-out-of-bound panic. -/
def containsChecked (p : List (Option Nat)) (i : Nat) : Option Bool :=
  if i < p.length then some (p.getD i none).isSome else none

/-- Checked model of `HeapPositionsHasIndex::position_of`. -/
def positionOfChecked (p : List (Option Nat)) (i : Nat) : Option (Option Nat) :=
  if i < p.length then some (p.getD i none) else none

/-- Checked model of `Heap::push` on the indexed heap: the tracker insertion
is the only slice access that can go out of bounds on a tracker-agreeing
state, so only it is checked; the sift-up then touches elements already in
the tree. -/
def pushCheckedIdx (D : Nat) (ix : N → Nat) (h : Heap N K (List (Option Nat)))
    (n : N) (k : K) : Option (Heap N K (List (Option Nat))) :=
  let position := h.tree.length
  match insertChecked h.positions (ix n) position with
  | none => none
  | some ps1 => some (heapifyUp D (hasIndexImpl N ix) ⟨h.tree ++ [(n, k)], ps1⟩ position)

/-- Checked model of `Heap::contains` on the indexed heap. -/
def containsCheckedIdx (ix : N → Nat) (h : Heap N K (List (Option Nat))) (n : N) :
    Option Bool :=
  containsChecked h.positions (ix n)

/-- Checked model of `Heap::key_of` on the indexed heap (both the tracker
read and the tree read are checked). -/
def keyOfCheckedIdx (ix : N → Nat) (h : Heap N K (List (Option Nat))) (n : N) :
    Option (Option K) :=
  match positionOfChecked h.positions (ix n) with
  | none => none
  | some none => some none
  | some (some i) =>
    if i < h.tree.length then some (some (getAt h.tree i).2) else none

/-- Heap order (the specified invariant): every live non-root slot has a key
at least the key at its parent slot. -/
def HeapOrdered (D : Nat) (t : List (N × K)) : Prop :=
  ∀ c, c < t.length → offset D < c → keyAt t (parent_of D c) ≤ keyAt t c

/-- Tracker agreement (the specified invariant for indexed and mapped
heaps): the tracker maps an element to a slot exactly when that live slot of
the tree holds the element. -/
def Agrees (D : Nat) (impl : PosImpl P N) (ps : P) (t : List (N × K)) : Prop :=
  ∀ n i, impl.positionOf ps n = some i ↔
    (offset D ≤ i ∧ i < t.length ∧ nodeAt t i = n)

variable [DecidableEq N]

/-- Equational laws of a tracker implementation, parameterized by the
in-bound predicate `ok` on elements and the well-formedness predicate `good`
on tracker states (both trivially true for the mapped tracker; for the
indexed tracker `ok` bounds the identifier and `good` fixes the array
length). -/
structure PosLaws (impl : PosImpl P N) (ok : N → Prop) (good : P → Prop) : Prop where
  posOf_insert : ∀ p n i, good p → ok n → ∀ m,
    impl.positionOf (impl.insert p n i) m =
      if m = n then some i else impl.positionOf p m
  posOf_update : ∀ p n i, good p → ok n → ∀ m,
    impl.positionOf (impl.updatePositionOf p n i) m =
      if m = n then some i else impl.positionOf p m
  posOf_remove : ∀ p n, good p → ok n → ∀ m,
    impl.positionOf (impl.remove p n) m =
      if m = n then none else impl.positionOf p m
  posOf_clear : ∀ p m, impl.positionOf (impl.pclear p) m = none
  contains_eq : ∀ p n, impl.contains p n = (impl.positionOf p n).isSome
  good_insert : ∀ p n i, good p → good (impl.insert p n i)
  good_update : ∀ p n i, good p → good (impl.updatePositionOf p n i)
  good_remove : ∀ p n, good p → good (impl.remove p n)
  good_clear : ∀ p, good p → good (impl.pclear p)

/-- A tracker is admissible when it is either trivially absent (the plain
heap's `HeapPositionsNone`) or satisfies the equational laws. -/
def TrackerOK (impl : PosImpl P N) (ok : N → Prop) (good : P → Prop) : Prop :=
  ((∀ p n, impl.positionOf p n = none) ∧ (∀ p n, impl.contains p n = false)) ∨
    PosLaws impl ok good

/-- Heap states reachable from a freshly constructed heap by public
operations that respect the documented preconditions: pushes (and the
pushing branches of the combined operations) insert an absent, in-bound
element; the `Option`-valued operations contribute only their non-panicking
runs. -/
inductive Reachable (D : Nat) (impl : PosImpl P N) (ok : N → Prop) (good : P → Prop) :
    Heap N K P → Prop where
  | init : ∀ ps0 junk, (∀ n, impl.positionOf ps0 n = none) →
      (∀ n, impl.contains ps0 n = false) → good ps0 →
      Reachable D impl ok good (newHeap D junk ps0)
  | push : ∀ {h} n k, Reachable D impl ok good h → ok n →
      impl.contains h.positions n = false →
      Reachable D impl ok good (push D impl h n k)
  | pop : ∀ {h}, Reachable D impl ok good h →
      Reachable D impl ok good (popOp D impl h).2
  | popNode : ∀ {h}, Reachable D impl ok good h →
      Reachable D impl ok good (popNodeOp D impl h).2
  | popKey : ∀ {h}, Reachable D impl ok good h →
      Reachable D impl ok good (popKeyOp D impl h).2
  | clear : ∀ {h}, Reachable D impl ok good h →
      Reachable D impl ok good (clearOp D impl h)
  | pushThenPop : ∀ {h} n k, Reachable D impl ok good h → ok n →
      impl.contains h.positions n = false →
      Reachable D impl ok good (pushThenPop D impl h n k).2
  | decreaseKey : ∀ {h h2} n k, Reachable D impl ok good h →
      decreaseKey D impl h n k = some h2 → Reachable D impl ok good h2
  | updateKey : ∀ {h h2 r} n k, Reachable D impl ok good h →
      updateKey D impl h n k = some (r, h2) → Reachable D impl ok good h2
  | tryDecreaseKey : ∀ {h h2 r} n k, Reachable D impl ok good h →
      tryDecreaseKey D impl h n k = some (r, h2) → Reachable D impl ok good h2
  | removeO : ∀ {h h2 k0} n, Reachable D impl ok good h →
      removeOp D impl h n = some (k0, h2) → Reachable D impl ok good h2
  | decKeyOrPush : ∀ {h h2 r} n k, Reachable D impl ok good h → ok n →
      decreaseKeyOrPush D impl h n k = some (r, h2) → Reachable D impl ok good h2
  | updKeyOrPush : ∀ {h h2 r} n k, Reachable D impl ok good h → ok n →
      updateKeyOrPush D impl h n k = some (r, h2) → Reachable D impl ok good h2
  | tryDecKeyOrPush : ∀ {h h2 r} n k, Reachable D impl ok good h → ok n →
      tryDecreaseKeyOrPush D impl h n k = some (r, h2) → Reachable D impl ok good h2

/-- Repeatedly pop, collecting the returned pairs; the fuel is instantiated
with the tree length, which bounds the number of non-empty pops. -/
def popList (D : Nat) (impl : PosImpl P N) : Nat → Heap N K P → List (N × K)
  | 0, _ => []
  | fuel + 1, h =>
    match popOp D impl h with
    | (none, _) => []
    | (some nk, h2) => nk :: popList D impl fuel h2

/-- The keys returned by successive pops until the heap is empty. -/
def popKeys (D : Nat) (impl : PosImpl P N) (h : Heap N K P) : List K :=
  (popList D impl h.tree.length h).map Prod.snd

/-- Every live slot of `t1` holds a pair that some live slot of `t2` holds:
the sifting loops only rearrange and copy live pairs. -/
def LiveSub (off : Nat) (t1 t2 : List (N × K)) : Prop :=
  ∀ i, off ≤ i → i < t1.length → ∃ j, off ≤ j ∧ j < t2.length ∧ getAt t2 j = getAt t1 i

/-- All live slots hold in-bound elements (the bound discipline). -/
def OkAll (D : Nat) (ok : N → Prop) (t : List (N × K)) : Prop :=
  ∀ i, offset D ≤ i → i < t.length → ok (nodeAt t i)

/-- Tracker agreement for every element except the carried one (the loop
invariant of the hole-carrying sift loops: the tracker entry of the carried
element is stale until the final write-back). -/
def AgreeX (D : Nat) (impl : PosImpl P N) (ps : P) (t : List (N × K)) (avoid : N) : Prop :=
  ∀ m i, m ≠ avoid →
    (impl.positionOf ps m = some i ↔ (offset D ≤ i ∧ i < t.length ∧ nodeAt t i = m))

/-- The element `n` occurs at no live slot other than `hole`. -/
def UniqueAt (D : Nat) (t : List (N × K)) (n : N) (hole : Nat) : Prop :=
  ∀ j, offset D ≤ j → j < t.length → nodeAt t j = n → j = hole

/-- The tree-level part of the engine invariant. -/
def Inv0 (D : Nat) (t : List (N × K)) : Prop :=
  offset D ≤ t.length ∧ HeapOrdered D t

/-- The full engine invariant for a law-abiding tracker: sentinel prefix in
place, heap order, tracker agreement, bound discipline, tracker
well-formedness. -/
def InvFull (D : Nat) (impl : PosImpl P N) (ok : N → Prop) (good : P → Prop)
    (h : Heap N K P) : Prop :=
  offset D ≤ h.tree.length ∧ HeapOrdered D h.tree ∧
    Agrees D impl h.positions h.tree ∧ OkAll D ok h.tree ∧ good h.positions

-- ===== THEOREMS =====

theorem offset_special {D : Nat} (h : specialD D) : offset D = D - 1 := by
  rcases h with h | h | h | h | h | h <;> subst h <;> rfl

theorem offset_other {D : Nat} (h : ¬ specialD D) : offset D = 0 := by
  unfold offset
  split
  · exact absurd (Or.inl rfl) h
  · exact absurd (Or.inr (Or.inl rfl)) h
  · exact absurd (Or.inr (Or.inr (Or.inl rfl))) h
  · exact absurd (Or.inr (Or.inr (Or.inr (Or.inl rfl)))) h
  · exact absurd (Or.inr (Or.inr (Or.inr (Or.inr (Or.inl rfl))))) h
  · exact absurd (Or.inr (Or.inr (Or.inr (Or.inr (Or.inr rfl))))) h
  · rfl

theorem parent_of_other {D : Nat} (h : ¬ specialD D) (c : Nat) :
    parent_of D c = (c - 1) / D := by
  unfold parent_of
  split
  · exact absurd (Or.inl rfl) h
  · exact absurd (Or.inr (Or.inl rfl)) h
  · exact absurd (Or.inr (Or.inr (Or.inl rfl))) h
  · exact absurd (Or.inr (Or.inr (Or.inr (Or.inl rfl)))) h
  · exact absurd (Or.inr (Or.inr (Or.inr (Or.inr (Or.inl rfl))))) h
  · exact absurd (Or.inr (Or.inr (Or.inr (Or.inr (Or.inr rfl))))) h
  · rfl

theorem left_child_of_other {D : Nat} (h : ¬ specialD D) (p : Nat) :
    left_child_of D p = D * p + 1 := by
  unfold left_child_of
  split
  · exact absurd (Or.inl rfl) h
  · exact absurd (Or.inr (Or.inl rfl)) h
  · exact absurd (Or.inr (Or.inr (Or.inl rfl))) h
  · exact absurd (Or.inr (Or.inr (Or.inr (Or.inl rfl)))) h
  · exact absurd (Or.inr (Or.inr (Or.inr (Or.inr (Or.inl rfl))))) h
  · exact absurd (Or.inr (Or.inr (Or.inr (Or.inr (Or.inr rfl))))) h
  · rfl

theorem left_child_special {D : Nat} (h : specialD D) (i : Nat) :
    left_child_of D (i + offset D) = (D * i + 1) + offset D := by
  rcases h with h | h | h | h | h | h <;> subst h <;>
    simp only [left_child_of, offset, Nat.shiftLeft_eq] <;> ring_nf <;> omega

theorem parent_special {D : Nat} (h : specialD D) (i : Nat) (hi : 1 ≤ i) :
    parent_of D (i + offset D) = (i - 1) / D + offset D := by
  rcases h with h | h | h | h | h | h <;> subst h <;>
    simp only [parent_of, offset, Nat.shiftRight_eq_div_pow] <;> omega

theorem parent_of_lt {D c : Nat} (hD : 1 ≤ D) (hc : offset D < c) :
    parent_of D c < c := by
  by_cases hs : specialD D
  · rcases hs with h | h | h | h | h | h <;> subst h <;>
      simp only [parent_of, offset, Nat.shiftRight_eq_div_pow] at hc ⊢ <;> omega
  · rw [parent_of_other hs, offset_other hs] at *
    calc (c - 1) / D ≤ c - 1 := Nat.div_le_self _ _
    _ < c := by omega

theorem offset_le_parent_of {D c : Nat} (hc : offset D < c) :
    offset D ≤ parent_of D c := by
  by_cases hs : specialD D
  · rcases hs with h | h | h | h | h | h <;> subst h <;>
      simp only [parent_of, offset, Nat.shiftRight_eq_div_pow] at hc ⊢ <;> omega
  · rw [offset_other hs]
    exact Nat.zero_le _

theorem lt_left_child_of {D p : Nat} (hD : 1 ≤ D) (hp : offset D ≤ p) :
    p < left_child_of D p := by
  by_cases hs : specialD D
  · rcases hs with h | h | h | h | h | h <;> subst h <;>
      simp only [left_child_of, offset, Nat.shiftLeft_eq] at hp ⊢ <;> omega
  · rw [left_child_of_other hs]
    have := Nat.le_mul_of_pos_left p hD
    omega

theorem offset_lt_left_child_of {D p : Nat} (hD : 1 ≤ D) (hp : offset D ≤ p) :
    offset D < left_child_of D p :=
  lt_of_le_of_lt hp (lt_left_child_of hD hp)

theorem parent_of_child {D p i : Nat} (hD : 1 ≤ D) (hp : offset D ≤ p) (hi : i < D) :
    parent_of D (left_child_of D p + i) = p := by
  by_cases hs : specialD D
  · rcases hs with h | h | h | h | h | h <;> subst h <;>
      simp only [parent_of, left_child_of, offset, Nat.shiftLeft_eq,
        Nat.shiftRight_eq_div_pow] at hp ⊢ <;> omega
  · rw [parent_of_other hs, left_child_of_other hs]
    have h1 : D * p + 1 + i - 1 = D * p + i := by omega
    rw [h1, Nat.mul_add_div hD, Nat.div_eq_of_lt hi]
    omega

theorem child_in_range {D c : Nat} (hD : 1 ≤ D) (hc : offset D < c) :
    left_child_of D (parent_of D c) ≤ c ∧
      c < left_child_of D (parent_of D c) + D := by
  by_cases hs : specialD D
  · rcases hs with h | h | h | h | h | h <;> subst h <;>
      simp only [parent_of, left_child_of, offset, Nat.shiftLeft_eq,
        Nat.shiftRight_eq_div_pow] at hc ⊢ <;> omega
  · rw [parent_of_other hs, left_child_of_other hs, offset_other hs] at *
    have h1 : D * ((c - 1) / D) + (c - 1) % D = c - 1 := Nat.div_add_mod _ _
    have h2 : (c - 1) % D < D := Nat.mod_lt _ hD
    omega

/-- C9: for D in {2, 4, 8, 16, 32, 64} the offset is `D - 1` and the
shift-based helpers agree with the logical tree formulas translated by the
offset (`left_child_of(D, i + offset) = (D*i + 1) + offset` for every
logical index `i`, and `parent_of(D, i + offset) = (i - 1)/D + offset` for
every logical index `i ≥ 1`); for every other D the offset is 0,
`parent_of(D, c) = (c - 1)/D` and `left_child_of(D, p) = D*p + 1`. -/
theorem C9_const_helpers_agree (D : Nat) (hD : 1 ≤ D) :
    (specialD D →
      offset D = D - 1 ∧
      (∀ i : Nat, left_child_of D (i + offset D) = (D * i + 1) + offset D) ∧
      (∀ i : Nat, 1 ≤ i → parent_of D (i + offset D) = (i - 1) / D + offset D)) ∧
    (¬ specialD D →
      offset D = 0 ∧
      (∀ c : Nat, parent_of D c = (c - 1) / D) ∧
      (∀ p : Nat, left_child_of D p = D * p + 1)) := by
  constructor
  · intro hs
    exact ⟨offset_special hs, fun i => left_child_special hs i,
      fun i hi => parent_special hs i hi⟩
  · intro hs
    exact ⟨offset_other hs, fun c => parent_of_other hs c,
      fun p => left_child_of_other hs p⟩

/-- Witness for C9 at the branching factors 4 (specialized) and 5
(general). -/
theorem C9_const_helpers_agree_witness :
    (offset 4 = 3 ∧ left_child_of 4 (2 + 3) = (4 * 2 + 1) + 3 ∧
      parent_of 4 (2 + 3) = (2 - 1) / 4 + 3) ∧
    (offset 5 = 0 ∧ parent_of 5 11 = (11 - 1) / 5 ∧ left_child_of 5 2 = 5 * 2 + 1) := by
  have h4 := (C9_const_helpers_agree 4 (by norm_num)).1 (by right; left; rfl)
  have h5 := (C9_const_helpers_agree 5 (by norm_num)).2 (by intro hs; rcases hs with h | h | h | h | h | h <;> simp at h)
  exact ⟨⟨h4.1, h4.2.1 2, h4.2.2 2 (by norm_num)⟩, ⟨h5.1, h5.2.1 11, h5.2.2 2⟩⟩

theorem getAt_set {α : Type} [Inhabited α] (l : List α) (i j : Nat) (a : α) :
    getAt (l.set i a) j = if i = j ∧ j < l.length then a else getAt l j := by
  induction l generalizing i j with
  | nil => simp [getAt, List.set]
  | cons x xs ih =>
    cases i with
    | zero =>
      cases j with
      | zero => simp [getAt]
      | succ j => simp [getAt, List.getD_cons_succ]
    | succ i =>
      cases j with
      | zero => simp [getAt, Nat.succ_ne_zero]
      | succ j =>
        simp only [List.set, getAt, List.getD_cons_succ, List.length_cons]
        rw [← getAt, ← getAt, ih i j]
        by_cases hij : i = j
        · subst hij
          by_cases hl : i < xs.length <;> simp [hl, Nat.succ_lt_succ_iff]
        · simp [hij, fun h => hij (Nat.succ_injective h)]

theorem getAt_set_self {α : Type} [Inhabited α] (l : List α) (i : Nat) (a : α)
    (h : i < l.length) : getAt (l.set i a) i = a := by
  rw [getAt_set]; simp [h]

theorem getAt_set_ne {α : Type} [Inhabited α] (l : List α) (i j : Nat) (a : α)
    (h : i ≠ j) : getAt (l.set i a) j = getAt l j := by
  rw [getAt_set]; simp [h]

theorem getAt_cons_succ {α : Type} [Inhabited α] (x : α) (xs : List α) (i : Nat) :
    getAt (x :: xs) (i + 1) = getAt xs i := by
  simp [getAt, List.getD_cons_succ]

theorem getAt_cons_zero {α : Type} [Inhabited α] (x : α) (xs : List α) :
    getAt (x :: xs) 0 = x := by
  simp [getAt]

theorem set_getAt_self {α : Type} [Inhabited α] (l : List α) (i : Nat) :
    l.set i (getAt l i) = l := by
  induction l generalizing i with
  | nil => simp
  | cons x xs ih =>
    cases i with
    | zero => simp [getAt_cons_zero]
    | succ i =>
      rw [getAt_cons_succ, List.set_cons_succ, ih i]

theorem getAt_append {α : Type} [Inhabited α] (l l2 : List α) (i : Nat) :
    getAt (l ++ l2) i = if i < l.length then getAt l i else getAt l2 (i - l.length) := by
  induction l generalizing i with
  | nil => simp [getAt]
  | cons x xs ih =>
    cases i with
    | zero => simp [getAt_cons_zero]
    | succ i =>
      rw [List.cons_append, getAt_cons_succ, getAt_cons_succ, ih i]
      by_cases hl : i < xs.length <;> simp [hl, Nat.succ_lt_succ_iff, Nat.succ_sub_succ]

theorem getAt_take {α : Type} [Inhabited α] (l : List α) (m i : Nat) (h : i < m) :
    getAt (l.take m) i = getAt l i := by
  induction l generalizing m i with
  | nil => simp
  | cons x xs ih =>
    cases m with
    | zero => omega
    | succ m =>
      cases i with
      | zero => simp [getAt_cons_zero]
      | succ i =>
        rw [List.take, getAt_cons_succ, getAt_cons_succ, ih m i (by omega)]

theorem getAt_replicate {α : Type} [Inhabited α] (n : Nat) (a : α) (i : Nat)
    (h : i < n) : getAt (List.replicate n a) i = a := by
  induction n generalizing i with
  | zero => omega
  | succ n ih =>
    cases i with
    | zero => simp [getAt, List.replicate]
    | succ i => simpa [getAt, List.replicate, List.getD_cons_succ] using ih i (by omega)

theorem liveSub_refl {off : Nat} (t : List (N × K)) : LiveSub off t t :=
  fun i h1 h2 => ⟨i, h1, h2, rfl⟩

theorem liveSub_trans {off : Nat} {t1 t2 t3 : List (N × K)}
    (h12 : LiveSub off t1 t2) (h23 : LiveSub off t2 t3) : LiveSub off t1 t3 := by
  intro i hi1 hi2
  obtain ⟨j, hj1, hj2, hje⟩ := h12 i hi1 hi2
  obtain ⟨l, hl1, hl2, hle⟩ := h23 j hj1 hj2
  exact ⟨l, hl1, hl2, by rw [hle, hje]⟩

theorem liveSub_set {off : Nat} (t : List (N × K)) (i j : Nat)
    (hj1 : off ≤ j) (hj2 : j < t.length) :
    LiveSub off (t.set i (getAt t j)) t := by
  intro p hp1 hp2
  rw [List.length_set] at hp2
  by_cases hpi : i = p
  · subst hpi
    rw [getAt_set_self _ _ _ hp2]
    exact ⟨j, hj1, hj2, rfl⟩
  · rw [getAt_set_ne _ _ _ _ hpi]
    exact ⟨p, hp1, hp2, rfl⟩

theorem liveSub_exchange {off : Nat} (t : List (N × K)) (a b : Nat) (v : N × K)
    (ha1 : off ≤ a) (ha2 : a < t.length) (hv : ∃ j, off ≤ j ∧ j < t.length ∧ getAt t j = v) :
    LiveSub off ((t.set a v).set b (getAt t a)) t := by
  intro p hp1 hp2
  rw [List.length_set, List.length_set] at hp2
  by_cases hpb : b = p
  · subst hpb
    rw [getAt_set_self _ _ _ (by rw [List.length_set]; exact hp2)]
    exact ⟨a, ha1, ha2, rfl⟩
  · rw [getAt_set_ne _ _ _ _ hpb]
    by_cases hpa : a = p
    · subst hpa
      rw [getAt_set_self _ _ _ hp2]
      exact hv
    · rw [getAt_set_ne _ _ _ _ hpa]
      exact ⟨p, hp1, hp2, rfl⟩

theorem bcGo_spec [Inhabited N] [Inhabited K] (t : List (N × K)) (treeLen first : Nat) :
    ∀ (rem i : Nat) (best : Nat × K), first ≤ best.1 → best.1 < first + i →
    best.1 < treeLen → best.2 = keyAt t best.1 →
    (∀ j, first ≤ j → j < first + i → j < treeLen → best.2 ≤ keyAt t j) →
    first ≤ (bcGo t treeLen first i rem best).1 ∧
    (bcGo t treeLen first i rem best).1 < first + i + rem ∧
    (bcGo t treeLen first i rem best).1 < treeLen ∧
    (bcGo t treeLen first i rem best).2 = keyAt t (bcGo t treeLen first i rem best).1 ∧
    (∀ j, first ≤ j → j < first + i + rem → j < treeLen →
      (bcGo t treeLen first i rem best).2 ≤ keyAt t j) := by
  intro rem
  induction rem with
  | zero =>
    intro i best h1 h2 h3 h4 h5
    simp only [bcGo, Nat.add_zero]
    exact ⟨h1, h2, h3, h4, h5⟩
  | succ rem ih =>
    intro i best h1 h2 h3 h4 h5
    simp only [bcGo]
    by_cases hnc : treeLen ≤ first + i
    · simp only [if_pos hnc]
      refine ⟨h1, by omega, h3, h4, ?_⟩
      intro j hj1 hj2 hj3
      exact h5 j hj1 (by omega) hj3
    · simp only [if_neg hnc]
      by_cases hlt : (getAt t (first + i)).2 < best.2
      · simp only [if_pos hlt]
        have := ih (i + 1) (first + i, (getAt t (first + i)).2)
          (by omega) (by omega) (by omega) (by simp [keyAt])
          (by
            intro j hj1 hj2 hj3
            by_cases hji : j = first + i
            · subst hji; simp [keyAt]
            · exact le_of_lt (lt_of_lt_of_le hlt (h5 j hj1 (by omega) hj3)))
        refine ⟨this.1, by omega, this.2.2.1, this.2.2.2.1, ?_⟩
        intro j hj1 hj2 hj3
        exact this.2.2.2.2 j hj1 (by omega) hj3
      · simp only [if_neg hlt]
        have := ih (i + 1) best h1 (by omega) h3 h4
          (by
            intro j hj1 hj2 hj3
            by_cases hji : j = first + i
            · subst hji
              exact le_of_not_lt (by simpa [keyAt] using hlt)
            · exact h5 j hj1 (by omega) hj3)
        refine ⟨this.1, by omega, this.2.2.1, this.2.2.2.1, ?_⟩
        intro j hj1 hj2 hj3
        exact this.2.2.2.2 j hj1 (by omega) hj3

theorem bestChild_spec {D : Nat} [Inhabited N] [Inhabited K] (hD : 1 ≤ D)
    (t : List (N × K)) (treeLen first : Nat) (hf : first < treeLen) :
    first ≤ (bestChild D t treeLen first).1 ∧
    (bestChild D t treeLen first).1 < first + D ∧
    (bestChild D t treeLen first).1 < treeLen ∧
    (bestChild D t treeLen first).2 = keyAt t (bestChild D t treeLen first).1 ∧
    (∀ j, first ≤ j → j < first + D → j < treeLen →
      (bestChild D t treeLen first).2 ≤ keyAt t j) := by
  have h := bcGo_spec t treeLen first (D - 1) 1 (first, (getAt t first).2)
    (le_refl _) (by omega) hf (by simp [keyAt])
    (by intro j hj1 hj2 hj3; have : j = first := by omega
        subst this; simp [keyAt])
  have harith : first + 1 + (D - 1) = first + D := by omega
  rw [harith] at h
  exact h

theorem up_swap_inv {D : Nat} (hD : 1 ≤ D) (t : List (N × K)) (nd : N × K)
    (child parent : Nat)
    (hc1 : offset D < child) (hc2 : child < t.length)
    (hp : parent = parent_of D child)
    (hswap : nd.2 < (getAt t parent).2)
    (hVa : ∀ c, c < t.length → offset D < c → c ≠ child →
      keyAt (t.set child nd) (parent_of D c) ≤ keyAt (t.set child nd) c)
    (hVb : ∀ c, c < t.length → offset D < c → parent_of D c = child →
      keyAt (t.set child nd) parent ≤ keyAt (t.set child nd) c) :
    (∀ c, c < t.length → offset D < c → c ≠ parent →
      keyAt ((t.set child (getAt t parent)).set parent nd) (parent_of D c) ≤
        keyAt ((t.set child (getAt t parent)).set parent nd) c) ∧
    (offset D < parent → ∀ c, c < t.length → offset D < c → parent_of D c = parent →
      keyAt ((t.set child (getAt t parent)).set parent nd) (parent_of D parent) ≤
        keyAt ((t.set child (getAt t parent)).set parent nd) c) := by
  have hpc : parent < child := hp ▸ parent_of_lt hD hc1
  have hpo : offset D ≤ parent := hp ▸ offset_le_parent_of hc1
  have hplen : parent < t.length := lt_trans hpc hc2
  have hne : child ≠ parent := fun h => absurd (h ▸ hpc) (lt_irrefl _)
  -- key computations on the swapped virtual tree V2
  have hk_parent : keyAt ((t.set child (getAt t parent)).set parent nd) parent = nd.2 := by
    have hlen2 : parent < (t.set child (getAt t parent)).length := by
      rw [List.length_set]; exact hplen
    rw [keyAt, getAt_set_self _ _ _ hlen2]
  have hk_child : keyAt ((t.set child (getAt t parent)).set parent nd) child =
      (getAt t parent).2 := by
    rw [keyAt, getAt_set_ne _ _ _ _ (Ne.symm hne), getAt_set_self _ _ _ hc2]
  have hk_other : ∀ x, x ≠ child → x ≠ parent →
      keyAt ((t.set child (getAt t parent)).set parent nd) x = keyAt t x := by
    intro x hx1 hx2
    rw [keyAt, getAt_set_ne _ _ _ _ (fun h => hx2 h.symm),
      getAt_set_ne _ _ _ _ (fun h => hx1 h.symm), keyAt]
  -- key computations on the entry virtual tree V
  have hv_other : ∀ x, x ≠ child → keyAt (t.set child nd) x = keyAt t x := by
    intro x hx
    rw [keyAt, getAt_set_ne _ _ _ _ (fun h => hx h.symm), keyAt]
  have hv_child : keyAt (t.set child nd) child = nd.2 := by
    simp [keyAt, getAt_set_self _ _ _ hc2]
  constructor
  · intro c hclen hcoff hcp
    by_cases hcc : c = child
    · subst hcc
      rw [← hp, hk_parent, hk_child]
      exact le_of_lt hswap
    · have hkc : keyAt ((t.set child (getAt t parent)).set parent nd) c = keyAt t c :=
        hk_other c hcc hcp
      by_cases hpc1 : parent_of D c = parent
      · rw [hpc1, hk_parent, hkc]
        have h1 := hVa c hclen hcoff hcc
        rw [hpc1, hv_other parent hne.symm, hv_other c hcc] at h1
        exact le_of_lt (lt_of_lt_of_le hswap h1)
      · by_cases hcc2 : parent_of D c = child
        · rw [hcc2, hk_child, hkc]
          have h1 := hVb c hclen hcoff hcc2
          rw [hv_other parent hne.symm, hv_other c hcc] at h1
          exact h1
        · rw [hk_other _ hcc2 hpc1, hkc]
          have h1 := hVa c hclen hcoff hcc
          rw [hv_other _ hcc2, hv_other c hcc] at h1
          exact h1
  · intro hpoff c hclen hcoff hcp
    have hgp_lt : parent_of D parent < parent := parent_of_lt hD hpoff
    have hgp_ne_c : parent_of D parent ≠ child := fun h => absurd (h ▸ (lt_trans hgp_lt hpc)) (lt_irrefl _)
    have hgp_ne_p : parent_of D parent ≠ parent := ne_of_lt hgp_lt
    have hkgp : keyAt ((t.set child (getAt t parent)).set parent nd) (parent_of D parent) =
        keyAt t (parent_of D parent) := hk_other _ hgp_ne_c hgp_ne_p
    have hstep1 : keyAt t (parent_of D parent) ≤ keyAt t parent := by
      have h1 := hVa parent hplen hpoff (ne_of_lt hpc)
      rw [hv_other _ hgp_ne_c, hv_other _ (ne_of_lt hpc)] at h1
      exact h1
    by_cases hcc : c = child
    · subst hcc
      rw [hkgp, hk_child]
      exact hstep1
    · have hcpar : parent < c := hcp ▸ parent_of_lt hD hcoff
      have hkc : keyAt ((t.set child (getAt t parent)).set parent nd) c = keyAt t c :=
        hk_other c hcc (ne_of_gt hcpar)
      rw [hkgp, hkc]
      have h2 := hVa c hclen hcoff hcc
      rw [hcp, hv_other _ hne.symm, hv_other c hcc] at h2
      exact le_trans hstep1 h2

theorem hUpGo_succ_stop {D : Nat} (impl : PosImpl P N) (fuel : Nat) (nd : N × K)
    (t : List (N × K)) (ps : P) (child parent : Nat)
    (hswap : ¬ nd.2 < (getAt t parent).2) :
    hUpGo D impl (fuel + 1) nd t ps child parent =
      (t.set child nd, impl.updatePositionOf ps nd.1 child) := by
  simp only [hUpGo]
  rw [if_neg hswap]

theorem hUpGo_succ_break {D : Nat} (impl : PosImpl P N) (fuel : Nat) (nd : N × K)
    (t : List (N × K)) (ps : P) (child parent : Nat)
    (hswap : nd.2 < (getAt t parent).2) (hbo : parent = offset D) :
    hUpGo D impl (fuel + 1) nd t ps child parent =
      ((t.set child (getAt t parent)).set parent nd,
        impl.updatePositionOf (impl.updatePositionOf ps (getAt t parent).1 child) nd.1 parent) := by
  simp only [hUpGo]
  rw [if_pos hswap, if_pos hbo]

theorem hUpGo_succ_rec {D : Nat} (impl : PosImpl P N) (fuel : Nat) (nd : N × K)
    (t : List (N × K)) (ps : P) (child parent : Nat)
    (hswap : nd.2 < (getAt t parent).2) (hbo : ¬ parent = offset D) :
    hUpGo D impl (fuel + 1) nd t ps child parent =
      hUpGo D impl fuel nd (t.set child (getAt t parent))
        (impl.updatePositionOf ps (getAt t parent).1 child) parent (parent_of D parent) := by
  simp only [hUpGo]
  rw [if_pos hswap, if_neg hbo]

theorem hDownGo_succ_stop {D : Nat} (impl : PosImpl P N) (treeLen fuel : Nat)
    (nd : N × K) (t : List (N × K)) (ps : P) (parent bc : Nat) (bk : K)
    (hswap : ¬ bk < nd.2) :
    hDownGo D impl treeLen (fuel + 1) nd t ps parent bc bk =
      (t.set parent nd, impl.updatePositionOf ps nd.1 parent) := by
  simp only [hDownGo]
  rw [if_neg hswap]

theorem hDownGo_succ_break {D : Nat} (impl : PosImpl P N) (treeLen fuel : Nat)
    (nd : N × K) (t : List (N × K)) (ps : P) (parent bc : Nat) (bk : K)
    (hswap : bk < nd.2) (hbrk : treeLen ≤ left_child_of D bc) :
    hDownGo D impl treeLen (fuel + 1) nd t ps parent bc bk =
      ((t.set parent (getAt t bc)).set bc nd,
        impl.updatePositionOf (impl.updatePositionOf ps (getAt t bc).1 parent) nd.1 bc) := by
  simp only [hDownGo]
  rw [if_pos hswap, if_pos hbrk]

theorem hDownGo_succ_rec {D : Nat} (impl : PosImpl P N) (treeLen fuel : Nat)
    (nd : N × K) (t : List (N × K)) (ps : P) (parent bc : Nat) (bk : K)
    (hswap : bk < nd.2) (hbrk : ¬ treeLen ≤ left_child_of D bc) :
    hDownGo D impl treeLen (fuel + 1) nd t ps parent bc bk =
      hDownGo D impl treeLen fuel nd (t.set parent (getAt t bc))
        (impl.updatePositionOf ps (getAt t bc).1 parent) bc
        (bestChild D (t.set parent (getAt t bc)) treeLen (left_child_of D bc)).1
        (bestChild D (t.set parent (getAt t bc)) treeLen (left_child_of D bc)).2 := by
  simp only [hDownGo]
  rw [if_pos hswap, if_neg hbrk]

theorem hUpGo_tree {D : Nat} (impl : PosImpl P N) (hD : 1 ≤ D) :
    ∀ (fuel : Nat) (nd : N × K) (t : List (N × K)) (ps : P) (child parent : Nat),
    offset D < child → child < t.length → parent = parent_of D child → parent < fuel →
    (∀ c, c < t.length → offset D < c → c ≠ child →
      keyAt (t.set child nd) (parent_of D c) ≤ keyAt (t.set child nd) c) →
    (∀ c, c < t.length → offset D < c → parent_of D c = child →
      keyAt (t.set child nd) parent ≤ keyAt (t.set child nd) c) →
    (hUpGo D impl fuel nd t ps child parent).1.length = t.length ∧
    HeapOrdered D (hUpGo D impl fuel nd t ps child parent).1 ∧
    LiveSub (offset D) (hUpGo D impl fuel nd t ps child parent).1 (t.set child nd) := by
  intro fuel
  induction fuel with
  | zero => intro nd t ps child parent _ _ _ hfuel _ _; omega
  | succ fuel ih =>
    intro nd t ps child parent hc1 hc2 hp hfuel hVa hVb
    by_cases hswap : nd.2 < (getAt t parent).2
    · have hpc : parent < child := hp ▸ parent_of_lt hD hc1
      have hpo : offset D ≤ parent := hp ▸ offset_le_parent_of hc1
      have hplen : parent < t.length := lt_trans hpc hc2
      have hne : child ≠ parent := fun hh => absurd (hh ▸ hpc) (lt_irrefl _)
      obtain ⟨hVa2, hVb2⟩ := up_swap_inv hD t nd child parent hc1 hc2 hp hswap hVa hVb
      have hsub2 : LiveSub (offset D) ((t.set child (getAt t parent)).set parent nd)
          (t.set child nd) := by
        intro p hp1 hp2
        rw [List.length_set, List.length_set] at hp2
        by_cases hpp : parent = p
        · subst hpp
          refine ⟨child, le_of_lt hc1, by rw [List.length_set]; exact hc2, ?_⟩
          rw [getAt_set_self _ _ _ hc2,
            getAt_set_self _ _ _ (by rw [List.length_set]; exact hplen)]
        · by_cases hpcq : child = p
          · subst hpcq
            refine ⟨parent, hpo, by rw [List.length_set]; exact hplen, ?_⟩
            rw [getAt_set_ne _ _ _ _ hne, getAt_set_ne _ _ _ _ (Ne.symm hne),
              getAt_set_self _ _ _ hc2]
          · refine ⟨p, hp1, by rw [List.length_set]; exact hp2, ?_⟩
            rw [getAt_set_ne _ _ _ _ hpcq, getAt_set_ne _ _ _ _ hpp,
              getAt_set_ne _ _ _ _ hpcq]
      by_cases hbo : parent = offset D
      · rw [hUpGo_succ_break impl fuel nd t ps child parent hswap hbo]
        refine ⟨by simp [List.length_set], ?_, hsub2⟩
        intro c hclen hcoff
        rw [List.length_set, List.length_set] at hclen
        exact hVa2 c hclen hcoff (fun hh => absurd (hbo ▸ hh ▸ hcoff) (lt_irrefl _))
      · rw [hUpGo_succ_rec impl fuel nd t ps child parent hswap hbo]
        have hpoff : offset D < parent := lt_of_le_of_ne hpo (Ne.symm hbo)
        have hres := ih nd (t.set child (getAt t parent))
          (impl.updatePositionOf ps (getAt t parent).1 child) parent (parent_of D parent)
          hpoff (by rw [List.length_set]; exact hplen) rfl
          (by
            have h1 : parent_of D parent < parent := parent_of_lt hD hpoff
            omega)
          (by
            intro c hclen hcoff hcp
            rw [List.length_set] at hclen
            exact hVa2 c hclen hcoff hcp)
          (by
            intro c hclen hcoff hcp
            rw [List.length_set] at hclen
            exact hVb2 hpoff c hclen hcoff hcp)
        refine ⟨by rw [hres.1, List.length_set], hres.2.1,
          liveSub_trans hres.2.2 hsub2⟩
    · rw [hUpGo_succ_stop impl fuel nd t ps child parent hswap]
      refine ⟨by simp [List.length_set], ?_, liveSub_refl _⟩
      intro c hclen hcoff
      rw [List.length_set] at hclen
      by_cases hcc : c = child
      · subst hcc
        rw [← hp]
        have hne : c ≠ parent := fun hh =>
          absurd (hh ▸ (hp ▸ parent_of_lt hD hcoff)) (lt_irrefl _)
        have hkp : keyAt (t.set c nd) parent = keyAt t parent := by
          rw [keyAt, getAt_set_ne _ _ _ _ hne, keyAt]
        have hkc : keyAt (t.set c nd) c = nd.2 := by
          rw [keyAt, getAt_set_self _ _ _ hclen]
        rw [hkp, hkc]
        exact le_of_not_lt hswap
      · exact hVa c hclen hcoff hcc

theorem heapifyUp_tree {D : Nat} (impl : PosImpl P N) (hD : 1 ≤ D)
    (h : Heap N K P) (s : Nat) (hs1 : offset D ≤ s) (hs2 : s < h.tree.length)
    (hVa : ∀ c, c < h.tree.length → offset D < c → c ≠ s →
      keyAt h.tree (parent_of D c) ≤ keyAt h.tree c)
    (hVb : offset D < s → ∀ c, c < h.tree.length → offset D < c → parent_of D c = s →
      keyAt h.tree (parent_of D s) ≤ keyAt h.tree c) :
    (heapifyUp D impl h s).tree.length = h.tree.length ∧
    HeapOrdered D (heapifyUp D impl h s).tree ∧
    LiveSub (offset D) (heapifyUp D impl h s).tree h.tree := by
  simp only [heapifyUp]
  by_cases hso : s = offset D
  · rw [if_pos hso]
    refine ⟨rfl, ?_, liveSub_refl _⟩
    intro c hclen hcoff
    exact hVa c hclen hcoff (fun hh => absurd (hso ▸ hh ▸ hcoff) (lt_irrefl _))
  · rw [if_neg hso]
    have hsoff : offset D < s := lt_of_le_of_ne hs1 (Ne.symm hso)
    by_cases hle : (getAt h.tree (parent_of D s)).2 ≤ (getAt h.tree s).2
    · rw [if_pos hle]
      refine ⟨rfl, ?_, liveSub_refl _⟩
      intro c hclen hcoff
      by_cases hcc : c = s
      · subst hcc; exact hle
      · exact hVa c hclen hcoff hcc
    · rw [if_neg hle]
      have hset : h.tree.set s (getAt h.tree s) = h.tree := set_getAt_self _ _
      have hres := hUpGo_tree impl hD s (getAt h.tree s) h.tree h.positions s (parent_of D s)
        hsoff hs2 rfl (parent_of_lt hD hsoff)
        (by rw [hset]; intro c hclen hcoff hcc; exact hVa c hclen hcoff hcc)
        (by rw [hset]; intro c hclen hcoff hcp; exact hVb hsoff c hclen hcoff hcp)
      rw [hset] at hres
      exact hres

theorem down_swap_inv {D : Nat} (hD : 1 ≤ D) (t : List (N × K)) (nd : N × K)
    (parent bc : Nat) (bk : K)
    (hp1 : offset D ≤ parent) (hp2 : parent < t.length)
    (hbc1 : offset D < bc) (hbc2 : bc < t.length) (hbcp : parent_of D bc = parent)
    (hbk : bk = keyAt (t.set parent nd) bc)
    (hmin : ∀ c, c < t.length → offset D < c → parent_of D c = parent →
      bk ≤ keyAt (t.set parent nd) c)
    (hswap : bk < nd.2)
    (hI : ∀ c, c < t.length → offset D < c → parent_of D c ≠ parent →
      keyAt (t.set parent nd) (parent_of D c) ≤ keyAt (t.set parent nd) c)
    (hIII : offset D < parent → ∀ c, c < t.length → offset D < c → parent_of D c = parent →
      keyAt (t.set parent nd) (parent_of D parent) ≤ keyAt (t.set parent nd) c) :
    (∀ c, c < t.length → offset D < c → parent_of D c ≠ bc →
      keyAt ((t.set parent (getAt t bc)).set bc nd) (parent_of D c) ≤
        keyAt ((t.set parent (getAt t bc)).set bc nd) c) ∧
    (∀ c, c < t.length → offset D < c → parent_of D c = bc →
      keyAt ((t.set parent (getAt t bc)).set bc nd) (parent_of D bc) ≤
        keyAt ((t.set parent (getAt t bc)).set bc nd) c) := by
  have hpbc : parent < bc := hbcp ▸ parent_of_lt hD hbc1
  have hbcne : bc ≠ parent := ne_of_gt hpbc
  have hk2_parent : keyAt ((t.set parent (getAt t bc)).set bc nd) parent = (getAt t bc).2 := by
    rw [keyAt, getAt_set_ne _ _ _ _ hbcne, getAt_set_self _ _ _ hp2]
  have hk2_bc : keyAt ((t.set parent (getAt t bc)).set bc nd) bc = nd.2 := by
    rw [keyAt, getAt_set_self _ _ _ (by rw [List.length_set]; exact hbc2)]
  have hk2_other : ∀ x, x ≠ parent → x ≠ bc →
      keyAt ((t.set parent (getAt t bc)).set bc nd) x = keyAt t x := by
    intro x hx1 hx2
    rw [keyAt, getAt_set_ne _ _ _ _ (fun hh => hx2 hh.symm),
      getAt_set_ne _ _ _ _ (fun hh => hx1 hh.symm), keyAt]
  have hv_other : ∀ x, x ≠ parent → keyAt (t.set parent nd) x = keyAt t x := by
    intro x hx
    rw [keyAt, getAt_set_ne _ _ _ _ (fun hh => hx hh.symm), keyAt]
  have hv_parent : keyAt (t.set parent nd) parent = nd.2 := by
    rw [keyAt, getAt_set_self _ _ _ hp2]
  have hbk_eq : bk = (getAt t bc).2 := by
    rw [hbk, hv_other bc hbcne]; rfl
  constructor
  · intro c hclen hcoff hcbc
    by_cases hcp : c = parent
    · subst hcp
      have hcoff2 : offset D < c := hcoff
      have hgp : parent_of D c < c := parent_of_lt hD hcoff
      have hgp_ne_c : parent_of D c ≠ c := ne_of_lt hgp
      have hgp_ne_bc : parent_of D c ≠ bc := fun hh =>
        absurd (hh ▸ hgp) (by intro h2; exact absurd (lt_trans h2 hpbc) (lt_irrefl _))
      rw [hk2_other _ hgp_ne_c hgp_ne_bc, hk2_parent]
      have h1 := hIII hcoff bc hbc2 hbc1 hbcp
      rw [hv_other _ hgp_ne_c, hv_other _ hbcne] at h1
      rw [← hbk_eq, hbk, hv_other _ hbcne]
      exact h1
    · by_cases hcc : c = bc
      · subst hcc
        rw [hbcp, hk2_parent, hk2_bc, ← hbk_eq]
        exact le_of_lt hswap
      · rw [hk2_other c hcp hcc]
        by_cases hpar : parent_of D c = parent
        · rw [hpar, hk2_parent, ← hbk_eq]
          have h1 := hmin c hclen hcoff hpar
          rw [hv_other c hcp] at h1
          exact h1
        · rw [hk2_other _ hpar (fun hh => hcbc hh)]
          have h1 := hI c hclen hcoff hpar
          rw [hv_other _ hpar, hv_other c hcp] at h1
          exact h1
  · intro c hclen hcoff hcp
    have hbcc : bc < c := hcp ▸ parent_of_lt hD hcoff
    have hcne_bc : c ≠ bc := ne_of_gt hbcc
    have hcne_p : c ≠ parent := ne_of_gt (lt_trans hpbc hbcc)
    rw [hbcp, hk2_parent, hk2_other c hcne_p hcne_bc, ← hbk_eq]
    have h1 := hI c hclen hcoff (by rw [hcp]; exact hbcne)
    rw [hcp, hv_other _ hbcne, hv_other c hcne_p] at h1
    rw [hbk, hv_other _ hbcne] at hswap ⊢
    exact h1

theorem hDownGo_tree {D : Nat} (impl : PosImpl P N) (hD : 1 ≤ D) :
    ∀ (fuel : Nat) (nd : N × K) (t : List (N × K)) (ps : P) (parent bc : Nat) (bk : K),
    offset D ≤ parent → parent < t.length →
    t.length - parent ≤ fuel →
    offset D < bc → bc < t.length → parent_of D bc = parent →
    bk = keyAt (t.set parent nd) bc →
    (∀ c, c < t.length → offset D < c → parent_of D c = parent →
      bk ≤ keyAt (t.set parent nd) c) →
    (∀ c, c < t.length → offset D < c → parent_of D c ≠ parent →
      keyAt (t.set parent nd) (parent_of D c) ≤ keyAt (t.set parent nd) c) →
    (offset D < parent → ∀ c, c < t.length → offset D < c → parent_of D c = parent →
      keyAt (t.set parent nd) (parent_of D parent) ≤ keyAt (t.set parent nd) c) →
    (hDownGo D impl t.length fuel nd t ps parent bc bk).1.length = t.length ∧
    HeapOrdered D (hDownGo D impl t.length fuel nd t ps parent bc bk).1 ∧
    LiveSub (offset D) (hDownGo D impl t.length fuel nd t ps parent bc bk).1
      (t.set parent nd) := by
  intro fuel
  induction fuel with
  | zero => intro nd t ps parent bc bk hp1 hp2 hfuel _ _ _ _ _ _ _; omega
  | succ fuel ih =>
    intro nd t ps parent bc bk hp1 hp2 hfuel hbc1 hbc2 hbcp hbk hmin hI hIII
    by_cases hswap : bk < nd.2
    · have hpbc : parent < bc := hbcp ▸ parent_of_lt hD hbc1
      have hbcne : bc ≠ parent := ne_of_gt hpbc
      obtain ⟨hI2, hIII2⟩ := down_swap_inv hD t nd parent bc bk hp1 hp2 hbc1 hbc2 hbcp
        hbk hmin hswap hI hIII
      have hsub2 : LiveSub (offset D) ((t.set parent (getAt t bc)).set bc nd)
          (t.set parent nd) := by
        intro p hq1 hq2
        rw [List.length_set, List.length_set] at hq2
        by_cases hqbc : bc = p
        · subst hqbc
          refine ⟨parent, hp1, by rw [List.length_set]; exact hp2, ?_⟩
          rw [getAt_set_self _ _ _ hp2,
            getAt_set_self _ _ _ (by rw [List.length_set]; exact hbc2)]
        · by_cases hqp : parent = p
          · subst hqp
            refine ⟨bc, le_of_lt hbc1, by rw [List.length_set]; exact hbc2, ?_⟩
            rw [getAt_set_ne _ _ _ _ (fun hh => hbcne hh.symm),
              getAt_set_ne _ _ _ _ hqbc, getAt_set_self _ _ _ hp2]
          · refine ⟨p, hq1, by rw [List.length_set]; exact hq2, ?_⟩
            rw [getAt_set_ne _ _ _ _ hqp, getAt_set_ne _ _ _ _ hqbc,
              getAt_set_ne _ _ _ _ hqp]
      by_cases hbrk : t.length ≤ left_child_of D bc
      · rw [hDownGo_succ_break impl t.length fuel nd t ps parent bc bk hswap hbrk]
        refine ⟨by simp [List.length_set], ?_, hsub2⟩
        intro c hclen hcoff
        rw [List.length_set, List.length_set] at hclen
        refine hI2 c hclen hcoff ?_
        intro hcp
        have hrange := child_in_range hD hcoff
        rw [hcp] at hrange
        omega
      · rw [hDownGo_succ_rec impl t.length fuel nd t ps parent bc bk hswap hbrk]
        have hfc : left_child_of D bc < t.length := lt_of_not_le hbrk
        have hfc_gt : bc < left_child_of D bc := lt_left_child_of hD (le_of_lt hbc1)
        have hlen2 : (t.set parent (getAt t bc)).length = t.length := List.length_set _ _ _
        have hspec := bestChild_spec hD (t.set parent (getAt t bc)) t.length
          (left_child_of D bc) hfc
        have hb2ne : (bestChild D (t.set parent (getAt t bc)) t.length (left_child_of D bc)).1 ≠ bc := by
          have h1 := hspec.1; omega
        have hb2key : (bestChild D (t.set parent (getAt t bc)) t.length (left_child_of D bc)).2 =
            keyAt ((t.set parent (getAt t bc)).set bc nd)
              (bestChild D (t.set parent (getAt t bc)) t.length (left_child_of D bc)).1 := by
          rw [hspec.2.2.2.1, keyAt, keyAt,
            getAt_set_ne _ _ _ _ (fun hh => hb2ne hh.symm)]
        have harg1 : bc < (t.set parent (getAt t bc)).length := by
          rw [hlen2]; exact hbc2
        have harg2 : (t.set parent (getAt t bc)).length - bc ≤ fuel := by
          rw [hlen2]; omega
        have harg3 : (bestChild D (t.set parent (getAt t bc)) t.length (left_child_of D bc)).1 <
            (t.set parent (getAt t bc)).length := by
          rw [hlen2]; exact hspec.2.2.1
        have harg4 : offset D <
            (bestChild D (t.set parent (getAt t bc)) t.length (left_child_of D bc)).1 := by
          have h1 := hspec.1
          have h2 : offset D < left_child_of D bc :=
            offset_lt_left_child_of hD (le_of_lt (lt_of_le_of_lt hp1 hpbc))
          omega
        have harg5 : parent_of D
            (bestChild D (t.set parent (getAt t bc)) t.length (left_child_of D bc)).1 = bc := by
          have h1 := hspec.1
          have h2 := hspec.2.1
          have hi : (bestChild D (t.set parent (getAt t bc)) t.length (left_child_of D bc)).1 =
              left_child_of D bc +
                ((bestChild D (t.set parent (getAt t bc)) t.length (left_child_of D bc)).1 -
                  left_child_of D bc) := by omega
          rw [hi]
          exact parent_of_child hD (le_of_lt hbc1) (by omega)
        have hb2key2 : (bestChild D (t.set parent (getAt t bc)) t.length (left_child_of D bc)).2 =
            keyAt ((t.set parent (getAt t bc)).set bc nd)
              (bestChild D (t.set parent (getAt t bc)) t.length (left_child_of D bc)).1 := hb2key
        have harg6 : ∀ c, c < (t.set parent (getAt t bc)).length → offset D < c →
            parent_of D c = bc →
            (bestChild D (t.set parent (getAt t bc)) t.length (left_child_of D bc)).2 ≤
              keyAt ((t.set parent (getAt t bc)).set bc nd) c := by
          intro c hclen hcoff hcp
          rw [hlen2] at hclen
          have hrange := child_in_range hD hcoff
          rw [hcp] at hrange
          have hcne : c ≠ bc := ne_of_gt (hcp ▸ parent_of_lt hD hcoff)
          have h1 := hspec.2.2.2.2 c hrange.1 hrange.2 hclen
          have hkeq : keyAt ((t.set parent (getAt t bc)).set bc nd) c =
              keyAt (t.set parent (getAt t bc)) c := by
            rw [keyAt, getAt_set_ne _ _ _ _ (fun hh => hcne hh.symm), keyAt]
          rw [hkeq]
          exact h1
        have harg7 : ∀ c, c < (t.set parent (getAt t bc)).length → offset D < c →
            parent_of D c ≠ bc →
            keyAt ((t.set parent (getAt t bc)).set bc nd) (parent_of D c) ≤
              keyAt ((t.set parent (getAt t bc)).set bc nd) c := by
          intro c hclen hcoff hcp
          rw [hlen2] at hclen
          exact hI2 c hclen hcoff hcp
        have harg8 : offset D < bc → ∀ c, c < (t.set parent (getAt t bc)).length →
            offset D < c → parent_of D c = bc →
            keyAt ((t.set parent (getAt t bc)).set bc nd) (parent_of D bc) ≤
              keyAt ((t.set parent (getAt t bc)).set bc nd) c := by
          intro _ c hclen hcoff hcp
          rw [hlen2] at hclen
          exact hIII2 c hclen hcoff hcp
        have hres := ih nd (t.set parent (getAt t bc))
          (impl.updatePositionOf ps (getAt t bc).1 parent) bc
          (bestChild D (t.set parent (getAt t bc)) t.length (left_child_of D bc)).1
          (bestChild D (t.set parent (getAt t bc)) t.length (left_child_of D bc)).2
          (le_of_lt hbc1) harg1 harg2 harg4 harg3 harg5 hb2key2 harg6 harg7 harg8
        rw [hlen2] at hres
        exact ⟨hres.1, hres.2.1, liveSub_trans hres.2.2 hsub2⟩
    · rw [hDownGo_succ_stop impl t.length fuel nd t ps parent bc bk hswap]
      refine ⟨List.length_set _ _ _, ?_, liveSub_refl _⟩
      intro c hclen hcoff
      rw [List.length_set] at hclen
      by_cases hcp : parent_of D c = parent
      · rw [hcp]
        have hkp : keyAt (t.set parent nd) parent = nd.2 := by
          rw [keyAt, getAt_set_self _ _ _ hp2]
        rw [hkp]
        exact le_trans (le_of_not_lt hswap) (hmin c hclen hcoff hcp)
      · exact hI c hclen hcoff hcp

theorem heapifyDown_tree {D : Nat} (impl : PosImpl P N) (hD : 1 ≤ D)
    (h : Heap N K P) (s : Nat) (hs1 : offset D ≤ s)
    (hI : ∀ c, c < h.tree.length → offset D < c → parent_of D c ≠ s →
      keyAt h.tree (parent_of D c) ≤ keyAt h.tree c)
    (hIII : offset D < s → ∀ c, c < h.tree.length → offset D < c → parent_of D c = s →
      keyAt h.tree (parent_of D s) ≤ keyAt h.tree c) :
    (heapifyDown D impl h s).tree.length = h.tree.length ∧
    HeapOrdered D (heapifyDown D impl h s).tree ∧
    LiveSub (offset D) (heapifyDown D impl h s).tree h.tree := by
  simp only [heapifyDown]
  by_cases hbr : h.tree.length ≤ left_child_of D s
  · rw [if_pos hbr]
    refine ⟨rfl, ?_, liveSub_refl _⟩
    intro c hclen hcoff
    by_cases hcp : parent_of D c = s
    · have hrange := child_in_range hD hcoff
      rw [hcp] at hrange
      omega
    · exact hI c hclen hcoff hcp
  · rw [if_neg hbr]
    have hfc : left_child_of D s < h.tree.length := lt_of_not_le hbr
    have hslen : s < h.tree.length := lt_trans (lt_left_child_of hD hs1) hfc
    have hspec := bestChild_spec hD h.tree h.tree.length (left_child_of D s) hfc
    by_cases hle : (getAt h.tree s).2 ≤
        (bestChild D h.tree h.tree.length (left_child_of D s)).2
    · rw [if_pos hle]
      refine ⟨rfl, ?_, liveSub_refl _⟩
      intro c hclen hcoff
      by_cases hcp : parent_of D c = s
      · have hrange := child_in_range hD hcoff
        rw [hcp] at hrange
        have h1 := hspec.2.2.2.2 c hrange.1 hrange.2 hclen
        rw [hcp]
        exact le_trans hle h1
      · exact hI c hclen hcoff hcp
    · rw [if_neg hle]
      have hset : h.tree.set s (getAt h.tree s) = h.tree := set_getAt_self _ _
      have hboff : offset D < (bestChild D h.tree h.tree.length (left_child_of D s)).1 := by
        have h1 := hspec.1
        have h2 := offset_lt_left_child_of hD hs1
        omega
      have hbpar : parent_of D (bestChild D h.tree h.tree.length (left_child_of D s)).1 = s := by
        have h1 := hspec.1
        have h2 := hspec.2.1
        have hi : (bestChild D h.tree h.tree.length (left_child_of D s)).1 =
            left_child_of D s + ((bestChild D h.tree h.tree.length (left_child_of D s)).1 -
              left_child_of D s) := by omega
        rw [hi]
        exact parent_of_child hD hs1 (by omega)
      have hbk : (bestChild D h.tree h.tree.length (left_child_of D s)).2 =
          keyAt (h.tree.set s (getAt h.tree s)) (bestChild D h.tree h.tree.length (left_child_of D s)).1 := by
        rw [hset]
        exact hspec.2.2.2.1
      have hmin : ∀ c, c < h.tree.length → offset D < c → parent_of D c = s →
          (bestChild D h.tree h.tree.length (left_child_of D s)).2 ≤
            keyAt (h.tree.set s (getAt h.tree s)) c := by
        rw [hset]
        intro c hclen hcoff hcp
        have hrange := child_in_range hD hcoff
        rw [hcp] at hrange
        exact hspec.2.2.2.2 c hrange.1 hrange.2 hclen
      have hI2 : ∀ c, c < h.tree.length → offset D < c → parent_of D c ≠ s →
          keyAt (h.tree.set s (getAt h.tree s)) (parent_of D c) ≤
            keyAt (h.tree.set s (getAt h.tree s)) c := by
        rw [hset]; exact hI
      have hIII2 : offset D < s → ∀ c, c < h.tree.length → offset D < c →
          parent_of D c = s →
          keyAt (h.tree.set s (getAt h.tree s)) (parent_of D s) ≤
            keyAt (h.tree.set s (getAt h.tree s)) c := by
        rw [hset]; exact hIII
      have hres := hDownGo_tree impl hD h.tree.length (getAt h.tree s) h.tree h.positions
        s (bestChild D h.tree h.tree.length (left_child_of D s)).1
        (bestChild D h.tree h.tree.length (left_child_of D s)).2
        hs1 hslen (by omega) hboff hspec.2.2.1 hbpar hbk hmin hI2 hIII2
      rw [hset] at hres
      exact hres

theorem getAt_append_lt {α : Type} [Inhabited α] (l l2 : List α) (i : Nat)
    (h : i < l.length) : getAt (l ++ l2) i = getAt l i := by
  rw [getAt_append]; simp [h]

theorem getAt_append_self {α : Type} [Inhabited α] (l : List α) (x : α) :
    getAt (l ++ [x]) l.length = x := by
  rw [getAt_append]; simp [getAt]

theorem root_min {D : Nat} (hD : 1 ≤ D) (t : List (N × K)) (ho : HeapOrdered D t) :
    ∀ i, offset D ≤ i → i < t.length → keyAt t (offset D) ≤ keyAt t i := by
  intro i
  induction i using Nat.strong_induction_on with
  | _ i ih =>
    intro hi1 hi2
    by_cases hio : i = offset D
    · subst hio; exact le_refl _
    · have hioff : offset D < i := lt_of_le_of_ne hi1 (Ne.symm hio)
      have hp1 : parent_of D i < i := parent_of_lt hD hioff
      have hp2 : offset D ≤ parent_of D i := offset_le_parent_of hioff
      exact le_trans (ih (parent_of D i) hp1 hp2 (lt_trans hp1 hi2)) (ho i hi2 hioff)

theorem push_tree {D : Nat} (impl : PosImpl P N) (hD : 1 ≤ D) (h : Heap N K P)
    (n : N) (k : K) (hinv : Inv0 D h.tree) :
    (push D impl h n k).tree.length = h.tree.length + 1 ∧
    Inv0 D (push D impl h n k).tree ∧
    LiveSub (offset D) (push D impl h n k).tree (h.tree ++ [(n, k)]) := by
  obtain ⟨hlen, hord⟩ := hinv
  have hres := heapifyUp_tree impl hD
    ⟨h.tree ++ [(n, k)], impl.insert h.positions n h.tree.length⟩ h.tree.length
    hlen (by simp)
    (by
      intro c hclen hcoff hcc
      simp only [List.length_append, List.length_singleton] at hclen
      have hclt : c < h.tree.length := by omega
      have hplt : parent_of D c < h.tree.length := lt_trans (parent_of_lt hD hcoff) hclt
      rw [keyAt, keyAt, getAt_append_lt _ _ _ hclt, getAt_append_lt _ _ _ hplt]
      exact hord c hclt hcoff)
    (by
      intro hsoff c hclen hcoff hcp
      have : h.tree.length < c := hcp ▸ parent_of_lt hD hcoff
      simp only [List.length_append, List.length_singleton] at hclen
      omega)
  simp only [List.length_append, List.length_singleton] at hres
  have hpush : push D impl h n k =
      heapifyUp D impl ⟨h.tree ++ [(n, k)], impl.insert h.positions n h.tree.length⟩
        h.tree.length := rfl
  rw [hpush]
  exact ⟨hres.1, ⟨by rw [hres.1]; omega, hres.2.1⟩, hres.2.2⟩

theorem pop_tree {D : Nat} (impl : PosImpl P N) (hD : 1 ≤ D) (h : Heap N K P)
    (hinv : Inv0 D h.tree) (hne : ¬ h.tree.length = offset D) :
    (popOp D impl h).1 = some (getAt h.tree (offset D)) ∧
    (popOp D impl h).2.tree.length = h.tree.length - 1 ∧
    Inv0 D (popOp D impl h).2.tree ∧
    LiveSub (offset D) (popOp D impl h).2.tree h.tree := by
  obtain ⟨hlen, hord⟩ := hinv
  have hlen1 : offset D < h.tree.length := lt_of_le_of_ne hlen (fun hh => hne hh.symm)
  have hlast : offset D ≤ h.tree.length - 1 := by omega
  have hlast2 : h.tree.length - 1 < h.tree.length := by omega
  have hpop : popOp D impl h = (some (getAt h.tree (offset D)),
      heapifyDown D impl
        ⟨(h.tree.set (offset D) (getAt h.tree (h.tree.length - 1))).take (h.tree.length - 1),
          impl.remove (impl.updatePositionOf h.positions
            (getAt h.tree (h.tree.length - 1)).1 (offset D)) (getAt h.tree (offset D)).1⟩
        (offset D)) := by
    simp only [popOp]
    rw [if_neg hne]
  have ht1len : ((h.tree.set (offset D) (getAt h.tree (h.tree.length - 1))).take
      (h.tree.length - 1)).length = h.tree.length - 1 := by
    simp [List.length_take, List.length_set]
  have ht1sub : LiveSub (offset D)
      ((h.tree.set (offset D) (getAt h.tree (h.tree.length - 1))).take (h.tree.length - 1))
      h.tree := by
    intro i hi1 hi2
    rw [ht1len] at hi2
    by_cases hio : offset D = i
    · subst hio
      refine ⟨h.tree.length - 1, hlast, hlast2, ?_⟩
      rw [getAt_take _ _ _ (by omega), getAt_set_self _ _ _ hlen1]
    · refine ⟨i, hi1, by omega, ?_⟩
      rw [getAt_take _ _ _ hi2, getAt_set_ne _ _ _ _ hio]
  have hres := heapifyDown_tree impl hD
    ⟨(h.tree.set (offset D) (getAt h.tree (h.tree.length - 1))).take (h.tree.length - 1),
      impl.remove (impl.updatePositionOf h.positions
        (getAt h.tree (h.tree.length - 1)).1 (offset D)) (getAt h.tree (offset D)).1⟩
    (offset D) (le_refl _)
    (by
      intro c hclen hcoff hcp
      rw [ht1len] at hclen
      have hcoff2 : offset D ≠ c := ne_of_lt hcoff
      have hpo : offset D ≤ parent_of D c := offset_le_parent_of hcoff
      have hplt : parent_of D c < c := parent_of_lt hD hcoff
      have hpoff2 : offset D ≠ parent_of D c := fun hh => hcp hh.symm
      rw [keyAt, keyAt, getAt_take _ _ _ hclen, getAt_take _ _ _ (by omega),
        getAt_set_ne _ _ _ _ hcoff2, getAt_set_ne _ _ _ _ hpoff2]
      exact hord c (by omega) hcoff)
    (by intro hh; omega)
  rw [hpop]
  refine ⟨rfl, ?_, ?_, ?_⟩
  · rw [hres.1, ht1len]
  · exact ⟨by rw [hres.1, ht1len]; omega, hres.2.1⟩
  · exact liveSub_trans hres.2.2 ht1sub

theorem popNodeOp_state {D : Nat} (impl : PosImpl P N) (h : Heap N K P) :
    (popNodeOp D impl h).2 = (popOp D impl h).2 := by
  by_cases hc : h.tree.length = offset D <;> simp [popOp, popNodeOp, hc]

theorem popKeyOp_state {D : Nat} (impl : PosImpl P N) (h : Heap N K P) :
    (popKeyOp D impl h).2 = (popOp D impl h).2 := by
  by_cases hc : h.tree.length = offset D <;> simp [popOp, popKeyOp, hc]

theorem clear_tree {D : Nat} (impl : PosImpl P N) (h : Heap N K P)
    (hlen : offset D ≤ h.tree.length) :
    (clearOp D impl h).tree.length = offset D ∧ Inv0 D (clearOp D impl h).tree := by
  have h1 : (clearOp D impl h).tree.length = offset D := by
    simp [clearOp, List.length_take]
    omega
  refine ⟨h1, le_of_eq h1.symm, ?_⟩
  intro c hclen hcoff
  rw [h1] at hclen
  omega

theorem pushThenPop_tree {D : Nat} (impl : PosImpl P N) (hD : 1 ≤ D) (h : Heap N K P)
    (n : N) (k : K) (hinv : Inv0 D h.tree) :
    (pushThenPop D impl h n k).2.tree.length = h.tree.length ∧
    Inv0 D (pushThenPop D impl h n k).2.tree := by
  obtain ⟨hlen, hord⟩ := hinv
  by_cases hfast : h.tree.length = offset D ∨ k ≤ (getAt h.tree (offset D)).2
  · simp only [pushThenPop]
    rw [if_pos hfast]
    exact ⟨rfl, hlen, hord⟩
  · have hptp : pushThenPop D impl h n k = (getAt h.tree (offset D),
        heapifyDown D impl
          ⟨h.tree.set (offset D) (n, k),
            impl.insert (impl.remove h.positions (getAt h.tree (offset D)).1) n (offset D)⟩
          (offset D)) := by
      simp only [pushThenPop]
      rw [if_neg hfast]
    have ht1len : (h.tree.set (offset D) (n, k)).length = h.tree.length :=
      List.length_set _ _ _
    have hres := heapifyDown_tree impl hD
      ⟨h.tree.set (offset D) (n, k),
        impl.insert (impl.remove h.positions (getAt h.tree (offset D)).1) n (offset D)⟩
      (offset D) (le_refl _)
      (by
        intro c hclen hcoff hcp
        rw [ht1len] at hclen
        have hcoff2 : offset D ≠ c := ne_of_lt hcoff
        have hpoff2 : offset D ≠ parent_of D c := fun hh => hcp hh.symm
        rw [keyAt, keyAt, getAt_set_ne _ _ _ _ hcoff2, getAt_set_ne _ _ _ _ hpoff2]
        exact hord c hclen hcoff)
      (by intro hh; omega)
    rw [hptp]
    refine ⟨by rw [hres.1, ht1len], by rw [hres.1, ht1len]; exact hlen, hres.2.1⟩

theorem decreaseKey_tree {D : Nat} (impl : PosImpl P N) (hD : 1 ≤ D) (h : Heap N K P)
    (n : N) (k : K) (h2 : Heap N K P)
    (hsome : decreaseKey D impl h n k = some h2)
    (hsound : ∀ m j, impl.positionOf h.positions m = some j →
      offset D ≤ j ∧ j < h.tree.length)
    (hinv : Inv0 D h.tree) :
    h2.tree.length = h.tree.length ∧ Inv0 D h2.tree := by
  obtain ⟨hlen, hord⟩ := hinv
  unfold decreaseKey at hsome
  split at hsome
  · exact absurd hsome (by simp)
  next s hpos =>
    split at hsome
    next hk =>
      obtain ⟨hs1, hs2⟩ := hsound n s hpos
      have hs2q : s < (h.tree.set s ((getAt h.tree s).1, k)).length := by
        rw [List.length_set]; exact hs2
      have hres := heapifyUp_tree impl hD
        ⟨h.tree.set s ((getAt h.tree s).1, k), h.positions⟩ s hs1 hs2q
        (by
          intro c hclen hcoff hcc
          rw [List.length_set] at hclen
          have hkc : keyAt (h.tree.set s ((getAt h.tree s).1, k)) c = keyAt h.tree c := by
            rw [keyAt, getAt_set_ne _ _ _ _ (fun hh => hcc hh.symm), keyAt]
          rw [hkc]
          by_cases hpc : parent_of D c = s
          · have hks : keyAt (h.tree.set s ((getAt h.tree s).1, k)) (parent_of D c) = k := by
              rw [hpc, keyAt, getAt_set_self _ _ _ hs2]
            rw [hks]
            refine le_trans hk ?_
            have h1 := hord c hclen hcoff
            rw [hpc] at h1
            exact h1
          · have hks : keyAt (h.tree.set s ((getAt h.tree s).1, k)) (parent_of D c) =
                keyAt h.tree (parent_of D c) := by
              rw [keyAt, getAt_set_ne _ _ _ _ (fun hh => hpc hh.symm), keyAt]
            rw [hks]
            exact hord c hclen hcoff)
        (by
          intro hsoff c hclen hcoff hcp
          rw [List.length_set] at hclen
          have hps : parent_of D s ≠ s := ne_of_lt (parent_of_lt hD hsoff)
          have hcs : c ≠ s := ne_of_gt (hcp ▸ parent_of_lt hD hcoff)
          have hk1 : keyAt (h.tree.set s ((getAt h.tree s).1, k)) (parent_of D s) =
              keyAt h.tree (parent_of D s) := by
            rw [keyAt, getAt_set_ne _ _ _ _ (fun hh => hps hh.symm), keyAt]
          have hk2 : keyAt (h.tree.set s ((getAt h.tree s).1, k)) c = keyAt h.tree c := by
            rw [keyAt, getAt_set_ne _ _ _ _ (fun hh => hcs hh.symm), keyAt]
          rw [hk1, hk2]
          refine le_trans (hord s hs2 hsoff) ?_
          have h1 := hord c hclen hcoff
          rw [hcp] at h1
          exact h1)
      rw [List.length_set] at hres
      cases hsome
      exact ⟨hres.1, by rw [hres.1]; exact hlen, hres.2.1⟩
    next hk =>
      exact absurd hsome (by simp)

theorem updateKey_tree {D : Nat} (impl : PosImpl P N) (hD : 1 ≤ D) (h : Heap N K P)
    (n : N) (k : K) (r : ResUpdateKey) (h2 : Heap N K P)
    (hsome : updateKey D impl h n k = some (r, h2))
    (hsound : ∀ m j, impl.positionOf h.positions m = some j →
      offset D ≤ j ∧ j < h.tree.length)
    (hinv : Inv0 D h.tree) :
    h2.tree.length = h.tree.length ∧ Inv0 D h2.tree := by
  obtain ⟨hlen, hord⟩ := hinv
  simp only [updateKey] at hsome
  split at hsome
  · exact absurd hsome (by simp)
  next s hpos =>
    obtain ⟨hs1, hs2⟩ := hsound n s hpos
    split at hsome
    next hup =>
      have hdec : decreaseKey D impl h n k = some
          (heapifyUp D impl ⟨h.tree.set s ((getAt h.tree s).1, k), h.positions⟩ s) := by
        unfold decreaseKey
        rw [hpos]
        simp [le_of_lt hup]
      have := decreaseKey_tree impl hD h n k _ hdec hsound ⟨hlen, hord⟩
      cases hsome
      exact this
    next hup =>
      have hk : (getAt h.tree s).2 ≤ k := le_of_not_lt hup
      have hres := heapifyDown_tree impl hD
        ⟨h.tree.set s ((getAt h.tree s).1, k), h.positions⟩ s hs1
        (by
          intro c hclen hcoff hcp
          rw [List.length_set] at hclen
          by_cases hcs : c = s
          · subst hcs
            have hps : parent_of D c ≠ c := ne_of_lt (parent_of_lt hD hcoff)
            have hk1 : keyAt (h.tree.set c ((getAt h.tree c).1, k)) (parent_of D c) =
                keyAt h.tree (parent_of D c) := by
              rw [keyAt, getAt_set_ne _ _ _ _ (fun hh => hps hh.symm), keyAt]
            have hk2 : keyAt (h.tree.set c ((getAt h.tree c).1, k)) c = k := by
              rw [keyAt, getAt_set_self _ _ _ hs2]
            rw [hk1, hk2]
            exact le_trans (hord c hclen hcoff) hk
          · have hk2 : keyAt (h.tree.set s ((getAt h.tree s).1, k)) c = keyAt h.tree c := by
              rw [keyAt, getAt_set_ne _ _ _ _ (fun hh => hcs hh.symm), keyAt]
            have hk1 : keyAt (h.tree.set s ((getAt h.tree s).1, k)) (parent_of D c) =
                keyAt h.tree (parent_of D c) := by
              rw [keyAt, getAt_set_ne _ _ _ _ (fun hh => hcp hh.symm), keyAt]
            rw [hk1, hk2]
            exact hord c hclen hcoff)
        (by
          intro hsoff c hclen hcoff hcp
          rw [List.length_set] at hclen
          have hps : parent_of D s ≠ s := ne_of_lt (parent_of_lt hD hsoff)
          have hcs : c ≠ s := ne_of_gt (hcp ▸ parent_of_lt hD hcoff)
          have hk1 : keyAt (h.tree.set s ((getAt h.tree s).1, k)) (parent_of D s) =
              keyAt h.tree (parent_of D s) := by
            rw [keyAt, getAt_set_ne _ _ _ _ (fun hh => hps hh.symm), keyAt]
          have hk2 : keyAt (h.tree.set s ((getAt h.tree s).1, k)) c = keyAt h.tree c := by
            rw [keyAt, getAt_set_ne _ _ _ _ (fun hh => hcs hh.symm), keyAt]
          rw [hk1, hk2]
          refine le_trans (hord s hs2 hsoff) ?_
          have h1 := hord c hclen hcoff
          rw [hcp] at h1
          exact h1)
      rw [List.length_set] at hres
      cases hsome
      exact ⟨hres.1, by rw [hres.1]; exact hlen, hres.2.1⟩

theorem removeAndHeapify_tree {D : Nat} (impl : PosImpl P N) (hD : 1 ≤ D)
    (h : Heap N K P) (s : Nat) (hs1 : offset D ≤ s) (hs2 : s < h.tree.length)
    (hinv : Inv0 D h.tree) :
    (removeAndHeapify D impl h s).tree.length = h.tree.length - 1 ∧
    Inv0 D (removeAndHeapify D impl h s).tree ∧
    LiveSub (offset D) (removeAndHeapify D impl h s).tree h.tree := by
  obtain ⟨hlen, hord⟩ := hinv
  have hlen1 : offset D < h.tree.length := lt_of_le_of_lt hs1 hs2
  simp only [removeAndHeapify]
  by_cases hsingle : h.tree.length = offset D + 1
  · rw [if_pos hsingle]
    refine ⟨by simp [List.length_take]; omega, ⟨by simp [List.length_take]; omega, ?_⟩, ?_⟩
    · intro c hclen hcoff
      simp [List.length_take] at hclen
      omega
    · intro i hi1 hi2
      simp [List.length_take] at hi2
      omega
  · rw [if_neg hsingle]
    by_cases hlastc : s = h.tree.length - 1
    · rw [if_pos hlastc]
      refine ⟨by simp [List.length_take, List.length_set]; try omega,
        ⟨by simp [List.length_take, List.length_set]; try omega, ?_⟩, ?_⟩
      · intro c hclen hcoff
        simp only [List.length_take] at hclen
        have hc2 : c < h.tree.length - 1 := by omega
        have hpc : parent_of D c < c := parent_of_lt hD hcoff
        rw [keyAt, keyAt, getAt_take _ _ _ hc2, getAt_take _ _ _ (by omega)]
        exact hord c (by omega) hcoff
      · intro i hi1 hi2
        simp only [List.length_take] at hi2
        have hi3 : i < h.tree.length - 1 := by omega
        exact ⟨i, hi1, by omega, (getAt_take _ _ _ hi3).symm⟩
    · rw [if_neg hlastc]
      have hslast : s < h.tree.length - 1 := by omega
      have ht1len : ((h.tree.set s (getAt h.tree (h.tree.length - 1))).take
          (h.tree.length - 1)).length = h.tree.length - 1 := by
        simp [List.length_take, List.length_set]
      have hkt1 : ∀ x, x ≠ s → x < h.tree.length - 1 →
          keyAt ((h.tree.set s (getAt h.tree (h.tree.length - 1))).take (h.tree.length - 1)) x =
            keyAt h.tree x := by
        intro x hx1 hx2
        rw [keyAt, getAt_take _ _ _ hx2, getAt_set_ne _ _ _ _ (fun hh => hx1 hh.symm), keyAt]
      have hkt1s : keyAt ((h.tree.set s (getAt h.tree (h.tree.length - 1))).take
          (h.tree.length - 1)) s = keyAt h.tree (h.tree.length - 1) := by
        rw [keyAt, getAt_take _ _ _ hslast, getAt_set_self _ _ _ hs2, keyAt]
      have ht1sub : LiveSub (offset D)
          ((h.tree.set s (getAt h.tree (h.tree.length - 1))).take (h.tree.length - 1))
          h.tree := by
        intro i hi1 hi2
        rw [ht1len] at hi2
        by_cases his : s = i
        · subst his
          refine ⟨h.tree.length - 1, by omega, by omega, ?_⟩
          rw [getAt_take _ _ _ hi2, getAt_set_self _ _ _ hs2]
        · refine ⟨i, hi1, by omega, ?_⟩
          rw [getAt_take _ _ _ hi2, getAt_set_ne _ _ _ _ his]
      by_cases hbranch : offset D < s ∧
          keyAt ((h.tree.set s (getAt h.tree (h.tree.length - 1))).take (h.tree.length - 1)) s <
            keyAt ((h.tree.set s (getAt h.tree (h.tree.length - 1))).take (h.tree.length - 1))
              (parent_of D s)
      · rw [if_pos hbranch]
        obtain ⟨hsoff, hkey⟩ := hbranch
        have hps_lt : parent_of D s < s := parent_of_lt hD hsoff
        have hps_ne : parent_of D s ≠ s := ne_of_lt hps_lt
        have hkp : keyAt ((h.tree.set s (getAt h.tree (h.tree.length - 1))).take
            (h.tree.length - 1)) (parent_of D s) = keyAt h.tree (parent_of D s) :=
          hkt1 _ hps_ne (by omega)
        have hres := heapifyUp_tree impl hD
          ⟨(h.tree.set s (getAt h.tree (h.tree.length - 1))).take (h.tree.length - 1),
            impl.updatePositionOf (impl.remove h.positions (getAt h.tree s).1)
              (getAt h.tree (h.tree.length - 1)).1 s⟩ s hs1
          (by rw [ht1len]; omega)
          (by
            intro c hclen hcoff hcc
            rw [ht1len] at hclen
            rw [hkt1 c hcc hclen]
            by_cases hpc : parent_of D c = s
            · rw [hpc, hkt1s]
              have h1 : keyAt h.tree (h.tree.length - 1) < keyAt h.tree (parent_of D s) := by
                rw [← hkp, ← hkt1s]; exact hkey
              have h2 : keyAt h.tree (parent_of D s) ≤ keyAt h.tree s :=
                hord s hs2 hsoff
              have h3 : keyAt h.tree s ≤ keyAt h.tree c := by
                have := hord c (by omega) hcoff
                rw [hpc] at this
                exact this
              exact le_of_lt (lt_of_lt_of_le h1 (le_trans h2 h3))
            · rw [hkt1 _ hpc (lt_trans (parent_of_lt hD hcoff) hclen)]
              exact hord c (by omega) hcoff)
          (by
            intro hsoff2 c hclen hcoff hcp
            rw [ht1len] at hclen
            have hcs : c ≠ s := ne_of_gt (hcp ▸ parent_of_lt hD hcoff)
            rw [hkt1 c hcs hclen, hkp]
            refine le_trans (hord s hs2 hsoff2) ?_
            have h1 := hord c (by omega) hcoff
            rw [hcp] at h1
            exact h1)
        rw [ht1len] at hres
        exact ⟨hres.1, ⟨by rw [hres.1]; omega, hres.2.1⟩,
          liveSub_trans hres.2.2 ht1sub⟩
      · rw [if_neg hbranch]
        have hres := heapifyDown_tree impl hD
          ⟨(h.tree.set s (getAt h.tree (h.tree.length - 1))).take (h.tree.length - 1),
            impl.updatePositionOf (impl.remove h.positions (getAt h.tree s).1)
              (getAt h.tree (h.tree.length - 1)).1 s⟩ s hs1
          (by
            intro c hclen hcoff hcp
            rw [ht1len] at hclen
            by_cases hcs : c = s
            · subst hcs
              have hnot : ¬ keyAt ((h.tree.set c (getAt h.tree (h.tree.length - 1))).take
                  (h.tree.length - 1)) c <
                    keyAt ((h.tree.set c (getAt h.tree (h.tree.length - 1))).take
                      (h.tree.length - 1)) (parent_of D c) := by
                intro hx
                exact hbranch ⟨hcoff, hx⟩
              exact le_of_not_lt hnot
            · have hpcs : parent_of D c < c := parent_of_lt hD hcoff
              rw [hkt1 c hcs hclen, hkt1 _ hcp (by omega)]
              exact hord c (by omega) hcoff)
          (by
            intro hsoff2 c hclen hcoff hcp
            rw [ht1len] at hclen
            have hcs : c ≠ s := ne_of_gt (hcp ▸ parent_of_lt hD hcoff)
            have hps_lt : parent_of D s < s := parent_of_lt hD hsoff2
            have hps_ne : parent_of D s ≠ s := ne_of_lt hps_lt
            rw [hkt1 c hcs hclen, hkt1 _ hps_ne (by omega)]
            refine le_trans (hord s hs2 hsoff2) ?_
            have h1 := hord c (by omega) hcoff
            rw [hcp] at h1
            exact h1)
        rw [ht1len] at hres
        exact ⟨hres.1, ⟨by rw [hres.1]; omega, hres.2.1⟩,
          liveSub_trans hres.2.2 ht1sub⟩

theorem removeOp_tree {D : Nat} (impl : PosImpl P N) (hD : 1 ≤ D) (h : Heap N K P)
    (n : N) (k0 : K) (h2 : Heap N K P)
    (hsome : removeOp D impl h n = some (k0, h2))
    (hsound : ∀ m j, impl.positionOf h.positions m = some j →
      offset D ≤ j ∧ j < h.tree.length)
    (hinv : Inv0 D h.tree) :
    h2.tree.length = h.tree.length - 1 ∧ Inv0 D h2.tree ∧
    LiveSub (offset D) h2.tree h.tree := by
  unfold removeOp at hsome
  split at hsome
  · exact absurd hsome (by simp)
  next s hpos =>
    obtain ⟨hs1, hs2⟩ := hsound n s hpos
    have := removeAndHeapify_tree impl hD h s hs1 hs2 hinv
    cases hsome
    exact this

theorem reachable_inv0_trivial {D : Nat} {impl : PosImpl P N} {ok : N → Prop}
    {good : P → Prop} (hD : 1 ≤ D)
    (htriv : ∀ p n, impl.positionOf p n = none)
    (htrivc : ∀ p n, impl.contains p n = false) :
    ∀ h : Heap N K P, Reachable D impl ok good h → Inv0 D h.tree := by
  intro h0 hr
  induction hr with
  | init ps0 junk h1 h2 h3 =>
    constructor
    · simp [newHeap]
    · intro c hclen hcoff
      simp only [newHeap, List.length_replicate] at hclen
      omega
  | @push h n k hr hok hcont ih => exact (push_tree impl hD h n k ih).2.1
  | @pop h hr ih =>
    by_cases hc : h.tree.length = offset D
    · have hq : popOp D impl h = (none, h) := by simp [popOp, hc]
      rw [hq]; exact ih
    · exact (pop_tree impl hD h ih hc).2.2.1
  | @popNode h hr ih =>
    rw [popNodeOp_state]
    by_cases hc : h.tree.length = offset D
    · have hq : popOp D impl h = (none, h) := by simp [popOp, hc]
      rw [hq]; exact ih
    · exact (pop_tree impl hD h ih hc).2.2.1
  | @popKey h hr ih =>
    rw [popKeyOp_state]
    by_cases hc : h.tree.length = offset D
    · have hq : popOp D impl h = (none, h) := by simp [popOp, hc]
      rw [hq]; exact ih
    · exact (pop_tree impl hD h ih hc).2.2.1
  | @clear h hr ih => exact (clear_tree impl h ih.1).2
  | @pushThenPop h n k hr hok hcont ih => exact (pushThenPop_tree impl hD h n k ih).2
  | @decreaseKey h h2 n k hr hsome ih => simp [decreaseKey, htriv] at hsome
  | @updateKey h h2 r n k hr hsome ih => simp [updateKey, htriv] at hsome
  | @tryDecreaseKey h h2 r n k hr hsome ih =>
    simp [tryDecreaseKey, keyOf, htriv] at hsome
  | @removeO h h2 k0 n hr hsome ih => simp [removeOp, htriv] at hsome
  | @decKeyOrPush h h2 r n k hr hok hsome ih =>
    simp [decreaseKeyOrPush, containsH, htrivc] at hsome
    obtain ⟨h1, h2eq⟩ := hsome
    subst h2eq
    exact (push_tree impl hD h n k ih).2.1
  | @updKeyOrPush h h2 r n k hr hok hsome ih =>
    simp [updateKeyOrPush, containsH, htrivc] at hsome
    obtain ⟨h1, h2eq⟩ := hsome
    subst h2eq
    exact (push_tree impl hD h n k ih).2.1
  | @tryDecKeyOrPush h h2 r n k hr hok hsome ih =>
    simp [tryDecreaseKeyOrPush, keyOf, htriv] at hsome
    obtain ⟨h1, h2eq⟩ := hsome
    subst h2eq
    exact (push_tree impl hD h n k ih).2.1

theorem heapifyDown_noop {D : Nat} (impl : PosImpl P N) (hD : 1 ≤ D) (h : Heap N K P)
    (s : Nat) (hs1 : offset D ≤ s)
    (hmin : ∀ c, c < h.tree.length → offset D < c → parent_of D c = s →
      (getAt h.tree s).2 ≤ keyAt h.tree c) :
    heapifyDown D impl h s = h := by
  simp only [heapifyDown]
  by_cases hbr : h.tree.length ≤ left_child_of D s
  · rw [if_pos hbr]
  · rw [if_neg hbr]
    have hfc : left_child_of D s < h.tree.length := lt_of_not_le hbr
    have hspec := bestChild_spec hD h.tree h.tree.length (left_child_of D s) hfc
    have hboff : offset D < (bestChild D h.tree h.tree.length (left_child_of D s)).1 := by
      have h1 := hspec.1
      have h2 := offset_lt_left_child_of hD hs1
      omega
    have hbpar : parent_of D (bestChild D h.tree h.tree.length (left_child_of D s)).1 = s := by
      have h1 := hspec.1
      have h2 := hspec.2.1
      have hi : (bestChild D h.tree h.tree.length (left_child_of D s)).1 =
          left_child_of D s + ((bestChild D h.tree h.tree.length (left_child_of D s)).1 -
            left_child_of D s) := by omega
      rw [hi]
      exact parent_of_child hD hs1 (by omega)
    have hle : (getAt h.tree s).2 ≤ (bestChild D h.tree h.tree.length (left_child_of D s)).2 := by
      rw [hspec.2.2.2.1]
      exact hmin _ hspec.2.2.1 hboff hbpar
    rw [if_pos hle]

/-- C5: for a heap with a position tracker, `decrease_key(e, k_new)` fails
(panics, modelled as `none`) exactly when `e` is not in the queue or `k_new`
is strictly greater than the current key of `e`; in particular, when `e` is
present and `k_new` equals its current key, the call succeeds. -/
theorem C5_decrease_key_failure (D : Nat) (impl : PosImpl P N) (h : Heap N K P)
    (n : N) (k : K) :
    (decreaseKey D impl h n k = none ↔
      (keyOf impl h n = none ∨ ∃ k0, keyOf impl h n = some k0 ∧ k0 < k)) ∧
    (∀ k0, keyOf impl h n = some k0 → k = k0 → (decreaseKey D impl h n k).isSome) := by
  cases hpos : impl.positionOf h.positions n with
  | none =>
    have hko : keyOf impl h n = none := by simp [keyOf, hpos]
    have hdec : decreaseKey D impl h n k = none := by simp [decreaseKey, hpos]
    refine ⟨⟨fun _ => Or.inl hko, fun _ => hdec⟩, ?_⟩
    intro k0 hk0
    rw [hko] at hk0
    exact absurd hk0 (by simp)
  | some s =>
    have hko : keyOf impl h n = some (getAt h.tree s).2 := by simp [keyOf, hpos]
    have hdec : decreaseKey D impl h n k =
        if k ≤ (getAt h.tree s).2 then
          some (heapifyUp D impl
            ⟨h.tree.set s ((getAt h.tree s).1, k), h.positions⟩ s)
        else none := by
      simp [decreaseKey, hpos]
    constructor
    · constructor
      · intro hnone
        rw [hdec] at hnone
        by_cases hk : k ≤ (getAt h.tree s).2
        · rw [if_pos hk] at hnone; exact absurd hnone (by simp)
        · exact Or.inr ⟨(getAt h.tree s).2, hko, lt_of_not_le hk⟩
      · intro hor
        rcases hor with hnone | ⟨k0, hk0, hlt⟩
        · rw [hko] at hnone; exact absurd hnone (by simp)
        · rw [hko] at hk0
          injection hk0 with hk0
          rw [hdec, if_neg (not_le_of_lt (hk0 ▸ hlt))]
    · intro k0 hk0 heq
      rw [hko] at hk0
      injection hk0 with hk0
      rw [hdec, if_pos (le_of_eq (heq.trans hk0.symm))]
      simp

/-- Witness for C5 on a concrete one-element mapped heap. -/
theorem C5_decrease_key_failure_witness :
    (decreaseKey 2 (mapImpl Nat)
      (⟨[((0 : Nat), (0 : Int)), (0, 5)], fun m => if m = 0 then some 1 else none⟩ :
        Heap Nat Int (Nat → Option Nat)) 0 5).isSome := by
  refine (C5_decrease_key_failure 2 (mapImpl Nat)
    ⟨[((0 : Nat), (0 : Int)), (0, 5)], fun m => if m = 0 then some 1 else none⟩ 0 5).2
    5 ?_ rfl
  rfl

/-- C6: for a heap with a sound position tracker in heap order,
`update_key(e, k_new)` fails exactly on an absent element; on a present
element with current key `k0` it returns `Decreased` if and only if
`k_new < k0` and `Increased` if and only if `k0 ≤ k_new`, and an equal key
yields `Increased` and leaves the state unchanged. -/
theorem C6_update_key (D : Nat) (impl : PosImpl P N) (h : Heap N K P) (n : N) (k : K)
    (hD : 1 ≤ D)
    (hsound : ∀ m j, impl.positionOf h.positions m = some j →
      offset D ≤ j ∧ j < h.tree.length)
    (hord : HeapOrdered D h.tree) :
    (keyOf impl h n = none → updateKey D impl h n k = none) ∧
    (∀ k0, keyOf impl h n = some k0 →
      ∃ h2 r, updateKey D impl h n k = some (r, h2) ∧
        (r = ResUpdateKey.Decreased ↔ k < k0) ∧
        (r = ResUpdateKey.Increased ↔ k0 ≤ k) ∧
        (k = k0 → h2 = h)) := by
  cases hpos : impl.positionOf h.positions n with
  | none =>
    have hko : keyOf impl h n = none := by simp [keyOf, hpos]
    refine ⟨fun _ => by simp [updateKey, hpos], ?_⟩
    intro k0 hk0
    rw [hko] at hk0
    exact absurd hk0 (by simp)
  | some s =>
    have hko : keyOf impl h n = some (getAt h.tree s).2 := by simp [keyOf, hpos]
    obtain ⟨hs1, hs2⟩ := hsound n s hpos
    have hupd : updateKey D impl h n k =
        if k < (getAt h.tree s).2 then
          some (ResUpdateKey.Decreased, heapifyUp D impl
            ⟨h.tree.set s ((getAt h.tree s).1, k), h.positions⟩ s)
        else
          some (ResUpdateKey.Increased, heapifyDown D impl
            ⟨h.tree.set s ((getAt h.tree s).1, k), h.positions⟩ s) := by
      simp [updateKey, hpos]
    refine ⟨fun hq => by rw [hko] at hq; exact absurd hq (by simp), ?_⟩
    intro k0 hk0
    rw [hko] at hk0
    injection hk0 with hk0
    subst hk0
    by_cases hup : k < (getAt h.tree s).2
    · rw [hupd, if_pos hup]
      refine ⟨_, _, rfl, by simp [hup], ?_, ?_⟩
      · constructor
        · intro hr; exact absurd hr (by simp)
        · intro hle; exact absurd hup (not_lt_of_le hle)
      · intro heq; exact absurd (heq ▸ hup) (lt_irrefl _)
    · rw [hupd, if_neg hup]
      refine ⟨_, _, rfl, ?_, by simp [le_of_not_lt hup], ?_⟩
      · constructor
        · intro hr; exact absurd hr (by simp)
        · intro hlt; exact absurd hlt (hup ∘ id)
      · intro heq
        have hpair : ((getAt h.tree s).1, k) = getAt h.tree s := by
          rw [heq]
        have hset : h.tree.set s ((getAt h.tree s).1, k) = h.tree := by
          rw [hpair, set_getAt_self]
        have hheap : (⟨h.tree.set s ((getAt h.tree s).1, k), h.positions⟩ : Heap N K P) = h := by
          rw [hset]
        rw [hheap]
        refine heapifyDown_noop impl hD h s hs1 ?_
        intro c hclen hcoff hcp
        have h1 := hord c hclen hcoff
        rw [hcp] at h1
        exact h1

/-- Witness for C6 on a concrete two-element mapped heap. -/
theorem C6_update_key_witness :
    (keyOf (mapImpl Nat)
        (⟨[((0 : Nat), (0 : Int)), (0, 5), (1, 7)],
          fun m => if m = 0 then some 1 else if m = 1 then some 2 else none⟩ :
          Heap Nat Int (Nat → Option Nat)) 0 = none →
      updateKey 2 (mapImpl Nat)
        ⟨[((0 : Nat), (0 : Int)), (0, 5), (1, 7)],
          fun m => if m = 0 then some 1 else if m = 1 then some 2 else none⟩ 0 5 = none) ∧
    (∀ k0, keyOf (mapImpl Nat)
        (⟨[((0 : Nat), (0 : Int)), (0, 5), (1, 7)],
          fun m => if m = 0 then some 1 else if m = 1 then some 2 else none⟩ :
          Heap Nat Int (Nat → Option Nat)) 0 = some k0 →
      ∃ h2 r, updateKey 2 (mapImpl Nat)
          ⟨[((0 : Nat), (0 : Int)), (0, 5), (1, 7)],
            fun m => if m = 0 then some 1 else if m = 1 then some 2 else none⟩ 0 5 =
            some (r, h2) ∧
        (r = ResUpdateKey.Decreased ↔ (5 : Int) < k0) ∧
        (r = ResUpdateKey.Increased ↔ k0 ≤ 5) ∧
        ((5 : Int) = k0 → h2 =
          ⟨[((0 : Nat), (0 : Int)), (0, 5), (1, 7)],
            fun m => if m = 0 then some 1 else if m = 1 then some 2 else none⟩)) := by
  refine C6_update_key 2 (mapImpl Nat)
    ⟨[((0 : Nat), (0 : Int)), (0, 5), (1, 7)],
      fun m => if m = 0 then some 1 else if m = 1 then some 2 else none⟩ 0 5
    (by norm_num) ?_ ?_
  · intro m j hm
    have hoff : offset 2 = 1 := rfl
    rw [hoff]
    show 1 ≤ j ∧ j < 3
    simp only [mapImpl] at hm
    by_cases hm0 : m = 0
    · rw [if_pos hm0] at hm
      injection hm with hm
      omega
    · rw [if_neg hm0] at hm
      by_cases hm1 : m = 1
      · rw [if_pos hm1] at hm
        injection hm with hm
        omega
      · rw [if_neg hm1] at hm
        exact absurd hm (by simp)
  · intro c hclen hcoff
    have hoff : offset 2 = 1 := rfl
    rw [hoff] at hcoff
    simp only [List.length_cons, List.length_nil] at hclen
    have hc2 : c = 2 := by omega
    subst hc2
    decide

/-- C7: `try_decrease_key_or_push(e, k)` pushes and returns `Pushed` when `e`
is absent; when `e` is present with current key `k0` and `k < k0` it performs
the `decrease_key` and returns `Decreased`; otherwise it returns `Unchanged`
and the queue state is exactly the state before the call. -/
theorem C7_try_decrease_key_or_push (D : Nat) (impl : PosImpl P N) (h : Heap N K P)
    (n : N) (k : K) :
    (keyOf impl h n = none →
      tryDecreaseKeyOrPush D impl h n k =
        some (ResTryDecreaseKeyOrPush.Pushed, push D impl h n k)) ∧
    (∀ k0, keyOf impl h n = some k0 → k < k0 →
      ∃ h2, decreaseKey D impl h n k = some h2 ∧
        tryDecreaseKeyOrPush D impl h n k =
          some (ResTryDecreaseKeyOrPush.Decreased, h2)) ∧
    (∀ k0, keyOf impl h n = some k0 → ¬ k < k0 →
      tryDecreaseKeyOrPush D impl h n k =
        some (ResTryDecreaseKeyOrPush.Unchanged, h)) := by
  cases hpos : impl.positionOf h.positions n with
  | none =>
    have hko : keyOf impl h n = none := by simp [keyOf, hpos]
    refine ⟨fun _ => by simp [tryDecreaseKeyOrPush, hko], ?_, ?_⟩
    · intro k0 hk0
      rw [hko] at hk0
      exact absurd hk0 (by simp)
    · intro k0 hk0
      rw [hko] at hk0
      exact absurd hk0 (by simp)
  | some s =>
    have hko : keyOf impl h n = some (getAt h.tree s).2 := by simp [keyOf, hpos]
    refine ⟨fun hq => by rw [hko] at hq; exact absurd hq (by simp), ?_, ?_⟩
    · intro k0 hk0 hlt
      rw [hko] at hk0
      injection hk0 with hk0
      subst hk0
      have hdec : decreaseKey D impl h n k =
          some (heapifyUp D impl
            ⟨h.tree.set s ((getAt h.tree s).1, k), h.positions⟩ s) := by
        simp [decreaseKey, hpos, le_of_lt hlt]
      refine ⟨_, hdec, ?_⟩
      simp [tryDecreaseKeyOrPush, hko, hlt, hdec]
    · intro k0 hk0 hnlt
      rw [hko] at hk0
      injection hk0 with hk0
      subst hk0
      simp [tryDecreaseKeyOrPush, hko, hnlt]

/-- Witness for C7 on a concrete one-element mapped heap: the present,
not-improving case returns `Unchanged` with the state unchanged. -/
theorem C7_try_decrease_key_or_push_witness :
    tryDecreaseKeyOrPush 2 (mapImpl Nat)
      (⟨[((0 : Nat), (0 : Int)), (0, 5)], fun m => if m = 0 then some 1 else none⟩ :
        Heap Nat Int (Nat → Option Nat)) 0 9 =
      some (ResTryDecreaseKeyOrPush.Unchanged,
        ⟨[((0 : Nat), (0 : Int)), (0, 5)], fun m => if m = 0 then some 1 else none⟩) := by
  refine (C7_try_decrease_key_or_push 2 (mapImpl Nat)
    ⟨[((0 : Nat), (0 : Int)), (0, 5)], fun m => if m = 0 then some 1 else none⟩ 0 9).2.2
    5 rfl ?_
  norm_num

/-- C8: an indexed-heap push of an absent element with identifier
`index_bound - 1` succeeds, while a push of an element with identifier at
least `index_bound` hits the fatal out-of-bound tracker write (modelled as
`none`). -/
theorem C8_indexed_push_bound (D : Nat) (b : Nat) (ix : N → Nat)
    (h : Heap N K (List (Option Nat))) (n : N) (k : K)
    (hb : 1 ≤ b) (hlen : h.positions.length = b) :
    (ix n = b - 1 → containsCheckedIdx ix h n = some false →
      (pushCheckedIdx D ix h n k).isSome) ∧
    (b ≤ ix n → pushCheckedIdx D ix h n k = none) := by
  constructor
  · intro hixn _
    have hin : ix n < h.positions.length := by omega
    simp [pushCheckedIdx, insertChecked, hin]
  · intro hge
    have hout : ¬ ix n < h.positions.length := by omega
    simp [pushCheckedIdx, insertChecked, hout]

/-- Witness for C8: bound 1, empty indexed binary heap, element 0. -/
theorem C8_indexed_push_bound_witness :
    (pushCheckedIdx 2 (fun i => i)
      (⟨[((0 : Nat), (0 : Int))], [none]⟩ : Heap Nat Int (List (Option Nat)))
      0 7).isSome ∧
    pushCheckedIdx 2 (fun i => i)
      (⟨[((0 : Nat), (0 : Int))], [none]⟩ : Heap Nat Int (List (Option Nat)))
      1 7 = none := by
  constructor
  · exact (C8_indexed_push_bound 2 1 (fun i => i) ⟨[((0 : Nat), (0 : Int))], [none]⟩
      0 7 (by norm_num) rfl).1 rfl rfl
  · exact (C8_indexed_push_bound 2 1 (fun i => i) ⟨[((0 : Nat), (0 : Int))], [none]⟩
      1 7 (by norm_num) rfl).2 (by norm_num)

/-- C10 (implicit): the indexed-heap reads `contains` and `key_of` with an
identifier at or above the index bound are fatal out-of-bounds accesses
(modelled as `none`) rather than reporting absence; the embedding of these
reads is defined exactly for identifiers strictly below the bound (for
`key_of`, provided the tracked slot is a valid tree index). -/
theorem C10_indexed_reads_oob (b : Nat) (ix : N → Nat)
    (h : Heap N K (List (Option Nat))) (n : N)
    (hlen : h.positions.length = b) :
    (b ≤ ix n → containsCheckedIdx ix h n = none ∧ keyOfCheckedIdx ix h n = none) ∧
    (ix n < b → (containsCheckedIdx ix h n).isSome) ∧
    (ix n < b →
      (∀ s, h.positions.getD (ix n) none = some s → s < h.tree.length) →
      (keyOfCheckedIdx ix h n).isSome) := by
  refine ⟨?_, ?_, ?_⟩
  · intro hge
    have hout : ¬ ix n < h.positions.length := by omega
    constructor
    · simp [containsCheckedIdx, containsChecked, hout]
    · simp [keyOfCheckedIdx, positionOfChecked, hout]
  · intro hltb
    have hin : ix n < h.positions.length := by omega
    simp [containsCheckedIdx, containsChecked, hin]
  · intro hltb hcell
    have hin : ix n < h.positions.length := by omega
    have hq : positionOfChecked h.positions (ix n) =
        some (h.positions.getD (ix n) none) := by
      unfold positionOfChecked
      rw [if_pos hin]
    unfold keyOfCheckedIdx
    rw [hq]
    cases hcell2 : h.positions.getD (ix n) none with
    | none => simp
    | some s =>
      have hs := hcell s hcell2
      simp [hs]

/-- Witness for C10: bound 1, element identifiers 0 (in bound) and 1 (out of
bound). -/
theorem C10_indexed_reads_oob_witness :
    (containsCheckedIdx (fun i => i)
      (⟨[((0 : Nat), (0 : Int)), (0, 5)], [some 1]⟩ : Heap Nat Int (List (Option Nat)))
      1 = none ∧
     keyOfCheckedIdx (fun i => i)
      (⟨[((0 : Nat), (0 : Int)), (0, 5)], [some 1]⟩ : Heap Nat Int (List (Option Nat)))
      1 = none) ∧
    (containsCheckedIdx (fun i => i)
      (⟨[((0 : Nat), (0 : Int)), (0, 5)], [some 1]⟩ : Heap Nat Int (List (Option Nat)))
      0).isSome ∧
    (keyOfCheckedIdx (fun i => i)
      (⟨[((0 : Nat), (0 : Int)), (0, 5)], [some 1]⟩ : Heap Nat Int (List (Option Nat)))
      0).isSome := by
  refine ⟨?_, ?_, ?_⟩
  · exact (C10_indexed_reads_oob 1 (fun i => i)
      ⟨[((0 : Nat), (0 : Int)), (0, 5)], [some 1]⟩ 1 rfl).1 (by norm_num)
  · exact (C10_indexed_reads_oob 1 (fun i => i)
      ⟨[((0 : Nat), (0 : Int)), (0, 5)], [some 1]⟩ 0 rfl).2.1 (by norm_num)
  · refine (C10_indexed_reads_oob 1 (fun i => i)
      ⟨[((0 : Nat), (0 : Int)), (0, 5)], [some 1]⟩ 0 rfl).2.2 (by norm_num) ?_
    intro s hs
    injection hs with hs
    show s < 2
    omega

theorem hUpGo_root_descend {D : Nat} (impl : PosImpl P N) (hD : 1 ≤ D) :
    ∀ (fuel : Nat) (nd : N × K) (t : List (N × K)) (ps : P) (child parent : Nat),
    offset D < child → child < t.length → parent = parent_of D child → parent < fuel →
    (∀ i, offset D ≤ i → i < child → nd.2 < keyAt t i) →
    getAt (hUpGo D impl fuel nd t ps child parent).1 (offset D) = nd := by
  intro fuel
  induction fuel with
  | zero => intro nd t ps child parent _ _ _ hfuel _; omega
  | succ fuel ih =>
    intro nd t ps child parent hc1 hc2 hp hfuel hsmall
    have hpc : parent < child := hp ▸ parent_of_lt hD hc1
    have hpo : offset D ≤ parent := hp ▸ offset_le_parent_of hc1
    have hplen : parent < t.length := lt_trans hpc hc2
    have hswap : nd.2 < (getAt t parent).2 := hsmall parent hpo hpc
    by_cases hbo : parent = offset D
    · rw [hUpGo_succ_break impl fuel nd t ps child parent hswap hbo]
      rw [← hbo]
      exact getAt_set_self _ _ _ (by rw [List.length_set]; exact hplen)
    · rw [hUpGo_succ_rec impl fuel nd t ps child parent hswap hbo]
      have hpoff : offset D < parent := lt_of_le_of_ne hpo (Ne.symm hbo)
      refine ih nd (t.set child (getAt t parent))
        (impl.updatePositionOf ps (getAt t parent).1 child) parent (parent_of D parent)
        hpoff (by rw [List.length_set]; exact hplen) rfl
        (by have := parent_of_lt hD hpoff; omega) ?_
      intro i hi1 hi2
      have hine : child ≠ i := by omega
      rw [keyAt, getAt_set_ne _ _ _ _ hine]
      exact hsmall i hi1 (by omega)

theorem hUpGo_root_keep {D : Nat} (impl : PosImpl P N) (hD : 1 ≤ D) :
    ∀ (fuel : Nat) (nd : N × K) (t : List (N × K)) (ps : P) (child parent : Nat),
    offset D < child → parent = parent_of D child → parent < fuel →
    ¬ nd.2 < keyAt t (offset D) →
    getAt (hUpGo D impl fuel nd t ps child parent).1 (offset D) =
      getAt t (offset D) := by
  intro fuel
  induction fuel with
  | zero => intro nd t ps child parent _ _ hfuel _; omega
  | succ fuel ih =>
    intro nd t ps child parent hc1 hp hfuel hroot
    have hcne : child ≠ offset D := ne_of_gt hc1
    by_cases hswap : nd.2 < (getAt t parent).2
    · by_cases hbo : parent = offset D
      · exact absurd (hbo ▸ hswap) hroot
      · rw [hUpGo_succ_rec impl fuel nd t ps child parent hswap hbo]
        have hpo : offset D ≤ parent := hp ▸ offset_le_parent_of hc1
        have hpoff : offset D < parent := lt_of_le_of_ne hpo (Ne.symm hbo)
        have hkeep : keyAt (t.set child (getAt t parent)) (offset D) =
            keyAt t (offset D) := by
          rw [keyAt, getAt_set_ne _ _ _ _ hcne, keyAt]
        rw [ih nd (t.set child (getAt t parent))
          (impl.updatePositionOf ps (getAt t parent).1 child) parent (parent_of D parent)
          hpoff rfl (by have := parent_of_lt hD hpoff; omega)
          (by rw [hkeep]; exact hroot)]
        rw [getAt_set_ne _ _ _ _ hcne]
    · rw [hUpGo_succ_stop impl fuel nd t ps child parent hswap]
      exact getAt_set_ne _ _ _ _ hcne

theorem push_root_small {D : Nat} (impl : PosImpl P N) (hD : 1 ≤ D) (h : Heap N K P)
    (n : N) (k : K) (hinv : Inv0 D h.tree)
    (hne : offset D < h.tree.length)
    (hk : k < keyAt h.tree (offset D)) :
    getAt (push D impl h n k).tree (offset D) = (n, k) := by
  obtain ⟨hlen, hord⟩ := hinv
  have hpush : push D impl h n k =
      heapifyUp D impl ⟨h.tree ++ [(n, k)], impl.insert h.positions n h.tree.length⟩
        h.tree.length := rfl
  rw [hpush]
  simp only [heapifyUp]
  have hso : ¬ h.tree.length = offset D := by omega
  rw [if_neg hso]
  have hple : parent_of D h.tree.length < h.tree.length := parent_of_lt hD hne
  have hpo : offset D ≤ parent_of D h.tree.length := offset_le_parent_of hne
  have hself : getAt (h.tree ++ [(n, k)]) h.tree.length = (n, k) := getAt_append_self _ _
  have hpar : getAt (h.tree ++ [(n, k)]) (parent_of D h.tree.length) =
      getAt h.tree (parent_of D h.tree.length) := getAt_append_lt _ _ _ hple
  have hroot_le : keyAt h.tree (offset D) ≤ keyAt h.tree (parent_of D h.tree.length) :=
    root_min hD h.tree hord _ hpo hple
  have hnle : ¬ (getAt (h.tree ++ [(n, k)]) (parent_of D h.tree.length)).2 ≤
      (getAt (h.tree ++ [(n, k)]) h.tree.length).2 := by
    rw [hself, hpar]
    intro hcon
    exact absurd (lt_of_lt_of_le hk hroot_le) (not_lt_of_le hcon)
  rw [if_neg hnle]
  rw [hself]
  refine hUpGo_root_descend impl hD h.tree.length (n, k) (h.tree ++ [(n, k)]) _
    h.tree.length (parent_of D h.tree.length) hne (by simp) rfl
    (by omega) ?_
  intro i hi1 hi2
  rw [keyAt, getAt_append_lt _ _ _ hi2]
  exact lt_of_lt_of_le hk (root_min hD h.tree hord i hi1 hi2)

theorem push_root_keep {D : Nat} (impl : PosImpl P N) (hD : 1 ≤ D) (h : Heap N K P)
    (n : N) (k : K) (hne : offset D < h.tree.length)
    (hk : ¬ k < keyAt h.tree (offset D)) :
    getAt (push D impl h n k).tree (offset D) = getAt h.tree (offset D) := by
  have hpush : push D impl h n k =
      heapifyUp D impl ⟨h.tree ++ [(n, k)], impl.insert h.positions n h.tree.length⟩
        h.tree.length := rfl
  rw [hpush]
  simp only [heapifyUp]
  have hso : ¬ h.tree.length = offset D := by omega
  have hple : parent_of D h.tree.length < h.tree.length := parent_of_lt hD hne
  rw [if_neg hso]
  have hroot : getAt (h.tree ++ [(n, k)]) (offset D) = getAt h.tree (offset D) :=
    getAt_append_lt _ _ _ hne
  have hself : getAt (h.tree ++ [(n, k)]) h.tree.length = (n, k) := getAt_append_self _ _
  by_cases hle : (getAt (h.tree ++ [(n, k)]) (parent_of D h.tree.length)).2 ≤
      (getAt (h.tree ++ [(n, k)]) h.tree.length).2
  · rw [if_pos hle]
    exact hroot
  · rw [if_neg hle]
    rw [hself]
    rw [hUpGo_root_keep impl hD h.tree.length (n, k) (h.tree ++ [(n, k)]) _
      h.tree.length (parent_of D h.tree.length) hne rfl (by omega)
      (by rw [keyAt, hroot]; exact hk)]
    exact hroot

/-- Counterexample to C4 as stated: on the plain binary heap holding the
single pair (0, 5), `push_then_pop(1, 5)` (candidate key equal to the root
key) returns the candidate (1, 5), while `push(1, 5)` followed by `pop()` on
a clone returns the old root (0, 5) — the keys agree but the elements
differ. -/
theorem C4_push_then_pop_counterexample :
    (pushThenPop 2 (noneImpl Nat)
      (push 2 (noneImpl Nat) (newHeap 2 ((0 : Nat), (0 : Int)) ()) 0 5) 1 5).1 = (1, 5) ∧
    (popOp 2 (noneImpl Nat)
      (push 2 (noneImpl Nat)
        (push 2 (noneImpl Nat) (newHeap 2 ((0 : Nat), (0 : Int)) ()) 0 5) 1 5)).1 =
      some (0, 5) ∧
    ((1, 5) : Nat × Int) ≠ (0, 5) := by
  refine ⟨by decide, by decide, by decide⟩

/-- C4 corrected: on a heap in heap order, `push_then_pop(e, k)` returns the
same key as `push(e, k)` followed by `pop()` on a clone, and the same
element-key pair whenever the heap is empty or the candidate key differs
from the root key; in the remaining tie case (`k` equal to the root key)
`push_then_pop` returns the candidate pair while push-then-pop returns the
old root. -/
theorem C4_push_then_pop_amended (D : Nat) (impl : PosImpl P N) (h : Heap N K P)
    (n : N) (k : K) (hD : 1 ≤ D)
    (hlen : offset D ≤ h.tree.length) (hord : HeapOrdered D h.tree) :
    ∃ p2 : N × K,
      (popOp D impl (push D impl h n k)).1 = some p2 ∧
      (pushThenPop D impl h n k).1.2 = p2.2 ∧
      ((h.tree.length = offset D ∨ ¬ k = (getAt h.tree (offset D)).2) →
        (pushThenPop D impl h n k).1 = p2) := by
  have hptree := push_tree impl hD h n k ⟨hlen, hord⟩
  have hpne : ¬ (push D impl h n k).tree.length = offset D := by
    rw [hptree.1]; omega
  have hpop := pop_tree impl hD (push D impl h n k) hptree.2.1 hpne
  have hmain : (pushThenPop D impl h n k).1.2 =
      (getAt (push D impl h n k).tree (offset D)).2 ∧
      ((h.tree.length = offset D ∨ ¬ k = (getAt h.tree (offset D)).2) →
        (pushThenPop D impl h n k).1 = getAt (push D impl h n k).tree (offset D)) := by
    by_cases hempty : h.tree.length = offset D
    · have hfast : (pushThenPop D impl h n k).1 = (n, k) := by
        simp only [pushThenPop]
        rw [if_pos (Or.inl hempty)]
      have hpush : push D impl h n k =
          heapifyUp D impl ⟨h.tree ++ [(n, k)], impl.insert h.positions n h.tree.length⟩
            h.tree.length := rfl
      have hpr : (push D impl h n k).tree = h.tree ++ [(n, k)] := by
        rw [hpush]
        simp only [heapifyUp]
        rw [if_pos hempty]
      have hroot : getAt (push D impl h n k).tree (offset D) = (n, k) := by
        rw [hpr, ← hempty, getAt_append_self]
      rw [hfast, hroot]
      exact ⟨rfl, fun _ => rfl⟩
    · have hne : offset D < h.tree.length := lt_of_le_of_ne hlen (fun hh => hempty hh.symm)
      by_cases hklt : k < (getAt h.tree (offset D)).2
      · have hfast : (pushThenPop D impl h n k).1 = (n, k) := by
          simp only [pushThenPop]
          rw [if_pos (Or.inr (le_of_lt hklt))]
        have hroot := push_root_small impl hD h n k ⟨hlen, hord⟩ hne hklt
        rw [hfast, hroot]
        exact ⟨rfl, fun _ => rfl⟩
      · have hroot := push_root_keep impl hD h n k hne hklt
        by_cases htie : k = (getAt h.tree (offset D)).2
        · have hfast : (pushThenPop D impl h n k).1 = (n, k) := by
            simp only [pushThenPop]
            rw [if_pos (Or.inr (le_of_eq htie))]
          rw [hfast, hroot]
          refine ⟨htie, ?_⟩
          intro hcond
          rcases hcond with hcond | hcond
          · exact absurd hcond hempty
          · exact absurd htie hcond
        · have hcond : ¬ (h.tree.length = offset D ∨ k ≤ (getAt h.tree (offset D)).2) := by
            intro hcond
            rcases hcond with hcond | hcond
            · exact hempty hcond
            · rcases lt_or_eq_of_le hcond with hlt | heq
              · exact hklt hlt
              · exact htie heq
          have hslow : (pushThenPop D impl h n k).1 = getAt h.tree (offset D) := by
            simp only [pushThenPop]
            rw [if_neg hcond]
          rw [hslow, hroot]
          exact ⟨rfl, fun _ => rfl⟩
  exact ⟨getAt (push D impl h n k).tree (offset D), hpop.1, hmain.1, hmain.2⟩

/-- Witness for the corrected C4 on a concrete one-element plain binary
heap with a strictly larger candidate key. -/
theorem C4_push_then_pop_amended_witness :
    ∃ p2 : Nat × Int,
      (popOp 2 (noneImpl Nat) (push 2 (noneImpl Nat)
        (push 2 (noneImpl Nat) (newHeap 2 ((0 : Nat), (0 : Int)) ()) 0 5) 1 9)).1 =
        some p2 ∧
      (pushThenPop 2 (noneImpl Nat)
        (push 2 (noneImpl Nat) (newHeap 2 ((0 : Nat), (0 : Int)) ()) 0 5) 1 9).1.2 =
        p2.2 ∧
      (((push 2 (noneImpl Nat) (newHeap 2 ((0 : Nat), (0 : Int)) ()) 0 5).tree.length =
          offset 2 ∨
        ¬ (9 : Int) = (getAt (push 2 (noneImpl Nat)
          (newHeap 2 ((0 : Nat), (0 : Int)) ()) 0 5).tree (offset 2)).2) →
        (pushThenPop 2 (noneImpl Nat)
          (push 2 (noneImpl Nat) (newHeap 2 ((0 : Nat), (0 : Int)) ()) 0 5) 1 9).1 = p2) :=
  C4_push_then_pop_amended 2 (noneImpl Nat)
    (push 2 (noneImpl Nat) (newHeap 2 ((0 : Nat), (0 : Int)) ()) 0 5) 1 9
    (by decide) (by decide)
    (by
      intro c h1 h2
      rw [show (push 2 (noneImpl Nat)
        (newHeap 2 ((0 : Nat), (0 : Int)) ()) 0 5).tree.length = 2 from rfl] at h1
      rw [show offset 2 = 1 from rfl] at h2
      omega)

theorem okAll_of_liveSub {D : Nat} {ok : N → Prop} {t1 t2 : List (N × K)}
    (hsub : LiveSub (offset D) t1 t2) (hok : OkAll D ok t2) : OkAll D ok t1 := by
  intro i hi1 hi2
  obtain ⟨j, hj1, hj2, hje⟩ := hsub i hi1 hi2
  have := hok j hj1 hj2
  rw [nodeAt, ← hje]
  exact this

theorem writeback_agrees {D : Nat} {impl : PosImpl P N} {ok : N → Prop} {good : P → Prop}
    (laws : PosLaws impl ok good) (ps : P) (V : List (N × K)) (nd : N × K) (hole : Nat)
    (hgood : good ps) (hok : ok nd.1)
    (hAg : AgreeX D impl ps V nd.1)
    (hUq : UniqueAt D V nd.1 hole)
    (hhole1 : offset D ≤ hole) (hhole2 : hole < V.length)
    (hnode : nodeAt V hole = nd.1) :
    Agrees D impl (impl.updatePositionOf ps nd.1 hole) V ∧
      good (impl.updatePositionOf ps nd.1 hole) := by
  refine ⟨?_, laws.good_update _ _ _ hgood⟩
  intro m i
  rw [laws.posOf_update ps nd.1 hole hgood hok m]
  by_cases hm : m = nd.1
  · subst hm
    rw [if_pos rfl]
    constructor
    · intro hi
      injection hi with hi
      subst hi
      exact ⟨hhole1, hhole2, hnode⟩
    · rintro ⟨hi1, hi2, hi3⟩
      rw [hUq i hi1 hi2 hi3]
  · rw [if_neg hm]
    exact hAg m i hm

theorem up_swap_pos {D : Nat} {impl : PosImpl P N} {ok : N → Prop} {good : P → Prop}
    (laws : PosLaws impl ok good) (t : List (N × K)) (nd : N × K) (ps : P)
    (child parent : Nat)
    (hc1 : offset D < child) (hc2 : child < t.length)
    (hpo : offset D ≤ parent) (hpc : parent < child)
    (hgood : good ps)
    (hOk : OkAll D ok (t.set child nd))
    (hAg : AgreeX D impl ps (t.set child nd) nd.1)
    (hUq : UniqueAt D (t.set child nd) nd.1 child) :
    AgreeX D impl (impl.updatePositionOf ps (getAt t parent).1 child)
      ((t.set child (getAt t parent)).set parent nd) nd.1 ∧
    UniqueAt D ((t.set child (getAt t parent)).set parent nd) nd.1 parent ∧
    OkAll D ok ((t.set child (getAt t parent)).set parent nd) ∧
    good (impl.updatePositionOf ps (getAt t parent).1 child) := by
  have hplen : parent < t.length := lt_trans hpc hc2
  have hne : child ≠ parent := ne_of_gt hpc
  have hVlen : (t.set child nd).length = t.length := List.length_set _ _ _
  have hV2len : ((t.set child (getAt t parent)).set parent nd).length = t.length := by
    rw [List.length_set, List.length_set]
  have hvnode : nodeAt (t.set child nd) parent = (getAt t parent).1 := by
    rw [nodeAt, getAt_set_ne _ _ _ _ hne]
  have hvchild : nodeAt (t.set child nd) child = nd.1 := by
    rw [nodeAt, getAt_set_self _ _ _ hc2]
  have hok_vp : ok (getAt t parent).1 := by
    have := hOk parent hpo (by rw [hVlen]; exact hplen)
    rw [hvnode] at this
    exact this
  have hvp_ne : (getAt t parent).1 ≠ nd.1 := by
    intro hh
    have := hUq parent hpo (by rw [hVlen]; exact hplen) (by rw [hvnode]; exact hh)
    exact absurd this (Ne.symm hne)
  have hok_nd : ok nd.1 := by
    have := hOk child (le_of_lt hc1) (by rw [hVlen]; exact hc2)
    rw [hvchild] at this
    exact this
  -- node values of the swapped virtual tree
  have h2child : nodeAt ((t.set child (getAt t parent)).set parent nd) child =
      (getAt t parent).1 := by
    rw [nodeAt, getAt_set_ne _ _ _ _ (Ne.symm hne), getAt_set_self _ _ _ hc2]
  have h2parent : nodeAt ((t.set child (getAt t parent)).set parent nd) parent = nd.1 := by
    rw [nodeAt, getAt_set_self _ _ _ (by rw [List.length_set]; exact hplen)]
  have h2other : ∀ x, x ≠ child → x ≠ parent →
      nodeAt ((t.set child (getAt t parent)).set parent nd) x = nodeAt (t.set child nd) x := by
    intro x hx1 hx2
    rw [nodeAt, getAt_set_ne _ _ _ _ (fun hh => hx2 hh.symm),
      getAt_set_ne _ _ _ _ (fun hh => hx1 hh.symm), nodeAt,
      getAt_set_ne _ _ _ _ (fun hh => hx1 hh.symm)]
  refine ⟨?_, ?_, ?_, laws.good_update _ _ _ hgood⟩
  · intro m i hm
    rw [laws.posOf_update ps (getAt t parent).1 child hgood hok_vp m]
    by_cases hmv : m = (getAt t parent).1
    · subst hmv
      rw [if_pos rfl]
      constructor
      · intro hi
        injection hi with hi
        subst hi
        exact ⟨le_of_lt hc1, by rw [hV2len]; exact hc2, h2child⟩
      · rintro ⟨hi1, hi2, hi3⟩
        rw [hV2len] at hi2
        by_cases hip : i = parent
        · rw [hip, h2parent] at hi3
          exact absurd hi3.symm hvp_ne
        · by_cases hic : i = child
          · rw [hic]
          · rw [h2other i hic hip] at hi3
            have hps1 := (hAg (getAt t parent).1 i hvp_ne).mpr
              ⟨hi1, by rw [hVlen]; exact hi2, hi3⟩
            have hps2 := (hAg (getAt t parent).1 parent hvp_ne).mpr
              ⟨hpo, by rw [hVlen]; exact hplen, hvnode⟩
            rw [hps1] at hps2
            injection hps2 with hps2
            exact absurd hps2 hip
    · rw [if_neg hmv]
      constructor
      · intro hi
        obtain ⟨hi1, hi2, hi3⟩ := (hAg m i hm).mp hi
        rw [hVlen] at hi2
        by_cases hic : i = child
        · rw [hic, hvchild] at hi3
          exact absurd hi3.symm hm
        · by_cases hip : i = parent
          · rw [hip, hvnode] at hi3
            exact absurd hi3.symm hmv
          · refine ⟨hi1, by rw [hV2len]; exact hi2, ?_⟩
            rw [h2other i hic hip]
            exact hi3
      · rintro ⟨hi1, hi2, hi3⟩
        rw [hV2len] at hi2
        by_cases hic : i = child
        · rw [hic, h2child] at hi3
          exact absurd hi3.symm hmv
        · by_cases hip : i = parent
          · rw [hip, h2parent] at hi3
            exact absurd hi3.symm hm
          · rw [h2other i hic hip] at hi3
            exact (hAg m i hm).mpr ⟨hi1, by rw [hVlen]; exact hi2, hi3⟩
  · intro j hj1 hj2 hj3
    rw [hV2len] at hj2
    by_cases hjc : j = child
    · rw [hjc, h2child] at hj3
      exact absurd hj3 hvp_ne
    · by_cases hjp : j = parent
      · exact hjp
      · rw [h2other j hjc hjp] at hj3
        exact absurd (hUq j hj1 (by rw [hVlen]; exact hj2) hj3) hjc
  · intro i hi1 hi2
    rw [hV2len] at hi2
    by_cases hic : i = child
    · rw [hic, h2child]
      exact hok_vp
    · by_cases hip : i = parent
      · rw [hip, h2parent]
        exact hok_nd
      · rw [h2other i hic hip]
        exact hOk i hi1 (by rw [hVlen]; exact hi2)

theorem hUpGo_pos {D : Nat} {impl : PosImpl P N} {ok : N → Prop} {good : P → Prop}
    (laws : PosLaws impl ok good) (hD : 1 ≤ D) :
    ∀ (fuel : Nat) (nd : N × K) (t : List (N × K)) (ps : P) (child parent : Nat),
    offset D < child → child < t.length → offset D ≤ parent → parent < child →
    parent < fuel →
    good ps → OkAll D ok (t.set child nd) →
    AgreeX D impl ps (t.set child nd) nd.1 →
    UniqueAt D (t.set child nd) nd.1 child →
    Agrees D impl (hUpGo D impl fuel nd t ps child parent).2
        (hUpGo D impl fuel nd t ps child parent).1 ∧
      OkAll D ok (hUpGo D impl fuel nd t ps child parent).1 ∧
      good (hUpGo D impl fuel nd t ps child parent).2 := by
  intro fuel
  induction fuel with
  | zero =>
    intro nd t ps child parent h1 h2 h3 h4 h5 hgood hOk hAg hUq
    exact absurd h5 (Nat.not_lt_zero _)
  | succ fuel ih =>
    intro nd t ps child parent h1 h2 h3 h4 h5 hgood hOk hAg hUq
    have hok_nd : ok nd.1 := by
      have := hOk child (le_of_lt h1) (by rw [List.length_set]; exact h2)
      rw [nodeAt, getAt_set_self _ _ _ h2] at this
      exact this
    by_cases hswap : nd.2 < (getAt t parent).2
    · by_cases hbo : parent = offset D
      · rw [hUpGo_succ_break impl fuel nd t ps child parent hswap hbo]
        obtain ⟨hA, hU, hO, hg⟩ :=
          up_swap_pos laws t nd ps child parent h1 h2 h3 h4 hgood hOk hAg hUq
        have hplen : parent < (t.set child (getAt t parent)).length := by
          rw [List.length_set]; exact lt_trans h4 h2
        have hnode : nodeAt ((t.set child (getAt t parent)).set parent nd) parent = nd.1 := by
          rw [nodeAt, getAt_set_self _ _ _ hplen]
        have hwb := writeback_agrees laws _ _ nd parent hg hok_nd hA hU h3
          (by rw [List.length_set]; exact hplen) hnode
        exact ⟨hwb.1, hO, hwb.2⟩
      · rw [hUpGo_succ_rec impl fuel nd t ps child parent hswap hbo]
        obtain ⟨hA, hU, hO, hg⟩ :=
          up_swap_pos laws t nd ps child parent h1 h2 h3 h4 hgood hOk hAg hUq
        have hop : offset D < parent := lt_of_le_of_ne h3 (Ne.symm hbo)
        exact ih nd (t.set child (getAt t parent)) _ parent (parent_of D parent)
          hop (by rw [List.length_set]; exact lt_trans h4 h2)
          (offset_le_parent_of hop) (parent_of_lt hD hop)
          (lt_of_lt_of_le (parent_of_lt hD hop) (Nat.lt_succ_iff.mp h5))
          hg hO hA hU
    · rw [hUpGo_succ_stop impl fuel nd t ps child parent hswap]
      have hwb := writeback_agrees laws ps _ nd child hgood hok_nd hAg hUq (le_of_lt h1)
        (by rw [List.length_set]; exact h2)
        (by rw [nodeAt, getAt_set_self _ _ _ h2])
      exact ⟨hwb.1, hOk, hwb.2⟩

theorem heapifyUp_pos {D : Nat} {impl : PosImpl P N} {ok : N → Prop} {good : P → Prop}
    (laws : PosLaws impl ok good) (hD : 1 ≤ D) (h : Heap N K P) (s : Nat)
    (hs1 : offset D ≤ s) (hs2 : s < h.tree.length)
    (hAg : Agrees D impl h.positions h.tree)
    (hOk : OkAll D ok h.tree) (hgood : good h.positions) :
    Agrees D impl (heapifyUp D impl h s).positions (heapifyUp D impl h s).tree ∧
      OkAll D ok (heapifyUp D impl h s).tree ∧
      good (heapifyUp D impl h s).positions := by
  unfold heapifyUp
  by_cases hse : s = offset D
  · rw [if_pos hse]
    exact ⟨hAg, hOk, hgood⟩
  · rw [if_neg hse]
    by_cases hstop : (getAt h.tree (parent_of D s)).2 ≤ (getAt h.tree s).2
    · rw [if_pos hstop]
      exact ⟨hAg, hOk, hgood⟩
    · rw [if_neg hstop]
      have hslt : offset D < s := lt_of_le_of_ne hs1 (Ne.symm hse)
      have hset : h.tree.set s (getAt h.tree s) = h.tree := set_getAt_self h.tree s
      have hAgX : AgreeX D impl h.positions (h.tree.set s (getAt h.tree s)) (getAt h.tree s).1 := by
        rw [hset]
        intro m i _
        exact hAg m i
      have hUq : UniqueAt D (h.tree.set s (getAt h.tree s)) (getAt h.tree s).1 s := by
        rw [hset]
        intro j hj1 hj2 hj3
        have hpj := (hAg (getAt h.tree s).1 j).mpr ⟨hj1, hj2, hj3⟩
        have hps := (hAg (getAt h.tree s).1 s).mpr ⟨hs1, hs2, rfl⟩
        rw [hpj] at hps
        injection hps
      have hOk2 : OkAll D ok (h.tree.set s (getAt h.tree s)) := by
        rw [hset]; exact hOk
      exact hUpGo_pos laws hD s (getAt h.tree s) h.tree h.positions s
        (parent_of D s) hslt hs2 (offset_le_parent_of hslt) (parent_of_lt hD hslt)
        (parent_of_lt hD hslt) hgood hOk2 hAgX hUq

theorem down_swap_pos {D : Nat} {impl : PosImpl P N} {ok : N → Prop} {good : P → Prop}
    (laws : PosLaws impl ok good) (t : List (N × K)) (nd : N × K) (ps : P)
    (parent bc : Nat)
    (hp1 : offset D ≤ parent) (hp2 : parent < t.length)
    (hb1 : offset D ≤ bc) (hb2 : bc < t.length) (hne0 : parent ≠ bc)
    (hgood : good ps)
    (hOk : OkAll D ok (t.set parent nd))
    (hAg : AgreeX D impl ps (t.set parent nd) nd.1)
    (hUq : UniqueAt D (t.set parent nd) nd.1 parent) :
    AgreeX D impl (impl.updatePositionOf ps (getAt t bc).1 parent)
      ((t.set parent (getAt t bc)).set bc nd) nd.1 ∧
    UniqueAt D ((t.set parent (getAt t bc)).set bc nd) nd.1 bc ∧
    OkAll D ok ((t.set parent (getAt t bc)).set bc nd) ∧
    good (impl.updatePositionOf ps (getAt t bc).1 parent) := by
  have hplen : bc < t.length := hb2
  have hne : parent ≠ bc := hne0
  have hVlen : (t.set parent nd).length = t.length := List.length_set _ _ _
  have hV2len : ((t.set parent (getAt t bc)).set bc nd).length = t.length := by
    rw [List.length_set, List.length_set]
  have hvnode : nodeAt (t.set parent nd) bc = (getAt t bc).1 := by
    rw [nodeAt, getAt_set_ne _ _ _ _ hne]
  have hvchild : nodeAt (t.set parent nd) parent = nd.1 := by
    rw [nodeAt, getAt_set_self _ _ _ hp2]
  have hok_vp : ok (getAt t bc).1 := by
    have := hOk bc hb1 (by rw [hVlen]; exact hplen)
    rw [hvnode] at this
    exact this
  have hvp_ne : (getAt t bc).1 ≠ nd.1 := by
    intro hh
    have := hUq bc hb1 (by rw [hVlen]; exact hplen) (by rw [hvnode]; exact hh)
    exact absurd this (Ne.symm hne)
  have hok_nd : ok nd.1 := by
    have := hOk parent (hp1) (by rw [hVlen]; exact hp2)
    rw [hvchild] at this
    exact this
  -- node values of the swapped virtual tree
  have h2child : nodeAt ((t.set parent (getAt t bc)).set bc nd) parent =
      (getAt t bc).1 := by
    rw [nodeAt, getAt_set_ne _ _ _ _ (Ne.symm hne), getAt_set_self _ _ _ hp2]
  have h2parent : nodeAt ((t.set parent (getAt t bc)).set bc nd) bc = nd.1 := by
    rw [nodeAt, getAt_set_self _ _ _ (by rw [List.length_set]; exact hplen)]
  have h2other : ∀ x, x ≠ parent → x ≠ bc →
      nodeAt ((t.set parent (getAt t bc)).set bc nd) x = nodeAt (t.set parent nd) x := by
    intro x hx1 hx2
    rw [nodeAt, getAt_set_ne _ _ _ _ (fun hh => hx2 hh.symm),
      getAt_set_ne _ _ _ _ (fun hh => hx1 hh.symm), nodeAt,
      getAt_set_ne _ _ _ _ (fun hh => hx1 hh.symm)]
  refine ⟨?_, ?_, ?_, laws.good_update _ _ _ hgood⟩
  · intro m i hm
    rw [laws.posOf_update ps (getAt t bc).1 parent hgood hok_vp m]
    by_cases hmv : m = (getAt t bc).1
    · subst hmv
      rw [if_pos rfl]
      constructor
      · intro hi
        injection hi with hi
        subst hi
        exact ⟨hp1, by rw [hV2len]; exact hp2, h2child⟩
      · rintro ⟨hi1, hi2, hi3⟩
        rw [hV2len] at hi2
        by_cases hip : i = bc
        · rw [hip, h2parent] at hi3
          exact absurd hi3.symm hvp_ne
        · by_cases hic : i = parent
          · rw [hic]
          · rw [h2other i hic hip] at hi3
            have hps1 := (hAg (getAt t bc).1 i hvp_ne).mpr
              ⟨hi1, by rw [hVlen]; exact hi2, hi3⟩
            have hps2 := (hAg (getAt t bc).1 bc hvp_ne).mpr
              ⟨hb1, by rw [hVlen]; exact hplen, hvnode⟩
            rw [hps1] at hps2
            injection hps2 with hps2
            exact absurd hps2 hip
    · rw [if_neg hmv]
      constructor
      · intro hi
        obtain ⟨hi1, hi2, hi3⟩ := (hAg m i hm).mp hi
        rw [hVlen] at hi2
        by_cases hic : i = parent
        · rw [hic, hvchild] at hi3
          exact absurd hi3.symm hm
        · by_cases hip : i = bc
          · rw [hip, hvnode] at hi3
            exact absurd hi3.symm hmv
          · refine ⟨hi1, by rw [hV2len]; exact hi2, ?_⟩
            rw [h2other i hic hip]
            exact hi3
      · rintro ⟨hi1, hi2, hi3⟩
        rw [hV2len] at hi2
        by_cases hic : i = parent
        · rw [hic, h2child] at hi3
          exact absurd hi3.symm hmv
        · by_cases hip : i = bc
          · rw [hip, h2parent] at hi3
            exact absurd hi3.symm hm
          · rw [h2other i hic hip] at hi3
            exact (hAg m i hm).mpr ⟨hi1, by rw [hVlen]; exact hi2, hi3⟩
  · intro j hj1 hj2 hj3
    rw [hV2len] at hj2
    by_cases hjc : j = parent
    · rw [hjc, h2child] at hj3
      exact absurd hj3 hvp_ne
    · by_cases hjp : j = bc
      · exact hjp
      · rw [h2other j hjc hjp] at hj3
        exact absurd (hUq j hj1 (by rw [hVlen]; exact hj2) hj3) hjc
  · intro i hi1 hi2
    rw [hV2len] at hi2
    by_cases hic : i = parent
    · rw [hic, h2child]
      exact hok_vp
    · by_cases hip : i = bc
      · rw [hip, h2parent]
        exact hok_nd
      · rw [h2other i hic hip]
        exact hOk i hi1 (by rw [hVlen]; exact hi2)

theorem hDownGo_pos {D : Nat} {impl : PosImpl P N} {ok : N → Prop} {good : P → Prop}
    (laws : PosLaws impl ok good) (hD : 1 ≤ D) (treeLen : Nat) :
    ∀ (fuel : Nat) (nd : N × K) (t : List (N × K)) (ps : P) (parent bc : Nat) (bk : K),
    t.length = treeLen → offset D ≤ parent → parent < treeLen →
    offset D < bc → bc < treeLen → parent < bc →
    treeLen - parent ≤ fuel →
    good ps → OkAll D ok (t.set parent nd) →
    AgreeX D impl ps (t.set parent nd) nd.1 →
    UniqueAt D (t.set parent nd) nd.1 parent →
    Agrees D impl (hDownGo D impl treeLen fuel nd t ps parent bc bk).2
        (hDownGo D impl treeLen fuel nd t ps parent bc bk).1 ∧
      OkAll D ok (hDownGo D impl treeLen fuel nd t ps parent bc bk).1 ∧
      good (hDownGo D impl treeLen fuel nd t ps parent bc bk).2 := by
  intro fuel
  induction fuel with
  | zero =>
    intro nd t ps parent bc bk htl hp1 hp2 hb1 hb2 hpb hfuel hgood hOk hAg hUq
    omega
  | succ fuel ih =>
    intro nd t ps parent bc bk htl hp1 hp2 hb1 hb2 hpb hfuel hgood hOk hAg hUq
    have hp2t : parent < t.length := by rw [htl]; exact hp2
    have hb2t : bc < t.length := by rw [htl]; exact hb2
    have hok_nd : ok nd.1 := by
      have := hOk parent hp1 (by rw [List.length_set]; exact hp2t)
      rw [nodeAt, getAt_set_self _ _ _ hp2t] at this
      exact this
    by_cases hswap : bk < nd.2
    · by_cases hbrk : treeLen ≤ left_child_of D bc
      · rw [hDownGo_succ_break impl treeLen fuel nd t ps parent bc bk hswap hbrk]
        obtain ⟨hA, hU, hO, hg⟩ := down_swap_pos laws t nd ps parent bc hp1 hp2t
          (le_of_lt hb1) hb2t (Nat.ne_of_lt hpb) hgood hOk hAg hUq
        have hbclen : bc < (t.set parent (getAt t bc)).length := by
          rw [List.length_set]; exact hb2t
        have hwb := writeback_agrees laws _ _ nd bc hg hok_nd hA hU (le_of_lt hb1)
          (by rw [List.length_set]; exact hbclen)
          (by rw [nodeAt, getAt_set_self _ _ _ hbclen])
        exact ⟨hwb.1, hO, hwb.2⟩
      · rw [hDownGo_succ_rec impl treeLen fuel nd t ps parent bc bk hswap hbrk]
        obtain ⟨hA, hU, hO, hg⟩ := down_swap_pos laws t nd ps parent bc hp1 hp2t
          (le_of_lt hb1) hb2t (Nat.ne_of_lt hpb) hgood hOk hAg hUq
        have hfc : left_child_of D bc < treeLen := Nat.lt_of_not_le hbrk
        have hspec := bestChild_spec hD (t.set parent (getAt t bc)) treeLen
          (left_child_of D bc) hfc
        have hofc : offset D < left_child_of D bc :=
          offset_lt_left_child_of hD (le_of_lt hb1)
        have hbfc : bc < left_child_of D bc := lt_left_child_of hD (le_of_lt hb1)
        exact ih nd (t.set parent (getAt t bc)) _ bc
          (bestChild D (t.set parent (getAt t bc)) treeLen (left_child_of D bc)).1
          (bestChild D (t.set parent (getAt t bc)) treeLen (left_child_of D bc)).2
          (by rw [List.length_set]; exact htl) (le_of_lt hb1) hb2
          (lt_of_lt_of_le hofc hspec.1) hspec.2.2.1
          (lt_of_lt_of_le hbfc hspec.1) (by omega) hg hO hA hU
    · rw [hDownGo_succ_stop impl treeLen fuel nd t ps parent bc bk hswap]
      have hwb := writeback_agrees laws ps _ nd parent hgood hok_nd hAg hUq hp1
        (by rw [List.length_set]; exact hp2t)
        (by rw [nodeAt, getAt_set_self _ _ _ hp2t])
      exact ⟨hwb.1, hOk, hwb.2⟩

theorem heapifyDown_pos {D : Nat} {impl : PosImpl P N} {ok : N → Prop} {good : P → Prop}
    (laws : PosLaws impl ok good) (hD : 1 ≤ D) (h : Heap N K P) (s : Nat)
    (hs1 : offset D ≤ s) (hs2 : s < h.tree.length)
    (hAg : Agrees D impl h.positions h.tree)
    (hOk : OkAll D ok h.tree) (hgood : good h.positions) :
    Agrees D impl (heapifyDown D impl h s).positions (heapifyDown D impl h s).tree ∧
      OkAll D ok (heapifyDown D impl h s).tree ∧
      good (heapifyDown D impl h s).positions := by
  unfold heapifyDown
  by_cases hfc : h.tree.length ≤ left_child_of D s
  · rw [if_pos hfc]
    exact ⟨hAg, hOk, hgood⟩
  · rw [if_neg hfc]
    have hfclt : left_child_of D s < h.tree.length := Nat.lt_of_not_le hfc
    by_cases hstop : (getAt h.tree s).2 ≤
        (bestChild D h.tree h.tree.length (left_child_of D s)).2
    · rw [if_pos hstop]
      exact ⟨hAg, hOk, hgood⟩
    · rw [if_neg hstop]
      have hspec := bestChild_spec hD h.tree h.tree.length (left_child_of D s) hfclt
      have hofc : offset D < left_child_of D s := offset_lt_left_child_of hD hs1
      have hsfc : s < left_child_of D s := lt_left_child_of hD hs1
      have hset : h.tree.set s (getAt h.tree s) = h.tree := set_getAt_self h.tree s
      have hAgX : AgreeX D impl h.positions (h.tree.set s (getAt h.tree s))
          (getAt h.tree s).1 := by
        rw [hset]
        intro m i _
        exact hAg m i
      have hUq : UniqueAt D (h.tree.set s (getAt h.tree s)) (getAt h.tree s).1 s := by
        rw [hset]
        intro j hj1 hj2 hj3
        have hpj := (hAg (getAt h.tree s).1 j).mpr ⟨hj1, hj2, hj3⟩
        have hps := (hAg (getAt h.tree s).1 s).mpr ⟨hs1, hs2, rfl⟩
        rw [hpj] at hps
        injection hps
      have hOk2 : OkAll D ok (h.tree.set s (getAt h.tree s)) := by
        rw [hset]; exact hOk
      exact hDownGo_pos laws hD h.tree.length h.tree.length (getAt h.tree s) h.tree
        h.positions s (bestChild D h.tree h.tree.length (left_child_of D s)).1
        (bestChild D h.tree h.tree.length (left_child_of D s)).2
        rfl hs1 hs2 (lt_of_lt_of_le hofc hspec.1) hspec.2.2.1
        (lt_of_lt_of_le hsfc hspec.1) (by omega) hgood hOk2 hAgX hUq

theorem pos_none_of_contains_false {impl : PosImpl P N} {ok : N → Prop} {good : P → Prop}
    (laws : PosLaws impl ok good) {p : P} {n : N}
    (h : impl.contains p n = false) : impl.positionOf p n = none := by
  have hce := laws.contains_eq p n
  rw [h] at hce
  cases hc : impl.positionOf p n with
  | none => rfl
  | some v => rw [hc] at hce; simp at hce

theorem pushFull {D : Nat} {impl : PosImpl P N} {ok : N → Prop} {good : P → Prop}
    (laws : PosLaws impl ok good) (hD : 1 ≤ D) (h : Heap N K P) (n : N) (k : K)
    (hfull : InvFull D impl ok good h)
    (hok : ok n) (habs : impl.contains h.positions n = false) :
    InvFull D impl ok good (push D impl h n k) := by
  obtain ⟨hlen, hord, hAg, hOk, hgood⟩ := hfull
  have hnone : impl.positionOf h.positions n = none :=
    pos_none_of_contains_false laws habs
  have hAg1 : Agrees D impl (impl.insert h.positions n h.tree.length)
      (h.tree ++ [(n, k)]) := by
    intro m i
    rw [laws.posOf_insert h.positions n h.tree.length hgood hok m]
    by_cases hm : m = n
    · subst hm
      rw [if_pos rfl]
      constructor
      · intro hi
        injection hi with hi
        subst hi
        exact ⟨hlen, by simp, by rw [nodeAt, getAt_append_self]⟩
      · rintro ⟨hi1, hi2, hi3⟩
        simp only [List.length_append, List.length_singleton] at hi2
        by_cases hil : i < h.tree.length
        · rw [nodeAt, getAt_append_lt _ _ _ hil] at hi3
          have := (hAg m i).mpr ⟨hi1, hil, hi3⟩
          rw [hnone] at this
          exact absurd this (by simp)
        · congr 1
          omega
    · rw [if_neg hm]
      constructor
      · intro hi
        obtain ⟨hi1, hi2, hi3⟩ := (hAg m i).mp hi
        exact ⟨hi1, by simp only [List.length_append, List.length_singleton]; omega,
          by rw [nodeAt, getAt_append_lt _ _ _ hi2]; exact hi3⟩
      · rintro ⟨hi1, hi2, hi3⟩
        simp only [List.length_append, List.length_singleton] at hi2
        by_cases hil : i < h.tree.length
        · rw [nodeAt, getAt_append_lt _ _ _ hil] at hi3
          exact (hAg m i).mpr ⟨hi1, hil, hi3⟩
        · have hieq : i = h.tree.length := by omega
          subst hieq
          rw [nodeAt, getAt_append_self] at hi3
          exact absurd (show m = n from hi3.symm) hm
  have hOk1 : OkAll D ok (h.tree ++ [(n, k)]) := by
    intro i hi1 hi2
    simp only [List.length_append, List.length_singleton] at hi2
    by_cases hil : i < h.tree.length
    · rw [nodeAt, getAt_append_lt _ _ _ hil]
      exact hOk i hi1 hil
    · have hieq : i = h.tree.length := by omega
      subst hieq
      rw [nodeAt, getAt_append_self]
      exact hok
  have hpos := heapifyUp_pos laws hD
    ⟨h.tree ++ [(n, k)], impl.insert h.positions n h.tree.length⟩ h.tree.length
    hlen (by simp) hAg1 hOk1 (laws.good_insert _ _ _ hgood)
  have htree := push_tree impl hD h n k ⟨hlen, hord⟩
  exact ⟨htree.2.1.1, htree.2.1.2, hpos.1, hpos.2.1, hpos.2.2⟩

theorem clearFull {D : Nat} {impl : PosImpl P N} {ok : N → Prop} {good : P → Prop}
    (laws : PosLaws impl ok good) (h : Heap N K P)
    (hfull : InvFull D impl ok good h) :
    InvFull D impl ok good (clearOp D impl h) := by
  obtain ⟨hlen, hord, hAg, hOk, hgood⟩ := hfull
  have hclen : (clearOp D impl h).tree.length = offset D := by
    simp [clearOp, List.length_take]
    omega
  refine ⟨le_of_eq hclen.symm, ?_, ?_, ?_, laws.good_clear _ hgood⟩
  · intro c hclen2 hcoff
    rw [hclen] at hclen2
    omega
  · intro m i
    rw [show (clearOp D impl h).positions = impl.pclear h.positions from rfl,
      laws.posOf_clear h.positions m]
    constructor
    · intro hi
      exact absurd hi (by simp)
    · rintro ⟨hi1, hi2, _⟩
      rw [hclen] at hi2
      omega
  · intro i hi1 hi2
    rw [hclen] at hi2
    omega

theorem agrees_congr_nodes {D : Nat} {impl : PosImpl P N} {ps : P} {t1 t2 : List (N × K)}
    (hlen : t1.length = t2.length)
    (hnode : ∀ i, nodeAt t1 i = nodeAt t2 i)
    (hAg : Agrees D impl ps t2) : Agrees D impl ps t1 := by
  intro m i
  constructor
  · intro hi
    obtain ⟨h1, h2, h3⟩ := (hAg m i).mp hi
    exact ⟨h1, by rw [hlen]; exact h2, by rw [hnode i]; exact h3⟩
  · rintro ⟨h1, h2, h3⟩
    rw [hnode i] at h3
    exact (hAg m i).mpr ⟨h1, by rw [← hlen]; exact h2, h3⟩

theorem okAll_congr_nodes {D : Nat} {ok : N → Prop} {t1 t2 : List (N × K)}
    (hlen : t1.length = t2.length)
    (hnode : ∀ i, nodeAt t1 i = nodeAt t2 i)
    (hOk : OkAll D ok t2) : OkAll D ok t1 := by
  intro i h1 h2
  rw [hnode i]
  exact hOk i h1 (by rw [← hlen]; exact h2)

theorem decreaseKeyFull {D : Nat} {impl : PosImpl P N} {ok : N → Prop} {good : P → Prop}
    (laws : PosLaws impl ok good) (hD : 1 ≤ D) (h : Heap N K P) (n : N) (k : K)
    (h2 : Heap N K P) (hsome : decreaseKey D impl h n k = some h2)
    (hfull : InvFull D impl ok good h) :
    InvFull D impl ok good h2 := by
  obtain ⟨hlen, hord, hAg, hOk, hgood⟩ := hfull
  have hsound : ∀ m j, impl.positionOf h.positions m = some j →
      offset D ≤ j ∧ j < h.tree.length := by
    intro m j hj
    obtain ⟨a, b, _⟩ := (hAg m j).mp hj
    exact ⟨a, b⟩
  have htree := decreaseKey_tree impl hD h n k h2 hsome hsound ⟨hlen, hord⟩
  unfold decreaseKey at hsome
  split at hsome
  · exact absurd hsome (by simp)
  next s hpos =>
    split at hsome
    next hk =>
      obtain ⟨hs1, hs2⟩ := hsound n s hpos
      have hnode : ∀ i, nodeAt (h.tree.set s ((getAt h.tree s).1, k)) i =
          nodeAt h.tree i := by
        intro i
        by_cases his : i = s
        · subst his
          rw [nodeAt, getAt_set_self _ _ _ hs2, nodeAt]
        · rw [nodeAt, getAt_set_ne _ _ _ _ (fun hh => his hh.symm), nodeAt]
      have hAg1 : Agrees D impl h.positions (h.tree.set s ((getAt h.tree s).1, k)) :=
        agrees_congr_nodes (List.length_set _ _ _) hnode hAg
      have hOk1 : OkAll D ok (h.tree.set s ((getAt h.tree s).1, k)) :=
        okAll_congr_nodes (List.length_set _ _ _) hnode hOk
      have hpos2 := heapifyUp_pos laws hD
        ⟨h.tree.set s ((getAt h.tree s).1, k), h.positions⟩ s hs1
        (by rw [List.length_set]; exact hs2) hAg1 hOk1 hgood
      cases hsome
      exact ⟨htree.2.1, htree.2.2, hpos2.1, hpos2.2.1, hpos2.2.2⟩
    next hk =>
      exact absurd hsome (by simp)

theorem updateKeyFull {D : Nat} {impl : PosImpl P N} {ok : N → Prop} {good : P → Prop}
    (laws : PosLaws impl ok good) (hD : 1 ≤ D) (h : Heap N K P) (n : N) (k : K)
    (r : ResUpdateKey) (h2 : Heap N K P)
    (hsome : updateKey D impl h n k = some (r, h2))
    (hfull : InvFull D impl ok good h) :
    InvFull D impl ok good h2 := by
  obtain ⟨hlen, hord, hAg, hOk, hgood⟩ := hfull
  have hsound : ∀ m j, impl.positionOf h.positions m = some j →
      offset D ≤ j ∧ j < h.tree.length := by
    intro m j hj
    obtain ⟨a, b, _⟩ := (hAg m j).mp hj
    exact ⟨a, b⟩
  have htree := updateKey_tree impl hD h n k r h2 hsome hsound ⟨hlen, hord⟩
  simp only [updateKey] at hsome
  split at hsome
  · exact absurd hsome (by simp)
  next s hpos =>
    obtain ⟨hs1, hs2⟩ := hsound n s hpos
    have hnode : ∀ i, nodeAt (h.tree.set s ((getAt h.tree s).1, k)) i =
        nodeAt h.tree i := by
      intro i
      by_cases his : i = s
      · subst his
        rw [nodeAt, getAt_set_self _ _ _ hs2, nodeAt]
      · rw [nodeAt, getAt_set_ne _ _ _ _ (fun hh => his hh.symm), nodeAt]
    have hAg1 : Agrees D impl h.positions (h.tree.set s ((getAt h.tree s).1, k)) :=
      agrees_congr_nodes (List.length_set _ _ _) hnode hAg
    have hOk1 : OkAll D ok (h.tree.set s ((getAt h.tree s).1, k)) :=
      okAll_congr_nodes (List.length_set _ _ _) hnode hOk
    split at hsome
    next hup =>
      have hpos2 := heapifyUp_pos laws hD
        ⟨h.tree.set s ((getAt h.tree s).1, k), h.positions⟩ s hs1
        (by rw [List.length_set]; exact hs2) hAg1 hOk1 hgood
      cases hsome
      exact ⟨htree.2.1, htree.2.2, hpos2.1, hpos2.2.1, hpos2.2.2⟩
    next hup =>
      have hpos2 := heapifyDown_pos laws hD
        ⟨h.tree.set s ((getAt h.tree s).1, k), h.positions⟩ s hs1
        (by rw [List.length_set]; exact hs2) hAg1 hOk1 hgood
      cases hsome
      exact ⟨htree.2.1, htree.2.2, hpos2.1, hpos2.2.1, hpos2.2.2⟩

theorem popFull {D : Nat} {impl : PosImpl P N} {ok : N → Prop} {good : P → Prop}
    (laws : PosLaws impl ok good) (hD : 1 ≤ D) (h : Heap N K P)
    (hfull : InvFull D impl ok good h) :
    InvFull D impl ok good (popOp D impl h).2 := by
  obtain ⟨hlen, hord, hAg, hOk, hgood⟩ := hfull
  by_cases hne : h.tree.length = offset D
  · have hid : popOp D impl h = (none, h) := by
      simp only [popOp]
      rw [if_pos hne]
    rw [hid]
    exact ⟨hlen, hord, hAg, hOk, hgood⟩
  · have hlen1 : offset D < h.tree.length := lt_of_le_of_ne hlen (fun hh => hne hh.symm)
    have hlast : offset D ≤ h.tree.length - 1 := by omega
    have hlast2 : h.tree.length - 1 < h.tree.length := by omega
    have hokln : ok (getAt h.tree (h.tree.length - 1)).1 := hOk _ hlast hlast2
    have hokrn : ok (getAt h.tree (offset D)).1 := hOk _ (le_refl _) hlen1
    have hgood1 : good (impl.updatePositionOf h.positions
        (getAt h.tree (h.tree.length - 1)).1 (offset D)) :=
      laws.good_update _ _ _ hgood
    have hgood2 : good (impl.remove (impl.updatePositionOf h.positions
        (getAt h.tree (h.tree.length - 1)).1 (offset D)) (getAt h.tree (offset D)).1) :=
      laws.good_remove _ _ hgood1
    have hps : ∀ m, impl.positionOf (impl.remove (impl.updatePositionOf h.positions
        (getAt h.tree (h.tree.length - 1)).1 (offset D)) (getAt h.tree (offset D)).1) m =
        if m = (getAt h.tree (offset D)).1 then none
        else if m = (getAt h.tree (h.tree.length - 1)).1 then some (offset D)
        else impl.positionOf h.positions m := by
      intro m
      rw [laws.posOf_remove _ _ hgood1 hokrn m]
      by_cases hmr : m = (getAt h.tree (offset D)).1
      · rw [if_pos hmr, if_pos hmr]
      · rw [if_neg hmr, if_neg hmr, laws.posOf_update _ _ _ hgood hokln m]
    have ht1len : ((h.tree.set (offset D) (getAt h.tree (h.tree.length - 1))).take
        (h.tree.length - 1)).length = h.tree.length - 1 := by
      simp [List.length_take, List.length_set]
    have hnode_off : offset D < h.tree.length - 1 →
        nodeAt ((h.tree.set (offset D) (getAt h.tree (h.tree.length - 1))).take
          (h.tree.length - 1)) (offset D) = (getAt h.tree (h.tree.length - 1)).1 := by
      intro hlt
      rw [nodeAt, getAt_take _ _ _ hlt, getAt_set_self _ _ _ hlen1]
    have hnode_other : ∀ i, i ≠ offset D → i < h.tree.length - 1 →
        nodeAt ((h.tree.set (offset D) (getAt h.tree (h.tree.length - 1))).take
          (h.tree.length - 1)) i = nodeAt h.tree i := by
      intro i hio hi
      rw [nodeAt, getAt_take _ _ _ hi, getAt_set_ne _ _ _ _ (fun hh => hio hh.symm), nodeAt]
    have hAg2 : Agrees D impl
        (impl.remove (impl.updatePositionOf h.positions
          (getAt h.tree (h.tree.length - 1)).1 (offset D)) (getAt h.tree (offset D)).1)
        ((h.tree.set (offset D) (getAt h.tree (h.tree.length - 1))).take
          (h.tree.length - 1)) := by
      intro m i
      rw [hps m]
      by_cases hmr : m = (getAt h.tree (offset D)).1
      · rw [if_pos hmr]
        constructor
        · intro hi
          exact absurd hi (by simp)
        · rintro ⟨hi1, hi2, hi3⟩
          rw [ht1len] at hi2
          exfalso
          by_cases hio : i = offset D
          · subst hio
            rw [hnode_off (by omega)] at hi3
            have h1 := (hAg (getAt h.tree (offset D)).1 (offset D)).mpr
              ⟨le_refl _, hlen1, rfl⟩
            have h2 := (hAg (getAt h.tree (offset D)).1 (h.tree.length - 1)).mpr
              ⟨hlast, hlast2, by rw [nodeAt, hi3, hmr]⟩
            rw [h1] at h2
            injection h2 with h2
            omega
          · rw [hnode_other i hio (by omega)] at hi3
            have h1 := (hAg m i).mpr ⟨hi1, by omega, hi3⟩
            have h2 := (hAg (getAt h.tree (offset D)).1 (offset D)).mpr
              ⟨le_refl _, hlen1, rfl⟩
            rw [hmr] at h1
            rw [h1] at h2
            injection h2 with h2
            exact hio h2
      · rw [if_neg hmr]
        by_cases hml : m = (getAt h.tree (h.tree.length - 1)).1
        · rw [if_pos hml]
          have hlnrn : (getAt h.tree (h.tree.length - 1)).1 ≠
              (getAt h.tree (offset D)).1 := fun hh => hmr (hml.trans hh)
          have hoff_lt : offset D < h.tree.length - 1 := by
            rcases Nat.lt_or_ge (offset D) (h.tree.length - 1) with hlt | hge
            · exact hlt
            · exfalso
              have heq : h.tree.length - 1 = offset D := by omega
              apply hlnrn
              rw [heq]
          constructor
          · intro hi
            injection hi with hi
            subst hi
            refine ⟨le_refl _, by rw [ht1len]; exact hoff_lt, ?_⟩
            rw [hnode_off hoff_lt]
            exact hml.symm
          · rintro ⟨hi1, hi2, hi3⟩
            rw [ht1len] at hi2
            by_cases hio : i = offset D
            · rw [hio]
            · exfalso
              rw [hnode_other i hio (by omega)] at hi3
              have h1 := (hAg m i).mpr ⟨hi1, by omega, hi3⟩
              have h2 := (hAg m (h.tree.length - 1)).mpr
                ⟨hlast, hlast2, by rw [nodeAt, ← hml]⟩
              rw [h1] at h2
              injection h2 with h2
              omega
        · rw [if_neg hml]
          constructor
          · intro hi
            obtain ⟨hi1, hi2, hi3⟩ := (hAg m i).mp hi
            have hio : i ≠ offset D := by
              intro hh
              subst hh
              exact hmr hi3.symm
            have hil : i ≠ h.tree.length - 1 := by
              intro hh
              subst hh
              exact hml hi3.symm
            refine ⟨hi1, by rw [ht1len]; omega, ?_⟩
            rw [hnode_other i hio (by omega)]
            exact hi3
          · rintro ⟨hi1, hi2, hi3⟩
            rw [ht1len] at hi2
            by_cases hio : i = offset D
            · exfalso
              subst hio
              rw [hnode_off (by omega)] at hi3
              exact hml hi3.symm
            · rw [hnode_other i hio (by omega)] at hi3
              exact (hAg m i).mpr ⟨hi1, by omega, hi3⟩
    have ht1sub : LiveSub (offset D)
        ((h.tree.set (offset D) (getAt h.tree (h.tree.length - 1))).take (h.tree.length - 1))
        h.tree := by
      intro i hi1 hi2
      rw [ht1len] at hi2
      by_cases hio : offset D = i
      · subst hio
        refine ⟨h.tree.length - 1, hlast, hlast2, ?_⟩
        rw [getAt_take _ _ _ (by omega), getAt_set_self _ _ _ hlen1]
      · refine ⟨i, hi1, by omega, ?_⟩
        rw [getAt_take _ _ _ hi2, getAt_set_ne _ _ _ _ hio]
    have hOk2 : OkAll D ok ((h.tree.set (offset D)
        (getAt h.tree (h.tree.length - 1))).take (h.tree.length - 1)) :=
      okAll_of_liveSub ht1sub hOk
    have hpop : popOp D impl h = (some (getAt h.tree (offset D)),
        heapifyDown D impl
          ⟨(h.tree.set (offset D) (getAt h.tree (h.tree.length - 1))).take (h.tree.length - 1),
            impl.remove (impl.updatePositionOf h.positions
              (getAt h.tree (h.tree.length - 1)).1 (offset D)) (getAt h.tree (offset D)).1⟩
          (offset D)) := by
      simp only [popOp]
      rw [if_neg hne]
    have htree := pop_tree impl hD h ⟨hlen, hord⟩ hne
    have h2eq : (popOp D impl h).2 = heapifyDown D impl
        ⟨(h.tree.set (offset D) (getAt h.tree (h.tree.length - 1))).take (h.tree.length - 1),
          impl.remove (impl.updatePositionOf h.positions
            (getAt h.tree (h.tree.length - 1)).1 (offset D)) (getAt h.tree (offset D)).1⟩
        (offset D) := by rw [hpop]
    rw [h2eq] at htree ⊢
    by_cases hone : h.tree.length - 1 = offset D
    · have hstop : ((h.tree.set (offset D) (getAt h.tree (h.tree.length - 1))).take
          (h.tree.length - 1)).length ≤ left_child_of D (offset D) := by
        rw [ht1len, hone]
        exact le_of_lt (lt_left_child_of hD (le_refl _))
      have hnoop : heapifyDown D impl
          ⟨(h.tree.set (offset D) (getAt h.tree (h.tree.length - 1))).take (h.tree.length - 1),
            impl.remove (impl.updatePositionOf h.positions
              (getAt h.tree (h.tree.length - 1)).1 (offset D)) (getAt h.tree (offset D)).1⟩
          (offset D) =
          ⟨(h.tree.set (offset D) (getAt h.tree (h.tree.length - 1))).take (h.tree.length - 1),
            impl.remove (impl.updatePositionOf h.positions
              (getAt h.tree (h.tree.length - 1)).1 (offset D)) (getAt h.tree (offset D)).1⟩ := by
        unfold heapifyDown
        rw [if_pos hstop]
      rw [hnoop] at htree ⊢
      exact ⟨htree.2.2.1.1, htree.2.2.1.2, hAg2, hOk2, hgood2⟩
    · have hdown := heapifyDown_pos laws hD
        ⟨(h.tree.set (offset D) (getAt h.tree (h.tree.length - 1))).take (h.tree.length - 1),
          impl.remove (impl.updatePositionOf h.positions
            (getAt h.tree (h.tree.length - 1)).1 (offset D)) (getAt h.tree (offset D)).1⟩
        (offset D) (le_refl _) (by rw [ht1len]; omega) hAg2 hOk2 hgood2
      exact ⟨htree.2.2.1.1, htree.2.2.1.2, hdown.1, hdown.2.1, hdown.2.2⟩

theorem pushThenPopFull {D : Nat} {impl : PosImpl P N} {ok : N → Prop} {good : P → Prop}
    (laws : PosLaws impl ok good) (hD : 1 ≤ D) (h : Heap N K P) (n : N) (k : K)
    (hfull : InvFull D impl ok good h)
    (hok : ok n) (habs : impl.contains h.positions n = false) :
    InvFull D impl ok good (pushThenPop D impl h n k).2 := by
  obtain ⟨hlen, hord, hAg, hOk, hgood⟩ := hfull
  have hnone : impl.positionOf h.positions n = none :=
    pos_none_of_contains_false laws habs
  by_cases hfast : h.tree.length = offset D ∨ k ≤ (getAt h.tree (offset D)).2
  · have hid : pushThenPop D impl h n k = ((n, k), h) := by
      simp only [pushThenPop]
      rw [if_pos hfast]
    rw [hid]
    exact ⟨hlen, hord, hAg, hOk, hgood⟩
  · have hlen1 : offset D < h.tree.length := by
      rcases Nat.lt_or_ge (offset D) h.tree.length with hlt | hge
      · exact hlt
      · exact absurd (Or.inl (by omega)) hfast
    have hokrn : ok (getAt h.tree (offset D)).1 := hOk _ (le_refl _) hlen1
    have hgood1 : good (impl.remove h.positions (getAt h.tree (offset D)).1) :=
      laws.good_remove _ _ hgood
    have hgood2 : good (impl.insert (impl.remove h.positions (getAt h.tree (offset D)).1)
        n (offset D)) := laws.good_insert _ _ _ hgood1
    have hps : ∀ m, impl.positionOf (impl.insert
        (impl.remove h.positions (getAt h.tree (offset D)).1) n (offset D)) m =
        if m = n then some (offset D)
        else if m = (getAt h.tree (offset D)).1 then none
        else impl.positionOf h.positions m := by
      intro m
      rw [laws.posOf_insert _ _ _ hgood1 hok m]
      by_cases hmn : m = n
      · rw [if_pos hmn, if_pos hmn]
      · rw [if_neg hmn, if_neg hmn, laws.posOf_remove _ _ hgood hokrn m]
    have ht1len : (h.tree.set (offset D) (n, k)).length = h.tree.length :=
      List.length_set _ _ _
    have hnode_off : nodeAt (h.tree.set (offset D) (n, k)) (offset D) = n := by
      rw [nodeAt, getAt_set_self _ _ _ hlen1]
    have hnode_other : ∀ i, i ≠ offset D →
        nodeAt (h.tree.set (offset D) (n, k)) i = nodeAt h.tree i := by
      intro i hio
      rw [nodeAt, getAt_set_ne _ _ _ _ (fun hh => hio hh.symm), nodeAt]
    have hAg2 : Agrees D impl (impl.insert
        (impl.remove h.positions (getAt h.tree (offset D)).1) n (offset D))
        (h.tree.set (offset D) (n, k)) := by
      intro m i
      rw [hps m]
      by_cases hmn : m = n
      · rw [if_pos hmn]
        subst hmn
        constructor
        · intro hi
          injection hi with hi
          subst hi
          exact ⟨le_refl _, by rw [ht1len]; exact hlen1, hnode_off⟩
        · rintro ⟨hi1, hi2, hi3⟩
          rw [ht1len] at hi2
          by_cases hio : i = offset D
          · rw [hio]
          · exfalso
            rw [hnode_other i hio] at hi3
            have h1 := (hAg m i).mpr ⟨hi1, hi2, hi3⟩
            rw [hnone] at h1
            exact absurd h1 (by simp)
      · rw [if_neg hmn]
        by_cases hmr : m = (getAt h.tree (offset D)).1
        · rw [if_pos hmr]
          constructor
          · intro hi
            exact absurd hi (by simp)
          · rintro ⟨hi1, hi2, hi3⟩
            rw [ht1len] at hi2
            exfalso
            by_cases hio : i = offset D
            · subst hio
              rw [hnode_off] at hi3
              exact hmn hi3.symm
            · rw [hnode_other i hio] at hi3
              have h1 := (hAg m i).mpr ⟨hi1, hi2, hi3⟩
              have h2 := (hAg m (offset D)).mpr ⟨le_refl _, hlen1, hmr.symm⟩
              rw [h1] at h2
              injection h2 with h2
              exact hio h2
        · rw [if_neg hmr]
          constructor
          · intro hi
            obtain ⟨hi1, hi2, hi3⟩ := (hAg m i).mp hi
            have hio : i ≠ offset D := by
              intro hh
              subst hh
              exact hmr hi3.symm
            refine ⟨hi1, by rw [ht1len]; exact hi2, ?_⟩
            rw [hnode_other i hio]
            exact hi3
          · rintro ⟨hi1, hi2, hi3⟩
            rw [ht1len] at hi2
            by_cases hio : i = offset D
            · exfalso
              subst hio
              rw [hnode_off] at hi3
              exact hmn hi3.symm
            · rw [hnode_other i hio] at hi3
              exact (hAg m i).mpr ⟨hi1, hi2, hi3⟩
    have hOk2 : OkAll D ok (h.tree.set (offset D) (n, k)) := by
      intro i hi1 hi2
      rw [ht1len] at hi2
      by_cases hio : i = offset D
      · subst hio
        rw [hnode_off]
        exact hok
      · rw [hnode_other i hio]
        exact hOk i hi1 hi2
    have hptp : pushThenPop D impl h n k = (getAt h.tree (offset D),
        heapifyDown D impl
          ⟨h.tree.set (offset D) (n, k),
            impl.insert (impl.remove h.positions (getAt h.tree (offset D)).1) n (offset D)⟩
          (offset D)) := by
      simp only [pushThenPop]
      rw [if_neg hfast]
    have htree := pushThenPop_tree impl hD h n k ⟨hlen, hord⟩
    have h2eq : (pushThenPop D impl h n k).2 = heapifyDown D impl
        ⟨h.tree.set (offset D) (n, k),
          impl.insert (impl.remove h.positions (getAt h.tree (offset D)).1) n (offset D)⟩
        (offset D) := by rw [hptp]
    rw [h2eq] at htree ⊢
    have hdown := heapifyDown_pos laws hD
      ⟨h.tree.set (offset D) (n, k),
        impl.insert (impl.remove h.positions (getAt h.tree (offset D)).1) n (offset D)⟩
      (offset D) (le_refl _) (by rw [ht1len]; exact hlen1) hAg2 hOk2 hgood2
    exact ⟨htree.2.1, htree.2.2, hdown.1, hdown.2.1, hdown.2.2⟩

theorem removeAndHeapifyFull {D : Nat} {impl : PosImpl P N} {ok : N → Prop}
    {good : P → Prop} (laws : PosLaws impl ok good) (hD : 1 ≤ D) (h : Heap N K P)
    (s : Nat) (hs1 : offset D ≤ s) (hs2 : s < h.tree.length)
    (hfull : InvFull D impl ok good h) :
    InvFull D impl ok good (removeAndHeapify D impl h s) := by
  obtain ⟨hlen, hord, hAg, hOk, hgood⟩ := hfull
  have htree := removeAndHeapify_tree impl hD h s hs1 hs2 ⟨hlen, hord⟩
  have hmain : Agrees D impl (removeAndHeapify D impl h s).positions
      (removeAndHeapify D impl h s).tree ∧
      good (removeAndHeapify D impl h s).positions := by
    simp only [removeAndHeapify]
    by_cases hsingle : h.tree.length = offset D + 1
    · rw [if_pos hsingle]
      have hokrn : ok (getAt h.tree (offset D)).1 := hOk _ (le_refl _) (by omega)
      have hag : Agrees D impl (impl.remove h.positions (getAt h.tree (offset D)).1)
          (h.tree.take (offset D)) := by
        intro m i
        rw [laws.posOf_remove _ _ hgood hokrn m]
        constructor
        · intro hi
          by_cases hmr : m = (getAt h.tree (offset D)).1
          · rw [if_pos hmr] at hi
            exact absurd hi (by simp)
          · rw [if_neg hmr] at hi
            obtain ⟨hi1, hi2, hi3⟩ := (hAg m i).mp hi
            have hieq : i = offset D := by omega
            subst hieq
            exact absurd hi3.symm hmr
        · rintro ⟨hi1, hi2, _⟩
          rw [List.length_take] at hi2
          omega
      exact ⟨hag, laws.good_remove _ _ hgood⟩
    · rw [if_neg hsingle]
      by_cases hlastc : s = h.tree.length - 1
      · rw [if_pos hlastc]
        subst hlastc
        have hokn : ok (getAt h.tree (h.tree.length - 1)).1 := hOk _ hs1 hs2
        have hag : Agrees D impl
            (impl.remove h.positions (getAt h.tree (h.tree.length - 1)).1)
            (h.tree.take (h.tree.length - 1)) := by
          intro m i
          rw [laws.posOf_remove _ _ hgood hokn m]
          by_cases hmr : m = (getAt h.tree (h.tree.length - 1)).1
          · rw [if_pos hmr]
            constructor
            · intro hi
              exact absurd hi (by simp)
            · rintro ⟨hi1, hi2, hi3⟩
              rw [List.length_take] at hi2
              exfalso
              have hi2q : i < h.tree.length - 1 := by omega
              rw [nodeAt, getAt_take _ _ _ hi2q] at hi3
              have h1 := (hAg m i).mpr ⟨hi1, by omega, hi3⟩
              have h2 := (hAg m (h.tree.length - 1)).mpr ⟨hs1, hs2, hmr.symm⟩
              rw [h1] at h2
              injection h2 with h2
              omega
          · rw [if_neg hmr]
            constructor
            · intro hi
              obtain ⟨hi1, hi2, hi3⟩ := (hAg m i).mp hi
              have hil : i ≠ h.tree.length - 1 := by
                intro hh
                subst hh
                exact hmr hi3.symm
              refine ⟨hi1, by rw [List.length_take]; omega, ?_⟩
              rw [nodeAt, getAt_take _ _ _ (by omega)]
              exact hi3
            · rintro ⟨hi1, hi2, hi3⟩
              rw [List.length_take] at hi2
              have hi2q : i < h.tree.length - 1 := by omega
              rw [nodeAt, getAt_take _ _ _ hi2q] at hi3
              exact (hAg m i).mpr ⟨hi1, by omega, hi3⟩
        exact ⟨hag, laws.good_remove _ _ hgood⟩
      · rw [if_neg hlastc]
        have hslast : s < h.tree.length - 1 := by omega
        have hokn : ok (getAt h.tree s).1 := hOk _ hs1 hs2
        have hlast1 : offset D ≤ h.tree.length - 1 := by omega
        have hlast2 : h.tree.length - 1 < h.tree.length := by omega
        have hokln : ok (getAt h.tree (h.tree.length - 1)).1 := hOk _ hlast1 hlast2
        have hgood1 : good (impl.remove h.positions (getAt h.tree s).1) :=
          laws.good_remove _ _ hgood
        have hgood2 : good (impl.updatePositionOf
            (impl.remove h.positions (getAt h.tree s).1)
            (getAt h.tree (h.tree.length - 1)).1 s) := laws.good_update _ _ _ hgood1
        have hps : ∀ m, impl.positionOf (impl.updatePositionOf
            (impl.remove h.positions (getAt h.tree s).1)
            (getAt h.tree (h.tree.length - 1)).1 s) m =
            if m = (getAt h.tree (h.tree.length - 1)).1 then some s
            else if m = (getAt h.tree s).1 then none
            else impl.positionOf h.positions m := by
          intro m
          rw [laws.posOf_update _ _ _ hgood1 hokln m]
          by_cases hml : m = (getAt h.tree (h.tree.length - 1)).1
          · rw [if_pos hml, if_pos hml]
          · rw [if_neg hml, if_neg hml, laws.posOf_remove _ _ hgood hokn m]
        have ht1len : ((h.tree.set s (getAt h.tree (h.tree.length - 1))).take
            (h.tree.length - 1)).length = h.tree.length - 1 := by
          simp [List.length_take, List.length_set]
        have hnode_s : nodeAt ((h.tree.set s (getAt h.tree (h.tree.length - 1))).take
            (h.tree.length - 1)) s = (getAt h.tree (h.tree.length - 1)).1 := by
          rw [nodeAt, getAt_take _ _ _ hslast, getAt_set_self _ _ _ hs2]
        have hnode_other : ∀ i, i ≠ s → i < h.tree.length - 1 →
            nodeAt ((h.tree.set s (getAt h.tree (h.tree.length - 1))).take
              (h.tree.length - 1)) i = nodeAt h.tree i := by
          intro i hio hi
          rw [nodeAt, getAt_take _ _ _ hi,
            getAt_set_ne _ _ _ _ (fun hh => hio hh.symm), nodeAt]
        have hAg2 : Agrees D impl (impl.updatePositionOf
            (impl.remove h.positions (getAt h.tree s).1)
            (getAt h.tree (h.tree.length - 1)).1 s)
            ((h.tree.set s (getAt h.tree (h.tree.length - 1))).take
              (h.tree.length - 1)) := by
          intro m i
          rw [hps m]
          by_cases hml : m = (getAt h.tree (h.tree.length - 1)).1
          · rw [if_pos hml]
            constructor
            · intro hi
              injection hi with hi
              subst hi
              refine ⟨hs1, by rw [ht1len]; exact hslast, ?_⟩
              rw [hnode_s]
              exact hml.symm
            · rintro ⟨hi1, hi2, hi3⟩
              rw [ht1len] at hi2
              by_cases hio : i = s
              · rw [hio]
              · exfalso
                rw [hnode_other i hio hi2] at hi3
                have h1 := (hAg m i).mpr ⟨hi1, by omega, hi3⟩
                have h2 := (hAg m (h.tree.length - 1)).mpr ⟨hlast1, hlast2, hml.symm⟩
                rw [h1] at h2
                injection h2 with h2
                omega
          · rw [if_neg hml]
            by_cases hmn : m = (getAt h.tree s).1
            · rw [if_pos hmn]
              constructor
              · intro hi
                exact absurd hi (by simp)
              · rintro ⟨hi1, hi2, hi3⟩
                rw [ht1len] at hi2
                exfalso
                by_cases hio : i = s
                · subst hio
                  rw [hnode_s] at hi3
                  exact hml hi3.symm
                · rw [hnode_other i hio hi2] at hi3
                  have h1 := (hAg m i).mpr ⟨hi1, by omega, hi3⟩
                  have h2 := (hAg m s).mpr ⟨hs1, hs2, hmn.symm⟩
                  rw [h1] at h2
                  injection h2 with h2
                  exact hio h2
            · rw [if_neg hmn]
              constructor
              · intro hi
                obtain ⟨hi1, hi2, hi3⟩ := (hAg m i).mp hi
                have hio : i ≠ s := by
                  intro hh
                  subst hh
                  exact hmn hi3.symm
                have hil : i ≠ h.tree.length - 1 := by
                  intro hh
                  subst hh
                  exact hml hi3.symm
                refine ⟨hi1, by rw [ht1len]; omega, ?_⟩
                rw [hnode_other i hio (by omega)]
                exact hi3
              · rintro ⟨hi1, hi2, hi3⟩
                rw [ht1len] at hi2
                by_cases hio : i = s
                · exfalso
                  subst hio
                  rw [hnode_s] at hi3
                  exact hml hi3.symm
                · rw [hnode_other i hio hi2] at hi3
                  exact (hAg m i).mpr ⟨hi1, by omega, hi3⟩
        have ht1sub : LiveSub (offset D)
            ((h.tree.set s (getAt h.tree (h.tree.length - 1))).take (h.tree.length - 1))
            h.tree := by
          intro i hi1 hi2
          rw [ht1len] at hi2
          by_cases his : s = i
          · subst his
            refine ⟨h.tree.length - 1, hlast1, hlast2, ?_⟩
            rw [getAt_take _ _ _ hi2, getAt_set_self _ _ _ hs2]
          · refine ⟨i, hi1, by omega, ?_⟩
            rw [getAt_take _ _ _ hi2, getAt_set_ne _ _ _ _ his]
        have hOk2 : OkAll D ok ((h.tree.set s (getAt h.tree (h.tree.length - 1))).take
            (h.tree.length - 1)) := okAll_of_liveSub ht1sub hOk
        by_cases hbranch : offset D < s ∧
            keyAt ((h.tree.set s (getAt h.tree (h.tree.length - 1))).take
              (h.tree.length - 1)) s <
              keyAt ((h.tree.set s (getAt h.tree (h.tree.length - 1))).take
                (h.tree.length - 1)) (parent_of D s)
        · rw [if_pos hbranch]
          have hup := heapifyUp_pos laws hD
            ⟨(h.tree.set s (getAt h.tree (h.tree.length - 1))).take (h.tree.length - 1),
              impl.updatePositionOf (impl.remove h.positions (getAt h.tree s).1)
                (getAt h.tree (h.tree.length - 1)).1 s⟩ s hs1
            (by rw [ht1len]; exact hslast) hAg2 hOk2 hgood2
          exact ⟨hup.1, hup.2.2⟩
        · rw [if_neg hbranch]
          have hdown := heapifyDown_pos laws hD
            ⟨(h.tree.set s (getAt h.tree (h.tree.length - 1))).take (h.tree.length - 1),
              impl.updatePositionOf (impl.remove h.positions (getAt h.tree s).1)
                (getAt h.tree (h.tree.length - 1)).1 s⟩ s hs1
            (by rw [ht1len]; exact hslast) hAg2 hOk2 hgood2
          exact ⟨hdown.1, hdown.2.2⟩
  exact ⟨htree.2.1.1, htree.2.1.2, hmain.1, okAll_of_liveSub htree.2.2 hOk, hmain.2⟩

theorem removeFull {D : Nat} {impl : PosImpl P N} {ok : N → Prop} {good : P → Prop}
    (laws : PosLaws impl ok good) (hD : 1 ≤ D) (h : Heap N K P) (n : N) (k0 : K)
    (h2 : Heap N K P) (hsome : removeOp D impl h n = some (k0, h2))
    (hfull : InvFull D impl ok good h) :
    InvFull D impl ok good h2 := by
  unfold removeOp at hsome
  split at hsome
  · exact absurd hsome (by simp)
  next s hpos =>
    obtain ⟨hs1, hs2, _⟩ := (hfull.2.2.1 n s).mp hpos
    have := removeAndHeapifyFull laws hD h s hs1 hs2 hfull
    cases hsome
    exact this

theorem reachable_invFull {D : Nat} {impl : PosImpl P N} {ok : N → Prop} {good : P → Prop}
    (laws : PosLaws impl ok good) (hD : 1 ≤ D) :
    ∀ h : Heap N K P, Reachable D impl ok good h → InvFull D impl ok good h := by
  intro h0 hr
  induction hr with
  | init ps0 junk hpos hcon hgood =>
    have hlen0 : (newHeap D junk ps0 : Heap N K P).tree.length = offset D := by
      simp [newHeap]
    have hpos0 : (newHeap D junk ps0 : Heap N K P).positions = ps0 := rfl
    refine ⟨le_of_eq hlen0.symm, ?_, ?_, ?_, by rw [hpos0]; exact hgood⟩
    · intro c hclen hcoff
      rw [hlen0] at hclen
      omega
    · intro m i
      rw [hpos0, hpos m]
      constructor
      · intro hi
        exact absurd hi (by simp)
      · rintro ⟨hi1, hi2, _⟩
        rw [hlen0] at hi2
        omega
    · intro i hi1 hi2
      rw [hlen0] at hi2
      omega
  | push n k hr hok hcon ih => exact pushFull laws hD _ n k ih hok hcon
  | pop hr ih => exact popFull laws hD _ ih
  | popNode hr ih =>
    rw [popNodeOp_state]
    exact popFull laws hD _ ih
  | popKey hr ih =>
    rw [popKeyOp_state]
    exact popFull laws hD _ ih
  | clear hr ih => exact clearFull laws _ ih
  | pushThenPop n k hr hok hcon ih => exact pushThenPopFull laws hD _ n k ih hok hcon
  | decreaseKey n k hr hsome ih => exact decreaseKeyFull laws hD _ n k _ hsome ih
  | updateKey n k hr hsome ih => exact updateKeyFull laws hD _ n k _ _ hsome ih
  | tryDecreaseKey n k hr hsome ih =>
    unfold tryDecreaseKey at hsome
    split at hsome
    · exact absurd hsome (by simp)
    next oldKey hkey =>
      split at hsome
      next hlt =>
        rw [Option.map_eq_some'] at hsome
        obtain ⟨h2x, hdec, heq⟩ := hsome
        injection heq with heq1 heq2
        subst heq2
        exact decreaseKeyFull laws hD _ n k _ hdec ih
      next hge =>
        injection hsome with hsome
        injection hsome with hs1 hs2
        subst hs2
        exact ih
  | removeO n hr hsome ih => exact removeFull laws hD _ n _ _ hsome ih
  | decKeyOrPush n k hr hok hsome ih =>
    rename_i h h2 r
    unfold decreaseKeyOrPush at hsome
    split at hsome
    next hcont =>
      rw [Option.map_eq_some'] at hsome
      obtain ⟨h2x, hdec, heq⟩ := hsome
      injection heq with heq1 heq2
      subst heq2
      exact decreaseKeyFull laws hD _ n k _ hdec ih
    next hcont =>
      injection hsome with hsome
      injection hsome with hs1 hs2
      subst hs2
      have hfalse : impl.contains h.positions n = false := by
        simp only [Bool.not_eq_true] at hcont
        exact hcont
      exact pushFull laws hD _ n k ih hok hfalse
  | updKeyOrPush n k hr hok hsome ih =>
    rename_i h h2 r
    unfold updateKeyOrPush at hsome
    split at hsome
    next hcont =>
      rw [Option.map_eq_some'] at hsome
      obtain ⟨⟨r0, h2x⟩, hupd, heq⟩ := hsome
      injection heq with heq1 heq2
      subst heq2
      exact updateKeyFull laws hD _ n k r0 _ hupd ih
    next hcont =>
      injection hsome with hsome
      injection hsome with hs1 hs2
      subst hs2
      have hfalse : impl.contains h.positions n = false := by
        simp only [Bool.not_eq_true] at hcont
        exact hcont
      exact pushFull laws hD _ n k ih hok hfalse
  | tryDecKeyOrPush n k hr hok hsome ih =>
    rename_i h h2 r
    unfold tryDecreaseKeyOrPush at hsome
    split at hsome
    next oldKey hkey =>
      split at hsome
      next hlt =>
        rw [Option.map_eq_some'] at hsome
        obtain ⟨h2x, hdec, heq⟩ := hsome
        injection heq with heq1 heq2
        subst heq2
        exact decreaseKeyFull laws hD _ n k _ hdec ih
      next hge =>
        injection hsome with hsome
        injection hsome with hs1 hs2
        subst hs2
        exact ih
    next hkey =>
      injection hsome with hsome
      injection hsome with hs1 hs2
      subst hs2
      have hpos0 : impl.positionOf h.positions n = none := by
        unfold keyOf at hkey
        cases hcc : impl.positionOf h.positions n with
        | none => rfl
        | some v =>
          rw [hcc] at hkey
          simp at hkey
      have hfalse : impl.contains h.positions n = false := by
        rw [laws.contains_eq, hpos0]
        rfl
      exact pushFull laws hD _ n k ih hok hfalse

theorem popList_chain {D : Nat} {impl : PosImpl P N} {ok : N → Prop} {good : P → Prop}
    (hD : 1 ≤ D)
    (hinv : ∀ h2 : Heap N K P, Reachable D impl ok good h2 → Inv0 D h2.tree) :
    ∀ (fuel : Nat) (h : Heap N K P), Reachable D impl ok good h →
    List.Chain' (· ≤ ·) ((popList D impl fuel h).map Prod.snd) := by
  intro fuel
  induction fuel with
  | zero =>
    intro h _
    simp [popList]
  | succ fuel ih =>
    intro h hr
    cases hp : popOp D impl h with
    | mk o h2 =>
      cases o with
      | none =>
        have hnil : popList D impl (fuel + 1) h = [] := by
          simp only [popList]
          rw [hp]
        rw [hnil]
        simp
      | some nk =>
        have hlist : popList D impl (fuel + 1) h = nk :: popList D impl fuel h2 := by
          simp only [popList]
          rw [hp]
        rw [hlist]
        have hr2 : Reachable D impl ok good h2 := by
          have hrp := Reachable.pop (D := D) hr
          rw [hp] at hrp
          exact hrp
        have hch := ih h2 hr2
        rw [List.map_cons]
        refine List.chain'_cons'.mpr ⟨?_, hch⟩
        intro b hb
        have hne : ¬ h.tree.length = offset D := by
          intro hh
          have : popOp D impl h = (none, h) := by
            simp only [popOp]
            rw [if_pos hh]
          rw [this] at hp
          exact absurd (congrArg Prod.fst hp) (by simp)
        have htr := pop_tree impl hD h (hinv h hr) hne
        have hnk : nk = getAt h.tree (offset D) := by
          have h1 := htr.1
          rw [hp] at h1
          exact Option.some.inj h1
        have h2eq : (popOp D impl h).2 = h2 := by rw [hp]
        cases fuel with
        | zero =>
          simp [popList] at hb
        | succ fuel2 =>
          cases hp2 : popOp D impl h2 with
          | mk o2 h3 =>
            cases o2 with
            | none =>
              have hnil2 : popList D impl (fuel2 + 1) h2 = [] := by
                simp only [popList]
                rw [hp2]
              rw [hnil2] at hb
              simp at hb
            | some nk2 =>
              have hlist2 : popList D impl (fuel2 + 1) h2 = nk2 :: popList D impl fuel2 h3 := by
                simp only [popList]
                rw [hp2]
              rw [hlist2] at hb
              simp only [List.map_cons, List.head?_cons, Option.mem_def] at hb
              injection hb with hb
              subst hb
              have hne2 : ¬ h2.tree.length = offset D := by
                intro hh
                have : popOp D impl h2 = (none, h2) := by
                  simp only [popOp]
                  rw [if_pos hh]
                rw [this] at hp2
                exact absurd (congrArg Prod.fst hp2) (by simp)
              have htr2 := pop_tree impl hD h2 (hinv h2 hr2) hne2
              have hnk2 : nk2 = getAt h2.tree (offset D) := by
                have h1 := htr2.1
                rw [hp2] at h1
                exact Option.some.inj h1
              have hoff2 : offset D < h2.tree.length :=
                lt_of_le_of_ne (hinv h2 hr2).1 (fun hh => hne2 hh.symm)
              have hsub := htr.2.2.2
              rw [h2eq] at hsub
              obtain ⟨j, hj1, hj2, hje⟩ := hsub (offset D) (le_refl _) hoff2
              have hmin := root_min hD h.tree (hinv h hr).2 j hj1 hj2
              rw [hnk, hnk2]
              calc (getAt h.tree (offset D)).2 = keyAt h.tree (offset D) := rfl
                _ ≤ keyAt h.tree j := hmin
                _ = (getAt h.tree j).2 := rfl
                _ = (getAt h2.tree (offset D)).2 := by rw [hje]

theorem mapLaws (N : Type) [DecidableEq N] :
    PosLaws (mapImpl N) (fun _ => True) (fun _ => True) where
  posOf_insert := fun _ _ _ _ _ _ => rfl
  posOf_update := fun _ _ _ _ _ _ => rfl
  posOf_remove := fun _ _ _ _ _ => rfl
  posOf_clear := fun _ _ => rfl
  contains_eq := fun _ _ => rfl
  good_insert := fun _ _ _ _ => trivial
  good_update := fun _ _ _ _ => trivial
  good_remove := fun _ _ _ => trivial
  good_clear := fun _ _ => trivial

theorem getD_map_none : ∀ (l : List (Option Nat)) (i : Nat),
    (l.map fun _ => (none : Option Nat)).getD i none = none := by
  intro l
  induction l with
  | nil => intro i; rfl
  | cons x xs ih =>
    intro i
    cases i with
    | zero => rfl
    | succ i => exact ih i

theorem hasIndexLaws (N : Type) [DecidableEq N] (ix : N → Nat) (b : Nat)
    (hinj : Function.Injective ix) :
    PosLaws (hasIndexImpl N ix) (fun n => ix n < b) (fun p => p.length = b) := by
  constructor
  · intro p n i hg hok m
    show (p.set (ix n) (some i)).getD (ix m) none =
      if m = n then some i else p.getD (ix m) none
    by_cases hm : m = n
    · subst hm
      rw [if_pos rfl]
      show getAt (p.set (ix m) (some i)) (ix m) = some i
      exact getAt_set_self _ _ _ (by rw [hg]; exact hok)
    · rw [if_neg hm]
      show getAt (p.set (ix n) (some i)) (ix m) = getAt p (ix m)
      exact getAt_set_ne _ _ _ _ (fun hh => hm (hinj hh).symm)
  · intro p n i hg hok m
    show (p.set (ix n) (some i)).getD (ix m) none =
      if m = n then some i else p.getD (ix m) none
    by_cases hm : m = n
    · subst hm
      rw [if_pos rfl]
      show getAt (p.set (ix m) (some i)) (ix m) = some i
      exact getAt_set_self _ _ _ (by rw [hg]; exact hok)
    · rw [if_neg hm]
      show getAt (p.set (ix n) (some i)) (ix m) = getAt p (ix m)
      exact getAt_set_ne _ _ _ _ (fun hh => hm (hinj hh).symm)
  · intro p n hg hok m
    show (p.set (ix n) none).getD (ix m) none =
      if m = n then none else p.getD (ix m) none
    by_cases hm : m = n
    · subst hm
      rw [if_pos rfl]
      show getAt (p.set (ix m) none) (ix m) = none
      exact getAt_set_self _ _ _ (by rw [hg]; exact hok)
    · rw [if_neg hm]
      show getAt (p.set (ix n) none) (ix m) = getAt p (ix m)
      exact getAt_set_ne _ _ _ _ (fun hh => hm (hinj hh).symm)
  · intro p m
    exact getD_map_none p (ix m)
  · intro p n
    rfl
  · intro p n i hg
    show (p.set (ix n) (some i)).length = b
    rw [List.length_set]
    exact hg
  · intro p n i hg
    show (p.set (ix n) (some i)).length = b
    rw [List.length_set]
    exact hg
  · intro p n hg
    show (p.set (ix n) none).length = b
    rw [List.length_set]
    exact hg
  · intro p hg
    show (p.map fun _ => none).length = b
    rw [List.length_map]
    exact hg

/-- C1: for every branching factor `D ≥ 1` and every admissible tracker (the
trivial one of the plain heap, or any law-abiding tracker such as the mapped
and indexed ones), starting from any heap state reachable by public
operations, the sequence of keys returned by successive `pop` calls until
the heap is empty is non-decreasing. -/
theorem C1_pop_sorted (D : Nat) (impl : PosImpl P N) (ok : N → Prop) (good : P → Prop)
    (hD : 1 ≤ D) (htrk : TrackerOK impl ok good) (h : Heap N K P)
    (hreach : Reachable D impl ok good h) :
    List.Chain' (· ≤ ·) (popKeys D impl h) := by
  have hinv : ∀ h2 : Heap N K P, Reachable D impl ok good h2 → Inv0 D h2.tree := by
    rcases htrk with ⟨h1, h2c⟩ | hlaws
    · exact fun h2 hr => reachable_inv0_trivial hD h1 h2c h2 hr
    · intro h2 hr
      have hfull := reachable_invFull hlaws hD h2 hr
      exact ⟨hfull.1, hfull.2.1⟩
  exact popList_chain hD hinv h.tree.length h hreach

/-- Witness for C1 on a concrete plain binary heap holding two elements. -/
theorem C1_pop_sorted_witness :
    List.Chain' (· ≤ ·) (popKeys 2 (noneImpl Nat)
      (push 2 (noneImpl Nat) (push 2 (noneImpl Nat)
        (newHeap 2 ((0 : Nat), (0 : Nat)) ()) 7 3) 8 4)) :=
  C1_pop_sorted 2 (noneImpl Nat) (fun _ => True) (fun _ => True) (by decide)
    (Or.inl ⟨fun _ _ => rfl, fun _ _ => rfl⟩) _
    (Reachable.push 8 4 (Reachable.push 7 3
      (Reachable.init () ((0 : Nat), (0 : Nat)) (fun _ => rfl) (fun _ => rfl) trivial)
      trivial rfl) trivial rfl)

/-- C2: for every branching factor `D ≥ 1`, every admissible tracker and
every heap state reachable from a fresh heap by public operations respecting
their preconditions, heap order holds: the key at `parent_of c` is at most
the key at `c` for every live non-root slot `c`. -/
theorem C2_heap_order (D : Nat) (impl : PosImpl P N) (ok : N → Prop) (good : P → Prop)
    (hD : 1 ≤ D) (htrk : TrackerOK impl ok good) (h : Heap N K P)
    (hreach : Reachable D impl ok good h) :
    ∀ c, c < h.tree.length → offset D < c →
      keyAt h.tree (parent_of D c) ≤ keyAt h.tree c := by
  rcases htrk with ⟨h1, h2c⟩ | hlaws
  · exact (reachable_inv0_trivial hD h1 h2c h hreach).2
  · exact (reachable_invFull hlaws hD h hreach).2.1

/-- Witness for C2 at the non-root slot of a concrete two-element heap. -/
theorem C2_heap_order_witness :
    keyAt (push 2 (noneImpl Nat) (push 2 (noneImpl Nat)
      (newHeap 2 ((0 : Nat), (0 : Nat)) ()) 7 3) 8 4).tree (parent_of 2 2) ≤
    keyAt (push 2 (noneImpl Nat) (push 2 (noneImpl Nat)
      (newHeap 2 ((0 : Nat), (0 : Nat)) ()) 7 3) 8 4).tree 2 :=
  C2_heap_order 2 (noneImpl Nat) (fun _ => True) (fun _ => True) (by decide)
    (Or.inl ⟨fun _ _ => rfl, fun _ _ => rfl⟩) _
    (Reachable.push 8 4 (Reachable.push 7 3
      (Reachable.init () ((0 : Nat), (0 : Nat)) (fun _ => rfl) (fun _ => rfl) trivial)
      trivial rfl) trivial rfl)
    2 (by decide) (by decide)

/-- C3: for every law-abiding tracker (the mapped tracker, and the indexed
tracker with an injective in-bound identifier map, satisfy the laws), after
every sequence of public operations the tracker contains exactly the
elements of the live tree, each recorded at the slot that holds it. -/
theorem C3_tracker_agreement (D : Nat) (impl : PosImpl P N) (ok : N → Prop)
    (good : P → Prop) (hD : 1 ≤ D) (hlaws : PosLaws impl ok good) (h : Heap N K P)
    (hreach : Reachable D impl ok good h) :
    ∀ n i, impl.positionOf h.positions n = some i ↔
      (offset D ≤ i ∧ i < h.tree.length ∧ nodeAt h.tree i = n) :=
  (reachable_invFull hlaws hD h hreach).2.2.1

/-- Witness for C3 on a concrete mapped heap after a pop (the moved last
element must be re-recorded at the root slot). -/
theorem C3_tracker_agreement_witness :
    (mapImpl Nat).positionOf (popOp 2 (mapImpl Nat) (push 2 (mapImpl Nat)
      (push 2 (mapImpl Nat) (newHeap 2 ((0 : Nat), (0 : Nat))
        (fun _ => none)) 7 3) 8 4)).2.positions 8 = some 1 ↔
    (offset 2 ≤ 1 ∧
      1 < (popOp 2 (mapImpl Nat) (push 2 (mapImpl Nat) (push 2 (mapImpl Nat)
        (newHeap 2 ((0 : Nat), (0 : Nat)) (fun _ => none)) 7 3) 8 4)).2.tree.length ∧
      nodeAt (popOp 2 (mapImpl Nat) (push 2 (mapImpl Nat) (push 2 (mapImpl Nat)
        (newHeap 2 ((0 : Nat), (0 : Nat)) (fun _ => none)) 7 3) 8 4)).2.tree 1 = 8) :=
  C3_tracker_agreement 2 (mapImpl Nat) (fun _ => True) (fun _ => True) (by decide)
    (mapLaws Nat) _
    (Reachable.pop (Reachable.push 8 4 (Reachable.push 7 3
      (Reachable.init (fun _ => none) ((0 : Nat), (0 : Nat)) (fun _ => rfl)
        (fun _ => rfl) trivial) trivial rfl) trivial rfl))
    8 1
